import Mathlib

/-!
# Verification development for `bot.js`

A shallow embedding of the message-processing pipeline of `src/bot.js`
(`extractTags`, `validateTags`, `ensureAlternatingRoles`, `fetchWithRetry`,
`saveToJson`, `processMessage`) together with theorems about it.

Conventions of the embedding

* A JavaScript string is a `Text`, a list of characters.  The three regular
  expressions of the source and `String.prototype.trim` only distinguish
  characters of the Basic Multilingual Plane, so reading a string as a list
  of code points instead of UTF-16 code units does not change any result.
* A JavaScript object with string keys is an association list in insertion
  order (`Dict`); `Dict.get` is property lookup and `Dict.set` is assignment.
* Everything `processMessage` does to the outside world (model calls, sleeps,
  Telegram sends) is recorded in a list of `Event`s; what the outside world
  answers is supplied by a `World` value.  `console.log` output is not
  recorded.
-/

namespace Bot

/-! ## Strings -/

/-- A JavaScript string. -/
abbrev Text := List Char

/-- The class `\w` of a regular expression without the `u` and `i` flags:
ASCII letters, digits and the underscore. -/
def isWordChar (c : Char) : Bool :=
  ('a' ≤ c && c ≤ 'z') || ('A' ≤ c && c ≤ 'Z') || ('0' ≤ c && c ≤ '9') || c == '_'

/-- The class `[\s\S]`: every character. -/
def anyChar (_ : Char) : Bool := true

/-- The line terminators of ECMAScript: LF, CR, LS and PS. -/
def isLineTerminator (c : Char) : Bool :=
  c.toNat == 0x0A || c.toNat == 0x0D || c.toNat == 0x2028 || c.toNat == 0x2029

/-- The white space of ECMAScript: TAB, VT, FF, SP, NBSP, the space separators of
Unicode and ZWNBSP. -/
def isWhiteSpace (c : Char) : Bool :=
  c.toNat == 0x09 || c.toNat == 0x0B || c.toNat == 0x0C || c.toNat == 0x20 ||
  c.toNat == 0xA0 || c.toNat == 0x1680 || (0x2000 ≤ c.toNat && c.toNat ≤ 0x200A) ||
  c.toNat == 0x202F || c.toNat == 0x205F || c.toNat == 0x3000 || c.toNat == 0xFEFF

/-- The characters `String.prototype.trim` strips: white space and line terminators. -/
def isTrimmed (c : Char) : Bool := isWhiteSpace c || isLineTerminator c

/-- The method `String.prototype.trim`. -/
def trim (s : Text) : Text :=
  ((s.dropWhile isTrimmed).reverse.dropWhile isTrimmed).reverse

/-! ## Regular expressions

The three expressions of the source are built from single characters and
character classes, the greedy `+` and the lazy `*?` on a class, capturing groups,
a back-reference and concatenation.  They are run the way ECMAScript runs them:
by backtracking, with a continuation that stands for the rest of the pattern. -/

/-- The syntax of the regular expressions of the source. -/
inductive Re where
  /-- One character of a class. -/
  | chr (p : Char → Bool)
  /-- The greedy repetition `class+`. -/
  | plus (p : Char → Bool)
  /-- The lazy repetition `class*?`. -/
  | starLazy (p : Char → Bool)
  /-- The capturing group with number `i`. -/
  | group (i : Nat) (r : Re)
  /-- The back-reference to the group with number `i`. -/
  | backref (i : Nat)
  /-- Concatenation. -/
  | seq (r₁ r₂ : Re)

/-- The captures of the groups matched so far, the latest first. -/
abbrev Caps := List (Nat × Text)

/-- The text captured by the group with number `i`, if the group took part. -/
def Caps.get (caps : Caps) (i : Nat) : Option Text :=
  match caps with
  | [] => none
  | (j, w) :: rest => if j = i then some w else Caps.get rest i

/-- Greedy repetition of a class, zero or more times: the longest run is tried
first, and one character is given back at a time while the continuation `k`
fails. -/
def greedyStar {α : Type} (p : Char → Bool) : Text → (Text → Option α) → Option α
  | [], k => k []
  | c :: s, k =>
    if p c then
      match greedyStar p s k with
      | some r => some r
      | none => k (c :: s)
    else k (c :: s)

/-- Lazy repetition of a class, zero or more times: the continuation `k` is tried
first, and one more character of the class is consumed each time it fails. -/
def lazyStar {α : Type} (p : Char → Bool) : Text → (Text → Option α) → Option α
  | [], k => k []
  | c :: s, k =>
    match k (c :: s) with
    | some r => some r
    | none => if p c then lazyStar p s k else none

/-- The backtracking matcher: `r.run s caps k` matches `r` at the start of `s`
with the captures `caps` and hands the rest of the text and the new captures to
the continuation `k`; `none` means that every alternative failed. -/
def Re.run {α : Type} : Re → Text → Caps → (Text → Caps → Option α) → Option α
  | .chr p, s, caps, k =>
    match s with
    | c :: s' => if p c then k s' caps else none
    | [] => none
  | .plus p, s, caps, k =>
    match s with
    | c :: s' => if p c then greedyStar p s' (fun t => k t caps) else none
    | [] => none
  | .starLazy p, s, caps, k => lazyStar p s (fun t => k t caps)
  | .group i r, s, caps, k =>
    r.run s caps (fun t caps' => k t ((i, s.take (s.length - t.length)) :: caps'))
  | .backref i, s, caps, k =>
    match Caps.get caps i with
    | none => k s caps
    | some w => if w.isPrefixOf s then k (s.drop w.length) caps else none
  | .seq r₁ r₂, s, caps, k => r₁.run s caps (fun t caps' => r₂.run t caps' k)

/-- A match of `r` at the start of `s`: the captures and the text behind the match. -/
def Re.matchAt (r : Re) (s : Text) : Option (Caps × Text) :=
  r.run s [] (fun t caps => some (caps, t))

/-- The first match of `r` in `s`, as `RegExp.prototype.exec` finds it: the
start positions are tried from left to right.  The result is the text skipped
before the match, the captures, and the text behind the match. -/
def Re.search (r : Re) : Text → Option (Text × Caps × Text)
  | [] => (r.matchAt []).map (fun m => ([], m.1, m.2))
  | c :: s =>
    match r.matchAt (c :: s) with
    | some m => some ([], m.1, m.2)
    | none => (r.search s).map (fun x => (c :: x.1, x.2.1, x.2.2))

/-- The expression that matches the character `c`. -/
def Re.lit (c : Char) : Re := .chr (fun x => x == c)

/-- The expression that matches the characters of a text and then `r`. -/
def Re.str : Text → Re → Re
  | [], r => r
  | c :: s, r => .seq (Re.lit c) (Re.str s r)

/-! ## Objects with string keys -/

/-- An object whose own properties have string keys, in insertion order. -/
abbrev Dict (α : Type) := List (Text × α)

/-- The property lookup `o[k]`; `none` is `undefined`. -/
def Dict.get {α : Type} : Dict α → Text → Option α
  | [], _ => none
  | (k', v) :: o, k => if k' = k then some v else Dict.get o k

/-- The assignment `o[k] = v`: an existing property keeps its place, a new one
is added at the end. -/
def Dict.set {α : Type} : Dict α → Text → α → Dict α
  | [], k, v => [(k, v)]
  | (k', v') :: o, k, v => if k' = k then (k', v) :: o else (k', v') :: Dict.set o k v

/-! ## `extractTags` (bot.js 42-53) -/

/-- The array `relevantTags` of `extractTags`. -/
def relevantTags : List Text :=
  ["email".toList, "phone".toList, "address".toList, "name".toList, "order".toList]

/-- The expression `/<(\w+)>([\s\S]*?)<\/\1>/g` of bot.js 45. -/
def tagRegex : Re :=
  .seq (Re.lit '<') (.seq (.group 1 (.plus isWordChar)) (.seq (Re.lit '>')
    (.seq (.group 2 (.starLazy anyChar))
      (.seq (Re.lit '<') (.seq (Re.lit '/') (.seq (.backref 1) (Re.lit '>')))))))

/-- The `while ((match = tagRegex.exec(message)) !== null)` loop of
`extractTags`.  `message` is the text from `lastIndex` on, `tags` the object
built so far; the first argument bounds the number of rounds. -/
def extractTagsLoop : Nat → Text → Dict Text → Dict Text
  | 0, _, tags => tags
  | fuel + 1, message, tags =>
    match tagRegex.search message with
    | none => tags
    | some (_, caps, rest) =>
      let name := (Caps.get caps 1).getD []
      let content := (Caps.get caps 2).getD []
      if name ∈ relevantTags then
        extractTagsLoop fuel rest (Dict.set tags name (trim content))
      else
        extractTagsLoop fuel rest tags

/-- The function `extractTags(message)` of bot.js 42-53.  Every match consumes
at least one character, so `message.length + 1` rounds suffice. -/
def extractTags (message : Text) : Dict Text :=
  extractTagsLoop (message.length + 1) message []


/-- The text `<t>c</t>`. -/
def renderTag (t c : Text) : Text :=
  '<' :: t ++ '>' :: c ++ '<' :: '/' :: t ++ ['>']

/-- The concatenation of the tags `<t>c</t>` for the pairs `(t, c)` of a list. -/
def renderTags : List (Text × Text) → Text
  | [] => []
  | p :: ps => renderTag p.1 p.2 ++ renderTags ps

/-- The content of the last pair of the list whose tag name is `k`. -/
def lastContent (pairs : List (Text × Text)) (k : Text) : Option Text :=
  (pairs.reverse.find? (fun p => p.1 = k)).map (fun p => p.2)


/-- One pass of the body of the `while` loop of `extractTags` on a match whose
groups are `p.1` and `p.2`. -/
def recordTag (tags : Dict Text) (p : Text × Text) : Dict Text :=
  if p.1 ∈ relevantTags then Dict.set tags p.1 (trim p.2) else tags


/-- A list of tags in which every tag name is a non-empty word and no content
contains `<`. -/
def WellFormedTags (pairs : List (Text × Text)) : Prop :=
  ∀ p ∈ pairs, p.1 ≠ [] ∧ (∀ ch ∈ p.1, isWordChar ch = true) ∧ '<' ∉ p.2

instance (pairs : List (Text × Text)) : Decidable (WellFormedTags pairs) :=
  inferInstanceAs (Decidable (∀ p ∈ pairs, _))

/-! ## `validateTags` (bot.js 56-65) -/

/-- The array `requiredTags` of `validateTags`. -/
def requiredTags : List Text :=
  ["email".toList, "phone".toList, "address".toList, "name".toList, "order".toList]

/-- Truthiness of the value of a property that holds a string when present:
`undefined` and the empty string are falsy. -/
def truthyText : Option Text → Bool
  | none => false
  | some [] => false
  | some (_ :: _) => true

/-- The array `missingTags = requiredTags.filter(tag => !tags[tag])`. -/
def missingTags (tags : Dict Text) : List Text :=
  requiredTags.filter (fun tag => !truthyText (Dict.get tags tag))

/-- The function `validateTags(tags)` of bot.js 56-65. -/
def validateTags (tags : Dict Text) : Bool :=
  if (missingTags tags).length > 0 then false else true

/-! ## Object spread (bot.js 159) -/

/-- The own property keys of an object, in insertion order. -/
def Dict.keys {α : Type} (o : Dict α) : List Text := o.map Prod.fst

/-- The operation behind `...source` in an object literal: every own key of
`source` is read from `source` and assigned to `target`. -/
def copyDataProperties {α : Type} (target source : Dict α) : Dict α :=
  (Dict.keys source).foldl
    (fun t k =>
      match Dict.get source k with
      | some v => Dict.set t k v
      | none => t)
    target

/-- The object literal `{ ...orderData, ...tags }` of bot.js 159. -/
def mergeSlots (orderData tags : Dict Text) : Dict Text :=
  copyDataProperties (copyDataProperties [] orderData) tags


/-! ## Values received from the model API -/

/-- A value produced by `response.json()`.  A number is kept as an integer: the
code only ever tests a number for being zero. -/
inductive Json where
  | null
  | bool (b : Bool)
  | num (n : Int)
  | str (s : Text)
  | arr (items : List Json)
  | obj (props : List (Text × Json))

/-- A value thrown in the program. -/
inductive JsError where
  /-- A rejection coming from outside: `fetch`, `response.json()` or a Telegram send. -/
  | external (message : Text)
  /-- The error `new Error('API overloaded')` of bot.js 93. -/
  | apiOverloaded
  /-- A `TypeError` raised by the language: a property of `null` or `undefined`
  is read, or something that is not a function is called. -/
  | typeError
deriving DecidableEq, Repr

/-- Lookup of a key in the property list of a JSON object. -/
def Json.lookup : List (Text × Json) → Text → Option Json
  | [], _ => none
  | (k', v) :: props, k => if k' = k then some v else Json.lookup props k

/-- The property name `type`. -/
def keyType : Text := "type".toList

/-- The property name `error`. -/
def keyError : Text := "error".toList

/-- The property name `content`. -/
def keyContent : Text := "content".toList

/-- The property name `text`. -/
def keyText : Text := "text".toList

/-- The property name `0`. -/
def keyZero : Text := "0".toList

/-- The property access `v.key`, for the property names the program reads by
name (`type`, `error`, `content`, `text`): none of them is defined by a
built-in prototype, so only an object can have one.  `none` is `undefined`;
reading a property of `undefined` or `null` throws. -/
def getProp (v : Option Json) (key : Text) : Except JsError (Option Json) :=
  match v with
  | none => .error .typeError
  | some .null => .error .typeError
  | some (.obj props) => .ok (Json.lookup props key)
  | some _ => .ok none

/-- The element access `v[0]`. -/
def getIndex0 (v : Option Json) : Except JsError (Option Json) :=
  match v with
  | none => .error .typeError
  | some .null => .error .typeError
  | some (.arr items) => .ok items.head?
  | some (.str s) => .ok (s.head?.map (fun c => Json.str [c]))
  | some (.obj props) => .ok (Json.lookup props keyZero)
  | some _ => .ok none

/-- Truthiness of a value. -/
def truthy : Option Json → Bool
  | none => false
  | some .null => false
  | some (.bool b) => b
  | some (.num n) => n != 0
  | some (.str s) => s != []
  | some (.arr _) => true
  | some (.obj _) => true

/-- The comparison `v === 'literal'`. -/
def strictEqText (v : Option Json) (literal : Text) : Bool :=
  match v with
  | some (.str s) => s == literal
  | _ => false

/-! ## `fetchWithRetry` (bot.js 85-109) -/

/-- The value of the constant `delay` of bot.js 102, a Number that is not
negative: a natural number of milliseconds, `Infinity`, or `NaN`. -/
inductive Delay where
  /-- A finite delay, in milliseconds. -/
  | ms (n : Nat)
  /-- The value `Infinity`. -/
  | infinity
  /-- The value `NaN`. -/
  | nan
deriving DecidableEq, Repr

/-- Whether the natural number `d` is a value of the Number type, a finite
double: an integer below `2 ^ 53` times a power of two up to `2 ^ 971`. -/
def isDouble (d : Nat) : Bool :=
  (List.range 972).any (fun e => d % 2 ^ e == 0 && d / 2 ^ e < 2 ^ 53)

/-- The expression `initialDelay * Math.pow(2, i)` of bot.js 102 in the double
arithmetic of the language, for a counter `i` and an `initialDelay` that is a
natural number and a double.  `Math.pow(2, i)` is `2 ^ i` up to `i = 1023` and
`Infinity` from `i = 1024` on; the product of a double and a power of two is
exact as long as it is below `2 ^ 1024` and is `Infinity` from there on; the
product `0 * Infinity` is `NaN`. -/
def backoffDelay (initialDelay i : Nat) : Delay :=
  if i < 1024 then
    if initialDelay * 2 ^ i < 2 ^ 1024 then .ms (initialDelay * 2 ^ i) else .infinity
  else if initialDelay = 0 then .nan else .infinity

/-- What `fetchWithRetry` does to the outside world. -/
inductive RetryEvent where
  /-- One call `fetch(url, options)`. -/
  | attempt
  /-- One call `setTimeout(resolve, delay)` with the given value of `delay`. -/
  | sleep (delay : Delay)
deriving DecidableEq, Repr

/-- The condition `data.type === 'error' && data.error.type === 'overloaded_error'`. -/
def isOverloaded (data : Json) : Except JsError Bool := do
  let type ← getProp (some data) keyType
  if strictEqText type "error".toList then
    let error ← getProp (some data) keyError
    let errorType ← getProp error keyType
    pure (strictEqText errorType "overloaded_error".toList)
  else
    pure false

/-- The body of the `try` block of `fetchWithRetry`, given what `fetch` followed
by `response.json()` produced: the parsed body, or the error one of them threw. -/
def tryAttempt (outcome : Except JsError Json) : Except JsError Json := do
  let data ← outcome
  if (← isOverloaded data) then
    throw JsError.apiOverloaded
  pure data

/-- The `for (let i = 0; i < maxRetries; i++)` loop of `fetchWithRetry`, started
at index `i` with `maxRetries - i` iterations left (the first argument).
`outcomes i` is what the network does at the attempt with index `i`.  The result
is the returned payload or the thrown value (`none` is `undefined`), with the
events in order.  `maxRetries` is a natural number up to `2 ^ 53`, the range in
which the counter `i` and `i++` are exact, and `initialDelay` is a natural
number that is a double (`isDouble`). -/
def fetchWithRetryLoop (outcomes : Nat → Except JsError Json) (maxRetries initialDelay : Nat) :
    Nat → Nat → Option JsError → Except (Option JsError) Json × List RetryEvent
  | 0, _, lastError => (.error lastError, [])
  | left + 1, i, lastError =>
    if i < maxRetries then
      match tryAttempt (outcomes i) with
      | .ok data => (.ok data, [RetryEvent.attempt])
      | .error error =>
        let pause :=
          if i < maxRetries - 1 then [RetryEvent.sleep (backoffDelay initialDelay i)] else []
        let later := fetchWithRetryLoop outcomes maxRetries initialDelay left (i + 1) (some error)
        (later.1, RetryEvent.attempt :: pause ++ later.2)
    else
      (.error lastError, [])

/-- The function `fetchWithRetry(url, options, maxRetries, initialDelay)`. -/
def fetchWithRetry (outcomes : Nat → Except JsError Json) (maxRetries initialDelay : Nat) :
    Except (Option JsError) Json × List RetryEvent :=
  fetchWithRetryLoop outcomes maxRetries initialDelay maxRetries 0 none

/-- The delays of the sleeps of a trace, in order. -/
def sleepsOf : List RetryEvent → List Delay
  | [] => []
  | .sleep delay :: es => delay :: sleepsOf es
  | .attempt :: es => sleepsOf es

/-- The number of attempts of a trace. -/
def attemptsOf (es : List RetryEvent) : Nat :=
  es.count RetryEvent.attempt


/-! ## Conversation turns and `ensureAlternatingRoles` (bot.js 68-82) -/

/-- One message of a conversation: `{ role, content }`. -/
structure Turn where
  role : Text
  content : Text
deriving DecidableEq, Repr

/-- The role string `'user'`. -/
def roleUser : Text := "user".toList

/-- The role string `'assistant'`. -/
def roleAssistant : Text := "assistant".toList

/-- The placeholder text of the synthetic assistant turn (bot.js 76). -/
def fillerContent : Text := "Продолжайте, пожалуйста.".toList

/-- The turn `{ role: 'assistant', content: 'Продолжайте, пожалуйста.' }`. -/
def fillerTurn : Turn := { role := roleAssistant, content := fillerContent }

/-- The `for (const message of context)` loop of `ensureAlternatingRoles`.
`lastRole` is `none` for JavaScript `null`; `fixedContext` is the array built
so far. -/
def ensureAlternatingRolesLoop : List Turn → Option Text → List Turn → List Turn
  | [], _, fixedContext => fixedContext
  | message :: rest, lastRole, fixedContext =>
    if some message.role ≠ lastRole then
      ensureAlternatingRolesLoop rest (some message.role) (fixedContext ++ [message])
    else if message.role = roleUser then
      ensureAlternatingRolesLoop rest (some roleUser) (fixedContext ++ [fillerTurn, message])
    else
      ensureAlternatingRolesLoop rest lastRole fixedContext

/-- The function `ensureAlternatingRoles(context)` of bot.js 68-82. -/
def ensureAlternatingRoles (context : List Turn) : List Turn :=
  ensureAlternatingRolesLoop context none []

/-- No two adjacent turns of the list have the same role. -/
def Alternating (ts : List Turn) : Prop :=
  List.Chain' (fun a b => a.role ≠ b.role) ts

/-! ## String replacement -/

/-- The first occurrence of `pattern` in a text: the text before it and the text
after it. -/
def splitAtFirst (pattern : Text) : Text → Option (Text × Text)
  | [] => if pattern.isPrefixOf [] then some ([], []) else none
  | c :: s =>
    if pattern.isPrefixOf (c :: s) then some ([], (c :: s).drop pattern.length)
    else (splitAtFirst pattern s).map (fun x => (c :: x.1, x.2))

/-- The expansion of the replacement text of `String.prototype.replace` for a
string pattern: `$$` is a dollar sign, `$&` the matched text, a dollar sign
followed by a backtick the text before the match, a dollar sign followed by an
apostrophe the text after it; there are no groups, so every other character
stands for itself. -/
def expandReplacement (before matched after : Text) : Text → Text
  | [] => []
  | [c] => [c]
  | c :: d :: r =>
    if c = '$' then
      if d = '$' then '$' :: expandReplacement before matched after r
      else if d = '&' then matched ++ expandReplacement before matched after r
      else if d = Char.ofNat 96 then before ++ expandReplacement before matched after r
      else if d = Char.ofNat 39 then after ++ expandReplacement before matched after r
      else c :: expandReplacement before matched after (d :: r)
    else c :: expandReplacement before matched after (d :: r)

/-- The call `s.replace(pattern, replacement)` with a string pattern: the first
occurrence of the pattern, if there is one, is replaced. -/
def jsReplace (s pattern replacement : Text) : Text :=
  match splitAtFirst pattern s with
  | none => s
  | some (before, after) =>
    before ++ expandReplacement before pattern after replacement ++ after

/-- The loop behind `s.replace(r, '')` for a global expression `r` that matches
no empty text: the text between the matches is kept, the matches are dropped. -/
def Re.removeAllLoop (r : Re) : Nat → Text → Text
  | 0, s => s
  | fuel + 1, s =>
    match r.search s with
    | none => s
    | some (skipped, _, rest) => skipped ++ Re.removeAllLoop r fuel rest

/-- The call `s.replace(r, '')` for a global expression `r` that matches no empty
text; every match consumes a character, so `s.length + 1` rounds suffice. -/
def Re.removeAll (r : Re) (s : Text) : Text :=
  r.removeAllLoop (s.length + 1) s

/-! ## `saveToJson` and `processMessage` (bot.js 31-39, 112-188) -/

/-- The state kept for one user in `userStates`. -/
structure Session where
  context : List Turn
  userName : Text
  orderData : Dict Text
deriving DecidableEq, Repr

/-- What is fixed when a message is processed: the template exported by
`prompt.js` and the text `JSON.stringify(coffeeData)`. -/
structure Config where
  promptTemplate : Text
  coffeeJson : Text

/-- What the outside world answers during one call of `processMessage`. -/
structure World where
  /-- What `fetch` followed by `response.json()` produces at the attempt with the
  given index. -/
  outcomes : Nat → Except JsError Json
  /-- Whether `dataBot.telegram.sendMessage` resolves or rejects. -/
  orderSend : Except JsError Unit
  /-- Whether `logBot.telegram.sendMessage` resolves or rejects. -/
  logSend : Except JsError Unit

/-- What `processMessage` does to the outside world. -/
inductive Event where
  /-- One call of `fetch` with the given `system` prompt and `messages`. -/
  | fetch (system : Text) (messages : List Turn)
  /-- One backoff sleep. -/
  | sleep (delay : Delay)
  /-- One call `dataBot.telegram.sendMessage(TELEGRAM_CHAT_ID, message)`. -/
  | orderSend (message : Text)
  /-- One call `logBot.telegram.sendMessage(NEW_TELEGRAM_CHAT_ID, message)`. -/
  | logSend (message : Text)
deriving DecidableEq, Repr

/-- The text of `${data.key}` in a template literal. -/
def fieldText (data : Dict Text) (key : Text) : Text :=
  match Dict.get data key with
  | some v => v
  | none => "undefined".toList

/-- The text `orderMessage` of `saveToJson`. -/
def orderMessage (data : Dict Text) : Text :=
  "Новый заказ:\nИмя: ".toList ++ fieldText data "name".toList ++
  "\nEmail: ".toList ++ fieldText data "email".toList ++
  "\nТелефон: ".toList ++ fieldText data "phone".toList ++
  "\nАдрес: ".toList ++ fieldText data "address".toList ++
  "\nЗаказ: ".toList ++ fieldText data "order".toList

/-- The function `saveToJson(userId, data)`: one send to the order chat; a
rejection of the send is caught and only logged to the console.  The first
component is what the caller sees of the call. -/
def saveToJson (send : Except JsError Unit) (_userId : Text) (data : Dict Text) :
    Except JsError Unit × List Event :=
  match send with
  | .ok _ => (.ok (), [Event.orderSend (orderMessage data)])
  | .error _ => (.ok (), [Event.orderSend (orderMessage data)])

/-- The expression `/<response>([\s\S]*?)<\/response>/` of bot.js 154. -/
def responseRegex : Re :=
  Re.str "<response>".toList
    (.seq (.group 1 (.starLazy anyChar)) (Re.str "</response".toList (Re.lit '>')))

/-- The class `[^>]`. -/
def notGt (c : Char) : Bool := c != '>'

/-- The class `.`: every character but a line terminator. -/
def dotChar (c : Char) : Bool := !isLineTerminator c

/-- The expression `/<[^>]+>.*?<\/[^>]+>/g` of bot.js 170. -/
def cleanRegex : Re :=
  .seq (Re.lit '<') (.seq (.plus notGt) (.seq (Re.lit '>') (.seq (.starLazy dotChar)
    (.seq (Re.lit '<') (.seq (Re.lit '/') (.seq (.plus notGt) (Re.lit '>')))))))

/-- The reply of bot.js 178. -/
def parseApology : Text := "Извините, произошла ошибка при обработке ответа.".toList

/-- The reply of bot.js 182. -/
def shapeApology : Text :=
  "Извините, произошла ошибка при обработке вашего запроса. Пожалуйста, попробуйте еще раз чуть позже.".toList

/-- The reply of bot.js 186. -/
def overloadApology : Text :=
  "Извините, в данный момент сервис перегружен. Пожалуйста, попробуйте еще раз через несколько минут.".toList

/-- The value of `data && data.content && data.content[0] && data.content[0].text`
when it is truthy, `none` when it is falsy. -/
def guardedText (data : Json) : Except JsError (Option Json) := do
  if !truthy (some data) then return none
  let content ← getProp (some data) keyContent
  if !truthy content then return none
  let first ← getIndex0 content
  if !truthy first then return none
  let text ← getProp first keyText
  if !truthy text then return none
  return text

/-- The event of `processMessage` for an event of `fetchWithRetry`. -/
def requestEvent (system : Text) (messages : List Turn) : RetryEvent → Event
  | .attempt => Event.fetch system messages
  | .sleep delay => Event.sleep delay

/-- The text `logMessage` of bot.js 172. -/
def logMessage (userName userMessage cleanResponse : Text) : Text :=
  "Диалог:\nUser ".toList ++ userName ++ ": ".toList ++ userMessage ++
  "\nBot: ".toList ++ cleanResponse

/-- The `try` block of `processMessage` (bot.js 133-183), run on the session of
the user after the user turn has been appended.  The result is the returned
reply or the thrown value, the session afterwards, and the events in order. -/
def tryBlock (w : World) (userId userName userMessage : Text) (session : Session)
    (filledPrompt : Text) (fixedContext : List Turn) :
    Except (Option JsError) Text × Session × List Event :=
  let fetched := fetchWithRetry w.outcomes 3 1000
  let fetchEvents := fetched.2.map (requestEvent filledPrompt fixedContext)
  match fetched.1 with
  | .error e => (.error e, session, fetchEvents)
  | .ok data =>
    match guardedText data with
    | .error e => (.error (some e), session, fetchEvents)
    | .ok none => (.ok shapeApology, session, fetchEvents)
    | .ok (some (.str replyMessage)) =>
      match responseRegex.search replyMessage with
      | some (_, caps, _) =>
        let responseContent := (Caps.get caps 1).getD []
        let tags := extractTags responseContent
        let session₁ := { session with orderData := mergeSlots session.orderData tags }
        let saved :=
          if validateTags session₁.orderData then
            saveToJson w.orderSend userId session₁.orderData
          else (.ok (), [])
        match saved.1 with
        | .error e => (.error (some e), session₁, fetchEvents ++ saved.2)
        | .ok _ =>
          let session₂ :=
            { session₁ with
              context := session₁.context ++ [{ role := roleAssistant, content := responseContent }] }
          let cleanResponse := cleanRegex.removeAll responseContent
          let events :=
            fetchEvents ++ saved.2 ++ [Event.logSend (logMessage userName userMessage cleanResponse)]
          match w.logSend with
          | .error e => (.error (some e), session₂, events)
          | .ok _ => (.ok cleanResponse, session₂, events)
      | none => (.ok parseApology, session, fetchEvents)
    | .ok (some _) => (.error (some JsError.typeError), session, fetchEvents)

/-- What a call of `processMessage` leaves behind. -/
structure Outcome where
  userStates : Dict Session
  reply : Text
  events : List Event

/-- Lines 115-123 of bot.js: the session of the user, created if there is none,
with the user turn appended to its context.  A user identifier is the decimal
text of a Telegram id, so it never names a property that `userStates` inherits. -/
def openSession (userStates : Dict Session) (userId userName userMessage : Text) : Session :=
  let created : Session :=
    match Dict.get userStates userId with
    | some session => session
    | none => { context := [], userName := userName, orderData := [] }
  { created with context := created.context ++ [{ role := roleUser, content := userMessage }] }

/-- Lines 127-130 of bot.js: the prompt with its three placeholders replaced. -/
def fillPrompt (cfg : Config) (userMessage userName : Text) : Text :=
  jsReplace
    (jsReplace
      (jsReplace cfg.promptTemplate "\x7b\x7bCOFFEE_DOCUMENT\x7d\x7d".toList cfg.coffeeJson)
      "\x7b\x7bUSER_INPUT\x7d\x7d".toList userMessage)
    "\x7b\x7bUSER_NAME\x7d\x7d".toList userName

/-- The function `processMessage(userId, userName, userMessage)` of bot.js
112-188, run on the store `userStates`: the `try` block, and the `catch` that
turns every thrown value into the reply of line 186. -/
def processMessage (cfg : Config) (w : World) (userStates : Dict Session)
    (userId userName userMessage : Text) : Outcome :=
  let session := openSession userStates userId userName userMessage
  let fixedContext := ensureAlternatingRoles session.context
  let filledPrompt := fillPrompt cfg userMessage userName
  match tryBlock w userId userName userMessage session filledPrompt fixedContext with
  | (.ok reply, session', events) =>
    { userStates := Dict.set userStates userId session', reply := reply, events := events }
  | (.error _, session', events) =>
    { userStates := Dict.set userStates userId session', reply := overloadApology,
      events := events }

/-- The number of order-delivery calls in a list of events. -/
def orderSends : List Event → Nat
  | [] => 0
  | .orderSend _ :: es => orderSends es + 1
  | _ :: es => orderSends es


/-! ## Notions used to state the properties of `processMessage` -/

/-- The opening delimiter `<response>`. -/
def openTag : Text := "<response>".toList

/-- The closing delimiter `</response>`. -/
def closeTag : Text := "</response>".toList

/-- The text contains a block `<response>` ... `</response>`. -/
def HasResponseBlock (text : Text) : Prop :=
  ∃ a b c : Text, text = a ++ openTag ++ b ++ closeTag ++ c

/-- The value of `data.content[0].text`. -/
def contentText (data : Json) : Except JsError (Option Json) := do
  let content ← getProp (some data) keyContent
  let first ← getIndex0 content
  getProp first keyText

/-- The text the model replies with in a call: the payload `fetchWithRetry`
returns has a string in `content[0].text`. -/
def modelText (w : World) : Option Text :=
  match (fetchWithRetry w.outcomes 3 1000).1 with
  | .ok data =>
    match contentText data with
    | .ok (some (.str text)) => some text
    | _ => none
  | .error _ => none

/-- The content of the response block of a call that gets through the parse
step: `fetchWithRetry` returns a payload, `content[0].text` is a non-empty
string, and the response expression matches in it. -/
def turnContent (w : World) : Option Text :=
  match (fetchWithRetry w.outcomes 3 1000).1 with
  | .ok data =>
    match guardedText data with
    | .ok (some (.str replyMessage)) =>
      match responseRegex.search replyMessage with
      | some (_, caps, _) => some ((Caps.get caps 1).getD [])
      | none => none
    | _ => none
  | .error _ => none

/-- The slots stored for a user; a user without a session has none. -/
def orderDataOf (userStates : Dict Session) (userId : Text) : Dict Text :=
  match Dict.get userStates userId with
  | some session => session.orderData
  | none => []

/-- One incoming message together with what the outside world answers while it
is processed. -/
structure Call where
  world : World
  userName : Text
  userMessage : Text

/-- A sequence of calls of `processMessage` for one user, one after the other;
the result lists what each call leaves behind. -/
def runCalls (cfg : Config) (userId : Text) : Dict Session → List Call → List Outcome
  | _, [] => []
  | userStates, c :: cs =>
    let out := processMessage cfg c.world userStates userId c.userName c.userMessage
    out :: runCalls cfg userId out.userStates cs


/-- The events of the model call of a turn. -/
def fetchEventsOf (cfg : Config) (w : World) (userStates : Dict Session)
    (userId userName userMessage : Text) : List Event :=
  (fetchWithRetry w.outcomes 3 1000).2.map
    (requestEvent (fillPrompt cfg userMessage userName)
      (ensureAlternatingRoles (openSession userStates userId userName userMessage).context))

/-- The session a turn leaves behind when its reply has the response content
`content`: the slots are merged and the assistant turn is appended. -/
def closeSession (session : Session) (content : Text) : Session :=
  { context := session.context ++ [{ role := roleAssistant, content := content }],
    userName := session.userName,
    orderData := mergeSlots session.orderData (extractTags content) }


/-- A failing turn: the model call exhausts its retries, or the payload has no
truthy `content[0].text`, or the reply text has no response block. -/
def FailingTurn (w : World) : Prop :=
  (∃ e, (fetchWithRetry w.outcomes 3 1000).1 = .error e) ∨
  (∃ data, (fetchWithRetry w.outcomes 3 1000).1 = .ok data ∧ guardedText data = .ok none) ∨
  (∃ text, modelText w = some text ∧ text ≠ [] ∧ ¬ HasResponseBlock text)

/-- The payload `{ content: [{ type: 'text', text }] }`. -/
def textPayload (text : Text) : Json :=
  .obj [(keyContent, .arr [.obj [(keyType, .str "text".toList), (keyText, .str text)]])]

/-- A world in which the first attempt returns a payload with the given text and
the two Telegram sends behave as given. -/
def replyWorld (text : Text) (orderSend logSend : Except JsError Unit) : World :=
  { outcomes := fun _ => .ok (textPayload text), orderSend := orderSend, logSend := logSend }

/-- A configuration for the examples. -/
def sampleConfig : Config :=
  { promptTemplate := "\x7b\x7bCOFFEE_DOCUMENT\x7d\x7d \x7b\x7bUSER_NAME\x7d\x7d: \x7b\x7bUSER_INPUT\x7d\x7d".toList,
    coffeeJson := "\x7b\x7d".toList }


/-- A world in which every attempt of the model call is rejected. -/
def downWorld : World :=
  { outcomes := fun _ => .error (JsError.external "down".toList),
    orderSend := .ok (), logSend := .ok () }

/-- A store with one session in which the slot `name` is filled. -/
def oneSlotStates : Dict Session :=
  [("1".toList,
    { context := [], userName := "Bob".toList, orderData := [("name".toList, "Ann".toList)] })]

/-- A store with one session in which all five slots are filled. -/
def fullStates : Dict Session :=
  [("1".toList,
    { context := [], userName := "Bob".toList,
      orderData := [("name".toList, "Ann".toList), ("email".toList, "a@b.c".toList),
        ("phone".toList, "555".toList), ("address".toList, "1 Main St".toList),
        ("order".toList, "latte".toList)] })]


/-- The extracted map holds exactly the given keys, each with a non-empty value. -/
def Yields (tags : Dict Text) (keys : List Text) : Prop :=
  (∀ k ∈ Dict.keys tags, k ∈ keys) ∧ (∀ k ∈ keys, truthyText (Dict.get tags k) = true)

instance (tags : Dict Text) (keys : List Text) : Decidable (Yields tags keys) :=
  inferInstanceAs (Decidable (_ ∧ _))

/-- A call whose reply is the given text at the first attempt, with both Telegram
sends resolving. -/
def replyCall (text userMessage : Text) : Call :=
  { world := replyWorld text (.ok ()) (.ok ()), userName := "Bob".toList,
    userMessage := userMessage }

/-- A reply that fills the slots `name` and `email`. -/
def replyNameEmail : Text :=
  "<response>Thanks <name>Ann</name><email>a@b.c</email></response>".toList

/-- A reply that fills the slots `phone`, `address` and `order`. -/
def replyRest : Text :=
  "<response><phone>555</phone><address>1 Main St</address><order>latte</order>Done</response>".toList

/-- A reply that fills all five slots. -/
def replyAll : Text :=
  "<response><name>Ann</name><email>a@b.c</email><phone>555</phone><address>1 Main St</address><order>latte</order>Done</response>".toList

/-- A reply without any slot tag. -/
def replyPlain : Text := "<response>Anything else?</response>".toList


/-- The body `{ type: 'error', error: { type: 'overloaded_error', message } }`. -/
def overloadedBody : Json :=
  .obj [(keyType, .str "error".toList),
    (keyError, .obj [(keyType, .str "overloaded_error".toList),
      ("message".toList, .str "Overloaded".toList)])]

/-- A network on which the first attempt is rejected and every later one is
answered with an overloaded error. -/
def failingOutcomes (i : Nat) : Except JsError Json :=
  if i = 0 then .error (JsError.external "socket hang up".toList) else .ok overloadedBody


/-- What the loop of `fetchWithRetry` does at index `i` when the attempt fails:
the attempt, followed by the backoff sleep unless it was the last attempt. -/
def failedStep (maxRetries initialDelay i : Nat) : List RetryEvent :=
  RetryEvent.attempt ::
    (if i + 1 < maxRetries then [RetryEvent.sleep (backoffDelay initialDelay i)] else [])

/-- The trace of `count` failed attempts in a row, the first with index `i`. -/
def failedSteps (maxRetries initialDelay : Nat) : Nat → Nat → List RetryEvent
  | 0, _ => []
  | count + 1, i =>
    failedStep maxRetries initialDelay i ++ failedSteps maxRetries initialDelay count (i + 1)


/-! ## Notions used to state the properties of `ensureAlternatingRoles` -/

/-- The turns the loop of `ensureAlternatingRoles` appends to `fixedContext` for
the rest of the input, given `lastRole`. -/
def appendedFrom : Option Text → List Turn → List Turn
  | _, [] => []
  | lastRole, message :: rest =>
    if some message.role ≠ lastRole then
      message :: appendedFrom (some message.role) rest
    else if message.role = roleUser then
      fillerTurn :: message :: appendedFrom (some roleUser) rest
    else
      appendedFrom lastRole rest

/-- The input without the turns that repeat the role of the input turn directly
before them with a role other than `user`; `previous` is the role of the input
turn directly before the list. -/
def keptFrom : Option Text → List Turn → List Turn
  | _, [] => []
  | previous, message :: rest =>
    if some message.role = previous ∧ message.role ≠ roleUser then
      keptFrom (some message.role) rest
    else
      message :: keptFrom (some message.role) rest

/-- The input without the turns that repeat the role of the input turn directly
before them with a role other than `user` (an assistant turn that directly
follows an assistant turn). -/
def keptTurns (context : List Turn) : List Turn := keptFrom none context

/-- No turn of the list repeats the role of the turn directly before it with a
role other than `user`. -/
def NoRepeatedReply (ts : List Turn) : Prop :=
  List.Chain' (fun a b => ¬ (a.role = b.role ∧ b.role ≠ roleUser)) ts

/-- The second list arises from the first by putting the filler turn immediately
before some of its `user` turns. -/
inductive InsertedFillers : List Turn → List Turn → Prop
  | nil : InsertedFillers [] []
  | keep (t : Turn) {xs ys : List Turn} :
      InsertedFillers xs ys → InsertedFillers (t :: xs) (t :: ys)
  | fill (t : Turn) {xs ys : List Turn} :
      t.role = roleUser → InsertedFillers xs ys →
      InsertedFillers (t :: xs) (fillerTurn :: t :: ys)

/-- The `user` turns of a list, in order. -/
def userTurns (ts : List Turn) : List Turn :=
  ts.filter (fun t => t.role = roleUser)

/-- Two assistant turns in a row. -/
def twoReplies : List Turn :=
  [{ role := roleAssistant, content := "a".toList },
   { role := roleAssistant, content := "b".toList }]

/-- A conversation in which the user writes twice in a row. -/
def twoQuestions : List Turn :=
  [{ role := roleUser, content := "hi".toList },
   { role := roleAssistant, content := "hello".toList },
   { role := roleUser, content := "one latte".toList },
   { role := roleUser, content := "and a bagel".toList }]

/-- A network on which the first two attempts are answered with an overloaded
error and the third with a reply. -/
def recoveringOutcomes (i : Nat) : Except JsError Json :=
  if i < 2 then .ok overloadedBody else .ok (textPayload "<response>Hi</response>".toList)

/-- The text has no leading and no trailing white space. -/
def Trimmed (v : Text) : Prop :=
  (∀ c, v.head? = some c → isTrimmed c = false) ∧
  (∀ c, v.getLast? = some c → isTrimmed c = false)

/-- A sequence of calls of `processMessage`, each for its own user identifier,
one after the other; the result is the store they leave. -/
def runStore (cfg : Config) : Dict Session → List (Text × Call) → Dict Session
  | userStates, [] => userStates
  | userStates, (userId, c) :: rest =>
    runStore cfg
      (processMessage cfg c.world userStates userId c.userName c.userMessage).userStates rest

/-- Every slot of every session holds an allow-listed key and a value without
leading or trailing white space. -/
def CleanStore (userStates : Dict Session) : Prop :=
  ∀ entry ∈ userStates, ∀ slot ∈ entry.2.orderData,
    slot.1 ∈ relevantTags ∧ Trimmed slot.2

/-- A reply that fills four slots and sends white space only for `name`. -/
def replyBlankName : Text :=
  "<response><name>   </name><email>a@b.c</email><phone>555</phone><address>1 Main St</address><order>latte</order>Done</response>".toList

/-- The calls of two users, one after the other. -/
def twoUserArrivals : List (Text × Call) :=
  [("1".toList, replyCall replyBlankName "hi".toList),
   ("2".toList, replyCall replyNameEmail "hello".toList)]

/-- The session of the first user after `twoUserArrivals`. -/
def blankNameSession : Session :=
  { context :=
      [{ role := roleUser, content := "hi".toList },
       { role := roleAssistant,
         content := "<name>   </name><email>a@b.c</email><phone>555</phone><address>1 Main St</address><order>latte</order>Done".toList }],
    userName := "Bob".toList,
    orderData :=
      [("name".toList, []), ("email".toList, "a@b.c".toList), ("phone".toList, "555".toList),
       ("address".toList, "1 Main St".toList), ("order".toList, "latte".toList)] }

/-- The first turn of the list, if there is one, is a `user` turn. -/
def StartsWithUser (ts : List Turn) : Prop :=
  ∀ t, ts.head? = some t → t.role = roleUser

/-- No two adjacent turns of the list are both `assistant` turns. -/
def NoAdjacentReplies (ts : List Turn) : Prop :=
  List.Chain' (fun a b => ¬ (a.role = roleAssistant ∧ b.role = roleAssistant)) ts

/-- Every turn of the list is a `user` turn or an `assistant` turn. -/
def TwoRoles (ts : List Turn) : Prop :=
  ∀ t ∈ ts, t.role = roleUser ∨ t.role = roleAssistant

/-- The shape of a stored context: `user` and `assistant` turns only, a `user`
turn first, and no turn that repeats the role of the turn before it unless it is
a `user` turn. -/
def Dialogue (ts : List Turn) : Prop :=
  TwoRoles ts ∧ StartsWithUser ts ∧ NoRepeatedReply ts

/-- The stored context of the user, if the user has a session, is a dialogue. -/
def ContextOk (userStates : Dict Session) (userId : Text) : Prop :=
  ∀ session, Dict.get userStates userId = some session → Dialogue session.context

/-- A conversation of three calls: a reply without a response block, an outage,
and a reply with a response block. -/
def threeCalls : List Call :=
  [replyCall "We have espresso.".toList "hi".toList,
   { world := downWorld, userName := "Bob".toList, userMessage := "hello?".toList },
   replyCall replyPlain "one latte".toList]

/-- A template that contains each of the three placeholders exactly once. -/
def menuConfig : Config :=
  { promptTemplate :=
      "Menu: \x7b\x7bCOFFEE_DOCUMENT\x7d\x7d\nMessage: \x7b\x7bUSER_INPUT\x7d\x7d\nFrom: \x7b\x7bUSER_NAME\x7d\x7d".toList,
    coffeeJson := "\x7b\x7d".toList }

/-! ## Notions used to state what `extractTags` records -/

/-- The opening tag `<w>`. -/
def openingTag (w : Text) : Text := '<' :: w ++ ['>']

/-- The closing tag `</w>`. -/
def closingTag (w : Text) : Text := '<' :: '/' :: w ++ ['>']

/-- Some opening tag `<w>` of `pre` is not closed in what follows it in `pre`
but is closed in `rest`: what stands at the start of `rest` is enclosed by a
balanced tag. -/
def Enclosed (pre rest : Text) : Prop :=
  ∃ a w x, pre = a ++ openingTag w ++ x ∧ w ≠ [] ∧ (∀ ch ∈ w, isWordChar ch = true) ∧
    ¬ closingTag w <:+: x ∧ closingTag w <:+: rest

/-! ## Theorems -/

/-! ### Regular-expression engine -/

/-- A greedy loop that can run over the whole of `w` and succeeds behind it succeeds. -/
theorem greedyStar_append {α : Type} (p : Char → Bool) (w rest : Text)
    (k : Text → Option α) (r : α) (hw : ∀ ch ∈ w, p ch = true)
    (hk : greedyStar p rest k = some r) : greedyStar p (w ++ rest) k = some r := by
  induction w with
  | nil => simpa using hk
  | cons a w ih =>
    have h1 : p a = true := hw a (by simp)
    have h2 := ih (fun ch hch => hw ch (by simp [hch]))
    simp [greedyStar, h1, h2]

/-- A greedy loop stops at a character outside the class. -/
theorem greedyStar_stop {α : Type} (p : Char → Bool) (c : Char) (s : Text)
    (k : Text → Option α) (hc : p c = false) : greedyStar p (c :: s) k = k (c :: s) := by
  simp [greedyStar, hc]

/-- A lazy loop whose continuation succeeds at once stops there. -/
theorem lazyStar_hit {α : Type} (p : Char → Bool) (s : Text)
    (k : Text → Option α) (r : α) (hk : k s = some r) : lazyStar p s k = some r := by
  cases s with
  | nil => simpa [lazyStar] using hk
  | cons c s => simp [lazyStar, hk]

/-- A lazy loop runs over a text `w` of class characters on which the continuation fails. -/
theorem lazyStar_skip {α : Type} (p : Char → Bool) (w rest : Text)
    (k : Text → Option α) (hw : ∀ ch ∈ w, p ch = true)
    (hk : ∀ ch ∈ w, ∀ s, k (ch :: s) = none) :
    lazyStar p (w ++ rest) k = lazyStar p rest k := by
  induction w with
  | nil => rfl
  | cons a w ih =>
    have h1 : p a = true := hw a (by simp)
    have h2 := ih (fun ch hch => hw ch (by simp [hch])) (fun ch hch => hk ch (by simp [hch]))
    simp [lazyStar, hk a (by simp), h1, h2]

/-- The captured text of a group: what was consumed between two positions. -/
theorem take_length_sub (w rest : Text) :
    (w ++ rest).take ((w ++ rest).length - rest.length) = w := by
  simp

/-! ### `extractTags` -/

/-- At the start of a tag `<t>c</t>` (`t` a word, `c` without `<`) the tag
expression matches exactly this tag, capturing `t` and `c`. -/
theorem tagRegex_matchAt_renderTag (t c rest : Text)
    (ht : t ≠ []) (hword : ∀ ch ∈ t, isWordChar ch = true) (hc : '<' ∉ c) :
    tagRegex.matchAt (renderTag t c ++ rest) = some ([(2, c), (1, t)], rest) := by
  obtain ⟨a, t', rfl⟩ := List.exists_cons_of_ne_nil ht
  have ha : isWordChar a = true := hword a (by simp)
  have ht' : ∀ ch ∈ t', isWordChar ch = true := fun ch hch => hword ch (by simp [hch])
  simp only [tagRegex, Re.matchAt, Re.run, Re.lit, renderTag, List.cons_append,
    List.append_assoc, List.nil_append, beq_self_eq_true, if_true, ha]
  apply greedyStar_append _ _ _ _ _ ht'
  rw [greedyStar_stop _ _ _ _ (by decide)]
  have e1 : (a :: (t' ++ '>' :: (c ++ '<' :: '/' :: a :: (t' ++ '>' :: rest)))).take
      ((a :: (t' ++ '>' :: (c ++ '<' :: '/' :: a :: (t' ++ '>' :: rest)))).length
        - ('>' :: (c ++ '<' :: '/' :: a :: (t' ++ '>' :: rest))).length) = a :: t' := by
    have := take_length_sub (a :: t') ('>' :: (c ++ '<' :: '/' :: a :: (t' ++ '>' :: rest)))
    simpa using this
  simp only [e1, beq_self_eq_true, if_true]
  rw [lazyStar_skip _ c _ _ (by simp [anyChar])]
  · apply lazyStar_hit
    have e2 : (c ++ '<' :: '/' :: a :: (t' ++ '>' :: rest)).take
        ((c ++ '<' :: '/' :: a :: (t' ++ '>' :: rest)).length
          - ('<' :: '/' :: a :: (t' ++ '>' :: rest)).length) = c :=
      take_length_sub c _
    simp only [e2, beq_self_eq_true, if_true, Caps.get]
    simp
  · intro ch hch s
    have hne : ch ≠ '<' := fun h => hc (h ▸ hch)
    simp [hne]


/-- Lookup after assignment. -/
theorem Dict.get_set {α : Type} (o : Dict α) (k k' : Text) (v : α) :
    Dict.get (Dict.set o k v) k' = if k = k' then some v else Dict.get o k' := by
  induction o with
  | nil => simp [Dict.set, Dict.get]
  | cons e o ih =>
    obtain ⟨j, w⟩ := e
    simp only [Dict.set]
    split_ifs with h1 h2 h2
    · simp [Dict.get, h1, h2]
    · subst h1
      simp [Dict.get, h2]
    · subst h2
      simp [Dict.get, h1, ih]
    · by_cases hjk : j = k' <;> simp [Dict.get, hjk, ih, h2]

/-- The tag expression finds a tag `<t>c</t>` standing at the start of the text. -/
theorem tagRegex_search_renderTag (t c rest : Text)
    (ht : t ≠ []) (hword : ∀ ch ∈ t, isWordChar ch = true) (hc : '<' ∉ c) :
    tagRegex.search (renderTag t c ++ rest) = some ([], [(2, c), (1, t)], rest) := by
  have h := tagRegex_matchAt_renderTag t c rest ht hword hc
  have hcons : renderTag t c ++ rest
      = '<' :: (t ++ '>' :: c ++ '<' :: '/' :: t ++ ['>'] ++ rest) := by
    simp [renderTag]
  rw [hcons] at h ⊢
  simp only [Re.search, h]

/-- The tag expression finds nothing in the empty text. -/
theorem tagRegex_search_nil : tagRegex.search [] = none := by
  decide

/-- On a concatenation of well-formed tags the loop of `extractTags` records the
tags one after the other. -/
theorem extractTagsLoop_renderTags (pairs : List (Text × Text)) :
    ∀ (fuel : Nat) (tags : Dict Text),
      pairs.length < fuel →
      (∀ p ∈ pairs, p.1 ≠ [] ∧ (∀ ch ∈ p.1, isWordChar ch = true) ∧ '<' ∉ p.2) →
      extractTagsLoop fuel (renderTags pairs) tags = pairs.foldl recordTag tags := by
  induction pairs with
  | nil =>
    intro fuel tags hfuel _
    obtain ⟨n, rfl⟩ : ∃ n, fuel = n + 1 := ⟨fuel - 1, by simp at hfuel; omega⟩
    simp [extractTagsLoop, renderTags, tagRegex_search_nil]
  | cons p ps ih =>
    intro fuel tags hfuel hw
    obtain ⟨n, rfl⟩ : ∃ n, fuel = n + 1 := ⟨fuel - 1, by simp at hfuel; omega⟩
    obtain ⟨h1, h2, h3⟩ := hw p (by simp)
    have hps : ∀ q ∈ ps, q.1 ≠ [] ∧ (∀ ch ∈ q.1, isWordChar ch = true) ∧ '<' ∉ q.2 :=
      fun q hq => hw q (by simp [hq])
    have hn : ps.length < n := by simp at hfuel; omega
    simp only [extractTagsLoop, renderTags, tagRegex_search_renderTag _ _ _ h1 h2 h3,
      Caps.get, List.foldl_cons, recordTag]
    by_cases hrel : p.1 ∈ relevantTags
    · simp [hrel, ih n _ hn hps, recordTag]
    · simp [hrel, ih n _ hn hps]

/-- The text of a list of tags is at least as long as the list. -/
theorem length_le_renderTags (pairs : List (Text × Text)) :
    pairs.length ≤ (renderTags pairs).length := by
  induction pairs with
  | nil => simp [renderTags]
  | cons p ps ih => simp [renderTags, renderTag]; omega

/-- The last content of a tag name in a list with one more pair in front. -/
theorem lastContent_cons (p : Text × Text) (ps : List (Text × Text)) (k : Text) :
    lastContent (p :: ps) k =
      match lastContent ps k with
      | some c => some c
      | none => if p.1 = k then some p.2 else none := by
  unfold lastContent
  rw [List.reverse_cons, List.find?_append]
  cases h : List.find? (fun q => decide (q.1 = k)) ps.reverse with
  | some q => simp
  | none =>
    by_cases hk : p.1 = k <;> simp [hk]

/-- What a key holds after a list of tags has been recorded. -/
theorem get_foldl_recordTag (pairs : List (Text × Text)) :
    ∀ (tags : Dict Text) (k : Text),
      Dict.get (pairs.foldl recordTag tags) k =
        if k ∈ relevantTags then
          match lastContent pairs k with
          | some c => some (trim c)
          | none => Dict.get tags k
        else Dict.get tags k := by
  induction pairs with
  | nil => intro tags k; simp [lastContent]
  | cons p ps ih =>
    intro tags k
    rw [List.foldl_cons, ih, lastContent_cons]
    by_cases hk : k ∈ relevantTags
    · simp only [hk, if_true]
      cases h : lastContent ps k with
      | some c => simp
      | none =>
        by_cases hpk : p.1 = k
        · subst hpk
          simp [recordTag, hk, Dict.get_set]
        · by_cases hp : p.1 ∈ relevantTags <;> simp [recordTag, hp, hpk, Dict.get_set]
    · simp only [hk, if_false]
      by_cases hp : p.1 ∈ relevantTags
      · have hpk : p.1 ≠ k := fun h => hk (h ▸ hp)
        simp [recordTag, hp, hpk, Dict.get_set]
      · simp [recordTag, hp]


/-- Appending a turn whose role differs from the last role keeps a list alternating. -/
theorem alternating_append_one (acc : List Turn) (t : Turn)
    (hacc : Alternating acc)
    (hlast : ∀ x ∈ acc.getLast?, x.role ≠ t.role) : Alternating (acc ++ [t]) := by
  unfold Alternating at *
  refine List.Chain'.append hacc (List.chain'_singleton t) ?_
  intro x hx y hy
  simp at hy
  subst hy
  exact hlast x hx

/-- Loop invariant of `ensureAlternatingRolesLoop`: if the array built so far
alternates and `lastRole` is the role of its last element, the result alternates. -/
theorem ensureAlternatingRolesLoop_alternating (ctx : List Turn) :
    ∀ (lastRole : Option Text) (acc : List Turn),
      Alternating acc →
      acc.getLast?.map Turn.role = lastRole →
      Alternating (ensureAlternatingRolesLoop ctx lastRole acc) := by
  induction ctx with
  | nil => intro lastRole acc hacc _; simpa [ensureAlternatingRolesLoop] using hacc
  | cons m rest ih =>
    intro lastRole acc hacc hlast
    unfold ensureAlternatingRolesLoop
    split_ifs with h1 h2
    · apply ih
      · apply alternating_append_one _ _ hacc
        intro x hx hrole
        apply h1
        rw [← hlast]
        simp at hx
        simp [hx, hrole]
      · simp
    · have h1' : lastRole = some m.role := by
        by_contra hne; exact h1 (fun h => hne h.symm)
      apply ih
      · have hstep : Alternating (acc ++ [fillerTurn]) := by
          apply alternating_append_one _ _ hacc
          intro x hx hrole
          simp at hx
          rw [hx] at hlast
          simp [h1', h2] at hlast
          rw [hlast] at hrole
          revert hrole
          simp [fillerTurn, roleUser, roleAssistant]
        have := alternating_append_one (acc ++ [fillerTurn]) m hstep (by
          intro x hx
          simp at hx
          subst hx
          rw [h2]
          simp [fillerTurn, roleUser, roleAssistant])
        simpa using this
      · simp [h2]
    · exact ih _ _ hacc hlast

/-- C1: for every input sequence of turns, the output of `ensureAlternatingRoles`
has no two adjacent turns with the same role (whatever the role strings are);
in particular it never has two adjacent `user` turns. -/
theorem ensureAlternatingRoles_alternating (context : List Turn) :
    Alternating (ensureAlternatingRoles context) ∧
    ∀ a b : Turn, [a, b] <:+: ensureAlternatingRoles context →
      ¬ (a.role = roleUser ∧ b.role = roleUser) := by
  have h : Alternating (ensureAlternatingRoles context) :=
    ensureAlternatingRolesLoop_alternating context none [] List.chain'_nil rfl
  refine ⟨h, ?_⟩
  intro a b hab hroles
  have h2 : Alternating [a, b] := List.Chain'.infix h hab
  simp [Alternating] at h2
  exact h2 (hroles.1.trans hroles.2.symm)

/-- C2: on a response block that is a concatenation of non-nested tags `<t>c</t>`
(`t` a non-empty word, `c` without `<`), `extractTags` returns the map that sends
each allow-listed tag name occurring in the block to the trimmed content of its
last occurrence and has no entry for any other key. -/
theorem extractTags_renderTags (pairs : List (Text × Text))
    (hw : WellFormedTags pairs) (k : Text) :
    Dict.get (extractTags (renderTags pairs)) k =
      if k ∈ relevantTags then (lastContent pairs k).map trim else none := by
  unfold extractTags
  rw [extractTagsLoop_renderTags pairs _ _ (by have := length_le_renderTags pairs; omega) hw,
    get_foldl_recordTag]
  by_cases hk : k ∈ relevantTags
  · simp only [hk, if_true]
    cases lastContent pairs k <;> simp [Dict.get]
  · simp [hk, Dict.get]

/-- C2, the example of the specification: the block `<name>Ann</name><foo>x</foo>`
is a concatenation of two well-formed tags, `extractTags` returns exactly
`{name: "Ann"}` on it, and the theorem gives its entries key by key. -/
theorem extractTags_renderTags_witness :
    WellFormedTags [("name".toList, "Ann".toList), ("foo".toList, "x".toList)] ∧
    renderTags [("name".toList, "Ann".toList), ("foo".toList, "x".toList)]
        = "<name>Ann</name><foo>x</foo>".toList ∧
    extractTags "<name>Ann</name><foo>x</foo>".toList = [("name".toList, "Ann".toList)] ∧
    Dict.get (extractTags
        (renderTags [("name".toList, "Ann".toList), ("foo".toList, "x".toList)]))
        "name".toList =
      if "name".toList ∈ relevantTags then
        (lastContent [("name".toList, "Ann".toList), ("foo".toList, "x".toList)]
          "name".toList).map trim
      else none :=
  ⟨by decide, by decide, by decide,
    extractTags_renderTags [("name".toList, "Ann".toList), ("foo".toList, "x".toList)]
      (by decide) "name".toList⟩

/-- No element fails a test exactly when all elements pass it. -/
theorem filter_not_length_pos (l : List Text) (f : Text → Bool) :
    (if (l.filter (fun x => !f x)).length > 0 then false else true) = l.all f := by
  induction l with
  | nil => rfl
  | cons a l ih =>
    cases ha : f a
    · simp [List.filter, ha]
    · simpa [List.filter, ha] using ih

/-- A required tag is missing exactly when it is absent or empty. -/
theorem validateTags_eq_all (tags : Dict Text) :
    validateTags tags = requiredTags.all (fun tag => truthyText (Dict.get tags tag)) := by
  unfold validateTags missingTags
  exact filter_not_length_pos requiredTags _

/-- A property is truthy exactly when it is present with a non-empty value. -/
theorem truthyText_iff (v : Option Text) :
    truthyText v = true ↔ ∃ w, v = some w ∧ w ≠ [] := by
  cases v with
  | none => simp [truthyText]
  | some w => cases w <;> simp [truthyText]

/-- C3: for every slot map, `validateTags` returns true if and only if each of the
five keys name, email, phone, address, order is present with a non-empty value;
a map with four non-empty values and an empty `order` is not complete. -/
theorem validateTags_iff (tags : Dict Text) :
    (validateTags tags = true ↔
      ∀ k ∈ ["name".toList, "email".toList, "phone".toList, "address".toList, "order".toList],
        ∃ v, Dict.get tags k = some v ∧ v ≠ []) ∧
    validateTags [("name".toList, "Ann".toList), ("email".toList, "a@b.c".toList),
      ("phone".toList, "555".toList), ("address".toList, "1 Main St".toList),
      ("order".toList, [])] = false := by
  refine ⟨?_, by decide⟩
  rw [validateTags_eq_all]
  simp only [requiredTags, List.all_cons, List.all_nil, Bool.and_true, Bool.and_eq_true,
    truthyText_iff, List.mem_cons, List.mem_singleton, forall_eq_or_imp, forall_eq,
    List.not_mem_nil, false_implies, implies_true, and_true]
  tauto

/-- What a key holds after the keys `ks` have been copied from `source` to `target`. -/
theorem get_copy_foldl {α : Type} (source : Dict α) (ks : List Text) :
    ∀ (target : Dict α) (k : Text),
      Dict.get (ks.foldl
        (fun t k =>
          match Dict.get source k with
          | some v => Dict.set t k v
          | none => t) target) k =
        if k ∈ ks then
          match Dict.get source k with
          | some v => some v
          | none => Dict.get target k
        else Dict.get target k := by
  induction ks with
  | nil => intro target k; simp
  | cons a ks ih =>
    intro target k
    rw [List.foldl_cons, ih]
    by_cases hk : k ∈ ks
    · simp only [hk, if_true, List.mem_cons, or_true]
      cases hs : Dict.get source k with
      | some v => rfl
      | none =>
        cases ha : Dict.get source a with
        | none => rfl
        | some w =>
          have hne : a ≠ k := by
            intro h; rw [h, hs] at ha; cases ha
          simp [Dict.get_set, hne]
    · simp only [hk, if_false, List.mem_cons, or_false]
      by_cases hak : k = a
      · subst hak
        cases ha : Dict.get source k with
        | none => simp
        | some w => simp [Dict.get_set]
      · have hne : a ≠ k := fun h => hak h.symm
        cases ha : Dict.get source a with
        | none => simp [hak]
        | some w => simp [hak, Dict.get_set, hne]

/-- A key that is not an own key of an object has no value in it. -/
theorem Dict.get_eq_none_of_not_mem_keys {α : Type} (o : Dict α) (k : Text)
    (h : k ∉ Dict.keys o) : Dict.get o k = none := by
  induction o with
  | nil => rfl
  | cons e o ih =>
    obtain ⟨j, w⟩ := e
    simp only [Dict.keys, List.map_cons, List.mem_cons, not_or] at h
    have hj : j ≠ k := fun hjk => h.1 hjk.symm
    simp only [Dict.get, hj, if_false]
    exact ih h.2

/-- Spreading `source` over `target` is last-write-wins per key. -/
theorem get_copyDataProperties {α : Type} (target source : Dict α) (k : Text) :
    Dict.get (copyDataProperties target source) k =
      match Dict.get source k with
      | some v => some v
      | none => Dict.get target k := by
  unfold copyDataProperties
  rw [get_copy_foldl]
  by_cases hk : k ∈ Dict.keys source
  · simp [hk]
  · simp [hk, Dict.get_eq_none_of_not_mem_keys source k hk]

/-- C4: the merge `{ ...orderData, ...tags }` is last-write-wins per key: a key
present in the extracted map takes the extracted value, and a key absent from it
keeps exactly its stored value (or stays absent). -/
theorem mergeSlots_get (orderData tags : Dict Text) (k : Text) :
    Dict.get (mergeSlots orderData tags) k =
      match Dict.get tags k with
      | some v => some v
      | none => Dict.get orderData k := by
  unfold mergeSlots
  rw [get_copyDataProperties, get_copyDataProperties]
  cases Dict.get tags k with
  | some v => rfl
  | none => cases Dict.get orderData k <;> rfl

/-! ### `fetchWithRetry` -/

/-- When every attempt from index `i` on fails, the loop performs all the
remaining attempts and throws the error of the last one. -/
theorem fetchWithRetryLoop_all_fail (outcomes : Nat → Except JsError Json) (n d : Nat) :
    ∀ (left i : Nat) (lastError : Option JsError),
      i + left = n →
      (∀ j, i ≤ j → j < n → ∃ e, tryAttempt (outcomes j) = .error e) →
      (fetchWithRetryLoop outcomes n d left i lastError).2 = failedSteps n d left i ∧
      (0 < left → ∀ e, tryAttempt (outcomes (n - 1)) = .error e →
        (fetchWithRetryLoop outcomes n d left i lastError).1 = .error (some e)) ∧
      (left = 0 → (fetchWithRetryLoop outcomes n d left i lastError).1 = .error lastError) := by
  intro left
  induction left with
  | zero =>
    intro i lastError _ _
    simp [fetchWithRetryLoop, failedSteps]
  | succ left ih =>
    intro i lastError hi hfail
    have hlt : i < n := by omega
    obtain ⟨e, he⟩ := hfail i (Nat.le_refl i) hlt
    obtain ⟨h1, h2, h3⟩ := ih (i + 1) (some e) (by omega)
      (fun j hj hjn => hfail j (by omega) hjn)
    have hpause : (i < n - 1) = (i + 1 < n) := by
      apply propext; constructor <;> intro h <;> omega
    refine ⟨?_, ?_, ?_⟩
    · simp only [fetchWithRetryLoop, hlt, if_true, he, h1, failedSteps, failedStep, hpause,
        List.cons_append]
    · intro _ e' he'
      simp only [fetchWithRetryLoop, hlt, if_true, he]
      by_cases hleft : left = 0
      · have hin : i = n - 1 := by omega
        rw [h3 hleft]
        rw [← hin, he] at he'
        cases he'
        rfl
      · exact h2 (Nat.pos_of_ne_zero hleft) e' he'
    · intro h; omega

/-- A run of failed attempts contains one attempt per step. -/
theorem attemptsOf_failedSteps (n d : Nat) :
    ∀ count i : Nat, attemptsOf (failedSteps n d count i) = count := by
  intro count
  induction count with
  | zero => intro i; rfl
  | succ count ih =>
    intro i
    have := ih (i + 1)
    unfold attemptsOf at this ⊢
    by_cases h : i + 1 < n <;> simp [failedSteps, failedStep, h, this, List.count_cons]

/-- A run of failed attempts that ends with the last attempt sleeps after every
attempt but the last, doubling the delay each time. -/
theorem sleepsOf_failedSteps (n d : Nat) :
    ∀ count i : Nat, i + count = n →
      sleepsOf (failedSteps n d count i) =
        (List.range' i (count - 1)).map (backoffDelay d) := by
  intro count
  induction count with
  | zero => intro i _; rfl
  | succ count ih =>
    intro i hi
    have hrec := ih (i + 1) (by omega)
    by_cases h : i + 1 < n
    · obtain ⟨c, rfl⟩ : ∃ c, count = c + 1 := ⟨count - 1, by omega⟩
      have e : failedSteps n d (c + 1 + 1) i =
          RetryEvent.attempt :: RetryEvent.sleep (backoffDelay d i)
            :: failedSteps n d (c + 1) (i + 1) := by
        rw [failedSteps, failedStep, if_pos h]
        rfl
      rw [e]
      show backoffDelay d i :: sleepsOf (failedSteps n d (c + 1) (i + 1)) = _
      rw [hrec]
      simp [List.range'_succ]
    · have hc : count = 0 := by omega
      subst hc
      simp [failedSteps, failedStep, h, sleepsOf]

/-- A non-empty run of failed attempts that ends with the last attempt ends with
an attempt, not with a sleep. -/
theorem getLast_failedSteps (n d : Nat) :
    ∀ count i : Nat, i + count = n → 0 < count →
      (failedSteps n d count i).getLast? = some RetryEvent.attempt := by
  intro count
  induction count with
  | zero => intro i _ h; omega
  | succ count ih =>
    intro i hi _
    by_cases hc : count = 0
    · subst hc
      have h : ¬ i + 1 < n := by omega
      simp [failedSteps, failedStep, h]
    · have hrec := ih (i + 1) (by omega) (Nat.pos_of_ne_zero hc)
      simp only [failedSteps]
      rw [List.getLast?_append, hrec]
      rfl

/-- The delay is the product as a number while the power and the product are
finite doubles. -/
theorem backoffDelay_exact (d i : Nat) (hi : i < 1024) (h : d * 2 ^ i < 2 ^ 1024) :
    backoffDelay d i = Delay.ms (d * 2 ^ i) := by
  unfold backoffDelay
  rw [if_pos hi, if_pos h]

/-- The delay is `Infinity` when the product is beyond the finite doubles. -/
theorem backoffDelay_overflow (d i : Nat) (hd : 0 < d) (h : 2 ^ 1024 ≤ d * 2 ^ i) :
    backoffDelay d i = Delay.infinity := by
  unfold backoffDelay
  by_cases hi : i < 1024
  · rw [if_pos hi, if_neg (Nat.not_lt.mpr h)]
  · rw [if_neg hi, if_neg (Nat.pos_iff_ne_zero.mp hd)]

/-- The delay is `NaN` when `initialDelay` is zero and the power is `Infinity`. -/
theorem backoffDelay_zero (i : Nat) (hi : 1024 ≤ i) : backoffDelay 0 i = Delay.nan := by
  unfold backoffDelay
  rw [if_neg (Nat.not_lt.mpr hi), if_pos rfl]

/-- The delays of the first `m` rounds are the products as numbers when the last
of them is a finite double. -/
theorem map_backoffDelay_exact (d m : Nat) (hm : m ≤ 1024)
    (h : d * 2 ^ (m - 1) < 2 ^ 1024) :
    (List.range m).map (backoffDelay d) = (List.range m).map (fun i => Delay.ms (d * 2 ^ i)) := by
  apply List.map_congr_left
  intro i hi
  have him : i < m := List.mem_range.mp hi
  apply backoffDelay_exact d i (by omega)
  have hle : 2 ^ i ≤ 2 ^ (m - 1) := Nat.pow_le_pow_right (by decide) (by omega)
  exact Nat.lt_of_le_of_lt (Nat.mul_le_mul_left d hle) h

set_option exponentiation.threshold 2000 in
set_option maxRecDepth 100000 in
/-- C5 (counterexample): with `maxRetries = 3` and `initialDelay = 2 ^ 1023`, a
double, on a network where all three attempts fail, the second sleep does not
have the delay `2 ^ 1023 * 2 ^ 1`: the product is beyond the finite doubles
and the delay is `Infinity`. -/
theorem backoff_delay_overflows :
    isDouble (2 ^ 1023) = true ∧
    tryAttempt (failingOutcomes 0) = .error (JsError.external "socket hang up".toList) ∧
    tryAttempt (failingOutcomes 1) = .error JsError.apiOverloaded ∧
    tryAttempt (failingOutcomes 2) = .error JsError.apiOverloaded ∧
    sleepsOf (fetchWithRetry failingOutcomes 3 (2 ^ 1023)).2
      = [Delay.ms (2 ^ 1023), Delay.infinity] ∧
    sleepsOf (fetchWithRetry failingOutcomes 3 (2 ^ 1023)).2
      ≠ (List.range (3 - 1)).map (fun i => Delay.ms (2 ^ 1023 * 2 ^ i)) :=
  ⟨by decide, rfl, rfl, rfl, by decide, by decide⟩

set_option exponentiation.threshold 2000 in
/-- C5 (amended): for every `maxRetries = n` with `1 ≤ n ≤ 2 ^ 53` (the range in
which the counter `i` of the loop is exact) and every `initialDelay = d` that is
a natural number and a double, when every attempt fails `fetchWithRetry` makes
exactly `n` attempts, sleeps exactly `n - 1` times
with the delays `d * Math.pow(2, i)` for `i = 0 .. n - 2` in this order, one
after each attempt but the last, and then throws the error of the last attempt.
The delay is the number `d * 2 ^ i` as long as `i < 1024` and
`d * 2 ^ i < 2 ^ 1024`, so that all delays are these numbers when `n ≤ 1025` and
`d * 2 ^ (n - 2) < 2 ^ 1024`; beyond that range it is `Infinity` for `0 < d` and
`NaN` for `d = 0`.  With the defaults `n = 3`, `d = 1000` the trace is attempt,
1000 ms, attempt, 2000 ms, attempt. -/
theorem fetchWithRetry_all_fail (outcomes : Nat → Except JsError Json) (n d : Nat)
    (hn : 1 ≤ n) (_hmax : n ≤ 2 ^ 53) (_hd : isDouble d = true)
    (hfail : ∀ i, i < n → ∃ e, tryAttempt (outcomes i) = .error e) :
    (∃ e, tryAttempt (outcomes (n - 1)) = .error e ∧
      (fetchWithRetry outcomes n d).1 = .error (some e)) ∧
    (fetchWithRetry outcomes n d).2 = failedSteps n d n 0 ∧
    attemptsOf (fetchWithRetry outcomes n d).2 = n ∧
    sleepsOf (fetchWithRetry outcomes n d).2 = (List.range (n - 1)).map (backoffDelay d) ∧
    (n ≤ 1025 → d * 2 ^ (n - 2) < 2 ^ 1024 →
      sleepsOf (fetchWithRetry outcomes n d).2
        = (List.range (n - 1)).map (fun i => Delay.ms (d * 2 ^ i))) ∧
    (∀ i, i < 1024 → d * 2 ^ i < 2 ^ 1024 → backoffDelay d i = Delay.ms (d * 2 ^ i)) ∧
    (∀ i, 0 < d → 2 ^ 1024 ≤ d * 2 ^ i → backoffDelay d i = Delay.infinity) ∧
    (∀ i, d = 0 → 1024 ≤ i → backoffDelay d i = Delay.nan) ∧
    (fetchWithRetry outcomes n d).2.getLast? = some RetryEvent.attempt ∧
    (n = 3 → d = 1000 → (fetchWithRetry outcomes n d).2 =
      [RetryEvent.attempt, RetryEvent.sleep (Delay.ms 1000), RetryEvent.attempt,
        RetryEvent.sleep (Delay.ms 2000), RetryEvent.attempt]) := by
  obtain ⟨h1, h2, _⟩ := fetchWithRetryLoop_all_fail outcomes n d n 0 none (by omega)
    (fun j _ hj => hfail j hj)
  obtain ⟨e, he⟩ := hfail (n - 1) (by omega)
  have hsleeps : sleepsOf (fetchWithRetryLoop outcomes n d n 0 none).2
      = (List.range (n - 1)).map (backoffDelay d) := by
    rw [h1, sleepsOf_failedSteps n d n 0 (by omega), List.range_eq_range']
  unfold fetchWithRetry
  refine ⟨⟨e, he, h2 (by omega) e he⟩, h1, ?_, hsleeps, ?_, backoffDelay_exact d,
    backoffDelay_overflow d, ?_, ?_, ?_⟩
  · rw [h1]; exact attemptsOf_failedSteps n d n 0
  · intro hsmall hlast
    rw [hsleeps]
    exact map_backoffDelay_exact d (n - 1) (by omega) hlast
  · intro i h0 hi
    subst h0
    exact backoffDelay_zero i hi
  · rw [h1]; exact getLast_failedSteps n d n 0 (by omega) (by omega)
  · intro h3 hd
    subst h3 hd
    rw [h1]
    rfl

set_option exponentiation.threshold 2000 in
set_option maxRecDepth 100000 in
/-- C5 at the defaults, on a network whose first attempt is rejected and whose
second and third attempts are answered with an overloaded error: three attempts,
sleeps of 1000 ms and 2000 ms, and the overload error of the third attempt is
thrown. -/
theorem fetchWithRetry_all_fail_witness :
    (1 ≤ 3 ∧ 3 ≤ 2 ^ 53 ∧ isDouble 1000 = true ∧
      tryAttempt (failingOutcomes 0) = .error (JsError.external "socket hang up".toList) ∧
      tryAttempt (failingOutcomes 1) = .error JsError.apiOverloaded ∧
      tryAttempt (failingOutcomes 2) = .error JsError.apiOverloaded) ∧
    ((∃ e, tryAttempt (failingOutcomes (3 - 1)) = .error e ∧
      (fetchWithRetry failingOutcomes 3 1000).1 = .error (some e)) ∧
    (fetchWithRetry failingOutcomes 3 1000).2 = failedSteps 3 1000 3 0 ∧
    attemptsOf (fetchWithRetry failingOutcomes 3 1000).2 = 3 ∧
    sleepsOf (fetchWithRetry failingOutcomes 3 1000).2
      = (List.range (3 - 1)).map (backoffDelay 1000) ∧
    (3 ≤ 1025 → 1000 * 2 ^ (3 - 2) < 2 ^ 1024 →
      sleepsOf (fetchWithRetry failingOutcomes 3 1000).2
        = (List.range (3 - 1)).map (fun i => Delay.ms (1000 * 2 ^ i))) ∧
    (∀ i, i < 1024 → 1000 * 2 ^ i < 2 ^ 1024 → backoffDelay 1000 i = Delay.ms (1000 * 2 ^ i)) ∧
    (∀ i, 0 < 1000 → 2 ^ 1024 ≤ 1000 * 2 ^ i → backoffDelay 1000 i = Delay.infinity) ∧
    (∀ i, 1000 = 0 → 1024 ≤ i → backoffDelay 1000 i = Delay.nan) ∧
    (fetchWithRetry failingOutcomes 3 1000).2.getLast? = some RetryEvent.attempt ∧
    (3 = 3 → 1000 = 1000 →
      (fetchWithRetry failingOutcomes 3 1000).2 =
      [RetryEvent.attempt, RetryEvent.sleep (Delay.ms 1000), RetryEvent.attempt,
        RetryEvent.sleep (Delay.ms 2000), RetryEvent.attempt])) :=
  ⟨⟨by decide, by decide, by decide, rfl, rfl, rfl⟩,
    fetchWithRetry_all_fail failingOutcomes 3 1000 (by decide) (by decide) (by decide)
      (fun i hi => by
        match i, hi with
        | 0, _ => exact ⟨_, rfl⟩
        | 1, _ => exact ⟨_, rfl⟩
        | 2, _ => exact ⟨_, rfl⟩)⟩

/-! ### The response expression -/

/-- A literal prefix of an expression consumes exactly this text. -/
theorem run_str_append {α : Type} (lit : Text) (r : Re) (t : Text) (caps : Caps)
    (k : Text → Caps → Option α) :
    (Re.str lit r).run (lit ++ t) caps k = r.run t caps k := by
  induction lit with
  | nil => rfl
  | cons c lit ih => simp [Re.str, Re.run, Re.lit, ih]

/-- An expression with a literal prefix only matches a text that starts with it. -/
theorem run_str_some {α : Type} (lit : Text) (r : Re) (s : Text) (caps : Caps)
    (k : Text → Caps → Option α) (x : α) (h : (Re.str lit r).run s caps k = some x) :
    ∃ t, s = lit ++ t ∧ r.run t caps k = some x := by
  induction lit generalizing s with
  | nil => exact ⟨s, rfl, h⟩
  | cons c lit ih =>
    cases s with
    | nil => simp [Re.str, Re.run, Re.lit] at h
    | cons d s =>
      simp only [Re.str, Re.run, Re.lit] at h
      by_cases hd : (d == c) = true
      · simp only [hd, if_true] at h
        obtain ⟨t, ht, hr⟩ := ih s h
        have hdc : d = c := by simpa using hd
        exact ⟨t, by simp [ht, hdc], hr⟩
      · simp [hd] at h

/-- A lazy loop that succeeds stops at some position where its continuation succeeds. -/
theorem lazyStar_some {α : Type} (p : Char → Bool) (s : Text) (k : Text → Option α) (x : α)
    (h : lazyStar p s k = some x) : ∃ b t, s = b ++ t ∧ k t = some x := by
  induction s with
  | nil => exact ⟨[], [], rfl, by simpa [lazyStar] using h⟩
  | cons c s ih =>
    simp only [lazyStar] at h
    cases hk : k (c :: s) with
    | some y =>
      rw [hk] at h
      exact ⟨[], c :: s, rfl, by rw [hk]; simpa using h⟩
    | none =>
      rw [hk] at h
      by_cases hp : p c = true
      · simp only [hp, if_true] at h
        obtain ⟨b, t, hs, ht⟩ := ih h
        exact ⟨c :: b, t, by simp [hs], ht⟩
      · simp [hp] at h

/-- A lazy loop over arbitrary characters succeeds when its continuation succeeds
at some later position. -/
theorem lazyStar_anyChar_isSome {α : Type} (b t : Text) (k : Text → Option α)
    (h : (k t).isSome = true) : (lazyStar anyChar (b ++ t) k).isSome = true := by
  induction b with
  | nil =>
    cases t with
    | nil => simpa [lazyStar] using h
    | cons c t =>
      cases hk : k (c :: t) with
      | some y => simp [lazyStar, hk]
      | none => simp [hk] at h
  | cons c b ih =>
    cases hk : k (c :: (b ++ t)) with
    | some y => simp [lazyStar, hk]
    | none => simpa [lazyStar, hk, anyChar] using ih

/-- A successful search skips a prefix and matches right behind it. -/
theorem search_some (r : Re) (s skipped : Text) (caps : Caps) (rest : Text)
    (h : r.search s = some (skipped, caps, rest)) :
    ∃ s', s = skipped ++ s' ∧ r.matchAt s' = some (caps, rest) := by
  induction s generalizing skipped with
  | nil =>
    simp only [Re.search, Option.map_eq_some'] at h
    obtain ⟨m, hm, he⟩ := h
    simp only [Prod.mk.injEq] at he
    obtain ⟨rfl, rfl, rfl⟩ := he
    exact ⟨[], rfl, hm⟩
  | cons c s ih =>
    simp only [Re.search] at h
    cases hm : r.matchAt (c :: s) with
    | some m =>
      rw [hm] at h
      simp only [Option.some.injEq, Prod.mk.injEq] at h
      obtain ⟨rfl, rfl, rfl⟩ := h
      exact ⟨c :: s, rfl, hm⟩
    | none =>
      rw [hm] at h
      simp only [Option.map_eq_some'] at h
      obtain ⟨x, hx, he⟩ := h
      simp only [Prod.mk.injEq] at he
      obtain ⟨rfl, rfl, rfl⟩ := he
      obtain ⟨s', hs, hs'⟩ := ih x.1 hx
      exact ⟨s', by simp [hs], hs'⟩

/-- A search succeeds when the expression matches at some position. -/
theorem search_isSome (r : Re) (a s' : Text) (h : (r.matchAt s').isSome = true) :
    (r.search (a ++ s')).isSome = true := by
  induction a with
  | nil =>
    cases s' with
    | nil =>
      cases hm : r.matchAt [] with
      | some m => simp [Re.search, hm]
      | none => simp [hm] at h
    | cons c s =>
      cases hm : r.matchAt (c :: s) with
      | some m => simp [Re.search, hm]
      | none => simp [hm] at h
  | cons c a ih =>
    cases hm : r.matchAt (c :: (a ++ s')) with
    | some m => simp [Re.search, hm]
    | none =>
      cases hs : Re.search r (a ++ s') with
      | some x => simp [Re.search, hm, hs]
      | none => simp [hs] at ih

/-- How a sequence runs. -/
theorem run_seq {α : Type} (r₁ r₂ : Re) (s : Text) (caps : Caps)
    (k : Text → Caps → Option α) :
    (Re.seq r₁ r₂).run s caps k = r₁.run s caps (fun t caps' => r₂.run t caps' k) := rfl

/-- How a group around a lazy loop runs. -/
theorem run_group_starLazy {α : Type} (i : Nat) (p : Char → Bool) (s : Text) (caps : Caps)
    (k : Text → Caps → Option α) :
    (Re.group i (Re.starLazy p)).run s caps k =
      lazyStar p s (fun t => k t ((i, s.take (s.length - t.length)) :: caps)) := rfl

/-- How a literal character runs. -/
theorem run_lit_some {α : Type} (c : Char) (s : Text) (caps : Caps)
    (k : Text → Caps → Option α) (x : α) (h : (Re.lit c).run s caps k = some x) :
    ∃ t, s = c :: t ∧ k t caps = some x := by
  cases s with
  | nil => simp [Re.run, Re.lit] at h
  | cons d v =>
    simp only [Re.run, Re.lit] at h
    by_cases hd : (d == c) = true
    · simp only [hd, if_true] at h
      have hdc : d = c := by simpa using hd
      exact ⟨v, by rw [hdc], h⟩
    · simp [hd] at h

/-- A match of the response expression is a block `<response>b</response>`, and
its first group is `b`. -/
theorem responseRegex_matchAt_some (s : Text) (caps : Caps) (rest : Text)
    (h : responseRegex.matchAt s = some (caps, rest)) :
    ∃ b, s = openTag ++ b ++ closeTag ++ rest ∧ Caps.get caps 1 = some b := by
  unfold responseRegex Re.matchAt at h
  obtain ⟨t, ht, h⟩ := run_str_some _ _ _ _ _ _ h
  rw [run_seq, run_group_starLazy] at h
  obtain ⟨b, u, hu, h⟩ := lazyStar_some _ _ _ _ h
  obtain ⟨v, hv, h⟩ := run_str_some _ _ _ _ _ _ h
  obtain ⟨v', hv', h⟩ := run_lit_some _ _ _ _ _ h
  simp only [Option.some.injEq, Prod.mk.injEq] at h
  obtain ⟨rfl, rfl⟩ := h
  refine ⟨b, ?_, ?_⟩
  · rw [ht, hu, hv, hv']
    simp [openTag, closeTag]
  · simp [Caps.get, hu]

/-- The response expression matches at the start of a block. -/
theorem responseRegex_matchAt_isSome (b c : Text) :
    (responseRegex.matchAt (openTag ++ b ++ closeTag ++ c)).isSome = true := by
  unfold responseRegex Re.matchAt openTag
  rw [List.append_assoc, List.append_assoc, run_str_append, run_seq, run_group_starLazy]
  apply lazyStar_anyChar_isSome
  have e : closeTag ++ c = "</response".toList ++ ('>' :: c) := by
    simp [closeTag]
  rw [e, run_str_append]
  simp [Re.run, Re.lit]

/-- The parse step finds a match exactly in the texts that contain a block. -/
theorem responseRegex_search_isSome_iff (text : Text) :
    (responseRegex.search text).isSome = true ↔ HasResponseBlock text := by
  constructor
  · intro h
    obtain ⟨⟨skipped, caps, rest⟩, hx⟩ := Option.isSome_iff_exists.mp h
    obtain ⟨s', hs, hm⟩ := search_some _ _ _ _ _ hx
    obtain ⟨b, hb, _⟩ := responseRegex_matchAt_some _ _ _ hm
    exact ⟨skipped, b, rest, by rw [hs, hb]; simp⟩
  · rintro ⟨a, b, c, rfl⟩
    have := search_isSome responseRegex a (openTag ++ b ++ closeTag ++ c)
      (responseRegex_matchAt_isSome b c)
    simpa using this

/-! ### The bound on the rounds of the loops -/

/-- A greedy loop that succeeds hands a suffix of its input to the continuation. -/
theorem greedyStar_some {α : Type} (p : Char → Bool) (s : Text) (k : Text → Option α) (x : α)
    (h : greedyStar p s k = some x) : ∃ t, t.length ≤ s.length ∧ k t = some x := by
  induction s with
  | nil => exact ⟨[], Nat.le_refl _, by simpa [greedyStar] using h⟩
  | cons c s ih =>
    simp only [greedyStar] at h
    by_cases hp : p c = true
    · simp only [hp, if_true] at h
      cases hg : greedyStar p s k with
      | some y =>
        rw [hg] at h
        simp only [Option.some.injEq] at h
        subst h
        obtain ⟨t, ht, hk⟩ := ih hg
        exact ⟨t, by simp; omega, hk⟩
      | none =>
        rw [hg] at h
        exact ⟨c :: s, Nat.le_refl _, h⟩
    · simp only [hp] at h
      exact ⟨c :: s, Nat.le_refl _, by simpa using h⟩

/-- A successful run hands the continuation a text that is not longer than the input. -/
theorem run_some_length {α : Type} (r : Re) :
    ∀ (s : Text) (caps : Caps) (k : Text → Caps → Option α) (x : α),
      r.run s caps k = some x →
      ∃ t caps', t.length ≤ s.length ∧ k t caps' = some x := by
  induction r with
  | chr p =>
    intro s caps k x h
    cases s with
    | nil => simp [Re.run] at h
    | cons c s =>
      simp only [Re.run] at h
      by_cases hp : p c = true
      · simp only [hp, if_true] at h
        exact ⟨s, caps, by simp, h⟩
      · simp [hp] at h
  | plus p =>
    intro s caps k x h
    cases s with
    | nil => simp [Re.run] at h
    | cons c s =>
      simp only [Re.run] at h
      by_cases hp : p c = true
      · simp only [hp, if_true] at h
        obtain ⟨t, ht, hk⟩ := greedyStar_some _ _ _ _ h
        exact ⟨t, caps, by simp; omega, hk⟩
      · simp [hp] at h
  | starLazy p =>
    intro s caps k x h
    simp only [Re.run] at h
    obtain ⟨b, t, hs, hk⟩ := lazyStar_some _ _ _ _ h
    exact ⟨t, caps, by simp [hs], hk⟩
  | group i r ih =>
    intro s caps k x h
    simp only [Re.run] at h
    obtain ⟨t, caps', ht, hk⟩ := ih _ _ _ _ h
    exact ⟨t, _, ht, hk⟩
  | backref i =>
    intro s caps k x h
    simp only [Re.run] at h
    cases hc : Caps.get caps i with
    | none =>
      rw [hc] at h
      exact ⟨s, caps, Nat.le_refl _, h⟩
    | some w =>
      rw [hc] at h
      by_cases hw : w.isPrefixOf s = true
      · simp only [hw, if_true] at h
        exact ⟨s.drop w.length, caps, by simp, h⟩
      · simp [hw] at h
  | seq r₁ r₂ ih₁ ih₂ =>
    intro s caps k x h
    simp only [Re.run] at h
    obtain ⟨t₁, caps₁, ht₁, h₁⟩ := ih₁ _ _ _ _ h
    obtain ⟨t₂, caps₂, ht₂, h₂⟩ := ih₂ _ _ _ _ h₁
    exact ⟨t₂, caps₂, by omega, h₂⟩

/-- A match of an expression that starts with a literal character consumes at
least one character. -/
theorem matchAt_lit_seq_length (c : Char) (r : Re) (s : Text) (caps : Caps) (rest : Text)
    (h : (Re.seq (Re.lit c) r).matchAt s = some (caps, rest)) : rest.length < s.length := by
  unfold Re.matchAt at h
  rw [run_seq] at h
  obtain ⟨t, ht, h⟩ := run_lit_some _ _ _ _ _ h
  obtain ⟨u, caps', hu, hk⟩ := run_some_length r _ _ _ _ h
  simp only [Option.some.injEq, Prod.mk.injEq] at hk
  rw [← hk.2, ht]
  simp
  omega

/-- A successful search of an expression that starts with a literal character
leaves a text that is shorter than the input. -/
theorem search_lit_seq_length (c : Char) (r : Re) (s skipped : Text) (caps : Caps)
    (rest : Text) (h : (Re.seq (Re.lit c) r).search s = some (skipped, caps, rest)) :
    rest.length < s.length := by
  obtain ⟨s', hs, hm⟩ := search_some _ _ _ _ _ h
  have := matchAt_lit_seq_length c r s' caps rest hm
  rw [hs]
  simp
  omega

/-- The loop of `extractTags` never runs out of rounds: with more rounds than the
text has characters, every larger bound gives the same result. -/
theorem extractTagsLoop_fuel (fuel : Nat) :
    ∀ (more : Nat) (message : Text) (tags : Dict Text),
      message.length < fuel →
      extractTagsLoop (fuel + more) message tags = extractTagsLoop fuel message tags := by
  induction fuel with
  | zero => intro more message tags h; omega
  | succ fuel ih =>
    intro more message tags h
    have e : fuel + 1 + more = (fuel + more) + 1 := by omega
    rw [e]
    simp only [extractTagsLoop]
    cases hs : tagRegex.search message with
    | none => rfl
    | some m =>
      obtain ⟨skipped, caps, rest⟩ := m
      have hlen : rest.length < message.length :=
        search_lit_seq_length _ _ _ _ _ _ hs
      simp only []
      split_ifs
      · exact ih more rest _ (by omega)
      · exact ih more rest _ (by omega)

/-- The loop behind the removal of the tags never runs out of rounds. -/
theorem removeAllLoop_fuel (c : Char) (r : Re) (fuel : Nat) :
    ∀ (more : Nat) (s : Text),
      s.length < fuel →
      (Re.seq (Re.lit c) r).removeAllLoop (fuel + more) s
        = (Re.seq (Re.lit c) r).removeAllLoop fuel s := by
  induction fuel with
  | zero => intro more s h; omega
  | succ fuel ih =>
    intro more s h
    have e : fuel + 1 + more = (fuel + more) + 1 := by omega
    rw [e]
    simp only [Re.removeAllLoop]
    cases hs : (Re.seq (Re.lit c) r).search s with
    | none => rfl
    | some m =>
      obtain ⟨skipped, caps, rest⟩ := m
      have hlen : rest.length < s.length := search_lit_seq_length _ _ _ _ _ _ hs
      simp only []
      rw [ih more rest (by omega)]

/-! ### `processMessage` -/

/-- Order-delivery calls of a concatenation. -/
theorem orderSends_append (es fs : List Event) :
    orderSends (es ++ fs) = orderSends es + orderSends fs := by
  induction es with
  | nil => simp [orderSends]
  | cons e es ih => cases e <;> simp [orderSends, ih]; omega

/-- The model call makes no order-delivery call. -/
theorem orderSends_map_requestEvent (system : Text) (messages : List Turn)
    (es : List RetryEvent) : orderSends (es.map (requestEvent system messages)) = 0 := by
  induction es with
  | nil => rfl
  | cons e es ih => cases e <;> simpa [orderSends, requestEvent] using ih

/-- The call `saveToJson` never throws and makes exactly one send, whether the
send resolves or rejects. -/
theorem saveToJson_eq (send : Except JsError Unit) (userId : Text) (data : Dict Text) :
    saveToJson send userId data = (.ok (), [Event.orderSend (orderMessage data)]) := by
  cases send <;> rfl

/-- A turn that does not get through the parse step: the `try` block leaves the
session alone, makes no call but the model call, and ends with one of the two
fixed replies or a throw. -/
theorem tryBlock_of_turnContent_none (w : World) (userId userName userMessage : Text)
    (session : Session) (filledPrompt : Text) (fixedContext : List Turn)
    (h : turnContent w = none) :
    ∃ r, tryBlock w userId userName userMessage session filledPrompt fixedContext =
        (r, session, (fetchWithRetry w.outcomes 3 1000).2.map
          (requestEvent filledPrompt fixedContext)) ∧
      (r = .ok parseApology ∨ r = .ok shapeApology ∨ ∃ e, r = .error e) := by
  cases hf : (fetchWithRetry w.outcomes 3 1000).1 with
  | error e =>
    refine ⟨.error e, ?_, Or.inr (Or.inr ⟨e, rfl⟩)⟩
    simp only [tryBlock, hf]
  | ok data =>
    cases hg : guardedText data with
    | error e =>
      refine ⟨.error (some e), ?_, Or.inr (Or.inr ⟨some e, rfl⟩)⟩
      simp only [tryBlock, hf, hg]
    | ok v =>
      cases v with
      | none =>
        refine ⟨.ok shapeApology, ?_, Or.inr (Or.inl rfl)⟩
        simp only [tryBlock, hf, hg]
      | some j =>
        cases j with
        | str replyMessage =>
          cases hs : responseRegex.search replyMessage with
          | none =>
            refine ⟨.ok parseApology, ?_, Or.inl rfl⟩
            simp only [tryBlock, hf, hg, hs]
          | some m =>
            obtain ⟨a, caps, rest⟩ := m
            simp [turnContent, hf, hg, hs] at h
        | null =>
          refine ⟨.error (some JsError.typeError), ?_, Or.inr (Or.inr ⟨_, rfl⟩)⟩
          simp only [tryBlock, hf, hg]
        | bool b =>
          refine ⟨.error (some JsError.typeError), ?_, Or.inr (Or.inr ⟨_, rfl⟩)⟩
          simp only [tryBlock, hf, hg]
        | num n =>
          refine ⟨.error (some JsError.typeError), ?_, Or.inr (Or.inr ⟨_, rfl⟩)⟩
          simp only [tryBlock, hf, hg]
        | arr items =>
          refine ⟨.error (some JsError.typeError), ?_, Or.inr (Or.inr ⟨_, rfl⟩)⟩
          simp only [tryBlock, hf, hg]
        | obj props =>
          refine ⟨.error (some JsError.typeError), ?_, Or.inr (Or.inr ⟨_, rfl⟩)⟩
          simp only [tryBlock, hf, hg]

/-- A turn that gets through the parse step with the response content `content`:
what the `try` block does. -/
theorem tryBlock_of_turnContent_some (w : World) (userId userName userMessage : Text)
    (session : Session) (filledPrompt : Text) (fixedContext : List Turn) (content : Text)
    (h : turnContent w = some content) :
    tryBlock w userId userName userMessage session filledPrompt fixedContext =
      ((match w.logSend with
        | .ok _ => .ok (cleanRegex.removeAll content)
        | .error e => .error (some e)),
       closeSession session content,
       (fetchWithRetry w.outcomes 3 1000).2.map (requestEvent filledPrompt fixedContext) ++
        (if validateTags (mergeSlots session.orderData (extractTags content)) then
          [Event.orderSend (orderMessage (mergeSlots session.orderData (extractTags content)))]
         else []) ++
        [Event.logSend (logMessage userName userMessage (cleanRegex.removeAll content))]) := by
  cases hf : (fetchWithRetry w.outcomes 3 1000).1 with
  | error e => simp [turnContent, hf] at h
  | ok data =>
    cases hg : guardedText data with
    | error e => simp [turnContent, hf, hg] at h
    | ok v =>
      cases v with
      | none => simp [turnContent, hf, hg] at h
      | some j =>
        cases j with
        | str replyMessage =>
          cases hs : responseRegex.search replyMessage with
          | none => simp [turnContent, hf, hg, hs] at h
          | some m =>
            obtain ⟨a, caps, rest⟩ := m
            simp only [turnContent, hf, hg, hs, Option.some.injEq] at h
            subst h
            simp only [tryBlock, hf, hg, hs, saveToJson_eq, closeSession]
            by_cases hv : validateTags
                (mergeSlots session.orderData (extractTags ((Caps.get caps 1).getD []))) = true
            · cases w.logSend <;> simp [hv]
            · cases w.logSend <;> simp [hv]
        | null => simp [turnContent, hf, hg] at h
        | bool b => simp [turnContent, hf, hg] at h
        | num n => simp [turnContent, hf, hg] at h
        | arr items => simp [turnContent, hf, hg] at h
        | obj props => simp [turnContent, hf, hg] at h

/-- Lookup in the store after assignment. -/
theorem orderDataOf_set (userStates : Dict Session) (userId : Text) (session : Session) :
    orderDataOf (Dict.set userStates userId session) userId = session.orderData := by
  simp [orderDataOf, Dict.get_set]

/-- Opening the session of a user does not touch the slots. -/
theorem openSession_orderData (userStates : Dict Session) (userId userName userMessage : Text) :
    (openSession userStates userId userName userMessage).orderData
      = orderDataOf userStates userId := by
  unfold openSession orderDataOf
  cases Dict.get userStates userId <;> rfl

/-- What `processMessage` does in a turn that does not get through the parse step. -/
theorem processMessage_of_turnContent_none (cfg : Config) (w : World)
    (userStates : Dict Session) (userId userName userMessage : Text)
    (h : turnContent w = none) :
    (processMessage cfg w userStates userId userName userMessage).userStates
      = Dict.set userStates userId (openSession userStates userId userName userMessage) ∧
    (processMessage cfg w userStates userId userName userMessage).events
      = fetchEventsOf cfg w userStates userId userName userMessage ∧
    ((processMessage cfg w userStates userId userName userMessage).reply = parseApology ∨
     (processMessage cfg w userStates userId userName userMessage).reply = shapeApology ∨
     (processMessage cfg w userStates userId userName userMessage).reply = overloadApology) := by
  obtain ⟨r, hr, hcase⟩ := tryBlock_of_turnContent_none w userId userName userMessage
    (openSession userStates userId userName userMessage) (fillPrompt cfg userMessage userName)
    (ensureAlternatingRoles (openSession userStates userId userName userMessage).context) h
  rcases hcase with rfl | rfl | ⟨e, rfl⟩ <;>
    simp [processMessage, hr, fetchEventsOf]

/-- What `processMessage` does in a turn that gets through the parse step. -/
theorem processMessage_of_turnContent_some (cfg : Config) (w : World)
    (userStates : Dict Session) (userId userName userMessage content : Text)
    (h : turnContent w = some content) :
    (processMessage cfg w userStates userId userName userMessage).userStates
      = Dict.set userStates userId
          (closeSession (openSession userStates userId userName userMessage) content) ∧
    (processMessage cfg w userStates userId userName userMessage).events
      = fetchEventsOf cfg w userStates userId userName userMessage ++
        (if validateTags (mergeSlots (orderDataOf userStates userId) (extractTags content)) then
          [Event.orderSend
            (orderMessage (mergeSlots (orderDataOf userStates userId) (extractTags content)))]
         else []) ++
        [Event.logSend (logMessage userName userMessage (cleanRegex.removeAll content))] ∧
    (processMessage cfg w userStates userId userName userMessage).reply
      = (match w.logSend with
         | .ok _ => cleanRegex.removeAll content
         | .error _ => overloadApology) := by
  have hr := tryBlock_of_turnContent_some w userId userName userMessage
    (openSession userStates userId userName userMessage) (fillPrompt cfg userMessage userName)
    (ensureAlternatingRoles (openSession userStates userId userName userMessage).context)
    content h
  rw [openSession_orderData] at hr
  cases hl : w.logSend <;> simp [processMessage, hr, hl, fetchEventsOf]

/-- The number of order-delivery calls of a turn: one if the turn gets through
the parse step and the merged slots are complete, none otherwise. -/
theorem orderSends_processMessage (cfg : Config) (w : World)
    (userStates : Dict Session) (userId userName userMessage : Text) :
    orderSends (processMessage cfg w userStates userId userName userMessage).events =
      if (turnContent w).isSome = true ∧
          validateTags (orderDataOf
            (processMessage cfg w userStates userId userName userMessage).userStates userId)
            = true
      then 1 else 0 := by
  cases h : turnContent w with
  | none =>
    obtain ⟨_, h2, _⟩ := processMessage_of_turnContent_none cfg w userStates userId userName
      userMessage h
    rw [h2]
    simp [fetchEventsOf, orderSends_map_requestEvent]
  | some content =>
    obtain ⟨h1, h2, _⟩ := processMessage_of_turnContent_some cfg w userStates userId userName
      userMessage content h
    rw [h1, h2, orderDataOf_set]
    simp only [closeSession, openSession_orderData, orderSends_append, fetchEventsOf,
      orderSends_map_requestEvent, Option.isSome_some, true_and]
    by_cases hv : validateTags (mergeSlots (orderDataOf userStates userId) (extractTags content))
        = true
    · simp [hv, orderSends]
    · simp [hv, orderSends]

/-- When `content[0].text` is a string, the guard of line 150 lets it through
exactly when it is not empty. -/
theorem guardedText_of_contentText (data : Json) (text : Text)
    (h : contentText data = .ok (some (.str text))) :
    guardedText data = .ok (if text = [] then none else some (.str text)) := by
  have finish : ∀ (first : Option Json),
      (∃ p, first = some (.obj p)) ∨ getProp first keyText ≠ .ok (some (.str text)) := by
    intro first
    rcases first with _ | j
    · right; intro h; cases h
    · cases j with
      | obj p => exact Or.inl ⟨p, rfl⟩
      | null => right; intro h; cases h
      | bool b => right; intro h; cases h
      | num n => right; intro h; cases h
      | str s => right; intro h; cases h
      | arr items => right; intro h; cases h
  have done : ∀ (props : List (Text × Json)) (content : Json) (p : List (Text × Json)),
      Json.lookup props keyContent = some content →
      truthy (some content) = true →
      getIndex0 (some content) = .ok (some (.obj p)) →
      Json.lookup p keyText = some (.str text) →
      guardedText (.obj props) = .ok (if text = [] then none else some (.str text)) := by
    intro props content p hc htruthy hfirst htext
    have t1 : truthy (some (Json.obj props)) = true := rfl
    have t2 : truthy (some (Json.obj p)) = true := rfl
    have t3 : truthy (some (Json.str text)) = (text != []) := rfl
    by_cases ht : text = []
    · subst ht
      have t4 : truthy (some (Json.str [])) = false := rfl
      simp [guardedText, getProp, bind, Except.bind, pure, Except.pure, t1, t2, t4, hc,
        htruthy, hfirst, htext]
    · simp [guardedText, getProp, bind, Except.bind, pure, Except.pure, t1, t2, t3, hc,
        htruthy, hfirst, htext, ht]
  cases data with
  | obj props =>
    simp only [contentText, getProp, bind, Except.bind] at h
    cases hc : Json.lookup props keyContent with
    | none => rw [hc] at h; cases h
    | some content =>
      rw [hc] at h
      cases content with
      | null => cases h
      | bool b => cases h
      | num n => cases h
      | str s => cases s <;> cases h
      | arr items =>
        rcases finish items.head? with ⟨p, hp⟩ | hne
        · have hfirst : getIndex0 (some (.arr items)) = .ok (some (.obj p)) := by
            simp only [getIndex0, hp]
          rw [hfirst] at h
          exact done props _ p hc rfl hfirst (Except.ok.inj h)
        · exact absurd h hne
      | obj p1 =>
        rcases finish (Json.lookup p1 keyZero) with ⟨p, hp⟩ | hne
        · have hfirst : getIndex0 (some (.obj p1)) = .ok (some (.obj p)) := by
            simp only [getIndex0, hp]
          rw [hfirst] at h
          exact done props _ p hc rfl hfirst (Except.ok.inj h)
        · exact absurd h hne
  | null => cases h
  | bool b => cases h
  | num n => cases h
  | str s => cases h
  | arr items => cases h

/-- The model replies with `text` exactly when `fetchWithRetry` returns a payload
whose `content[0].text` is the string `text`. -/
theorem modelText_eq_some (w : World) (text : Text) (h : modelText w = some text) :
    ∃ data, (fetchWithRetry w.outcomes 3 1000).1 = .ok data ∧
      contentText data = .ok (some (.str text)) := by
  cases hf : (fetchWithRetry w.outcomes 3 1000).1 with
  | error e => simp [modelText, hf] at h
  | ok data =>
    refine ⟨data, rfl, ?_⟩
    cases hc : contentText data with
    | error e => simp [modelText, hf, hc] at h
    | ok v =>
      cases v with
      | none => simp [modelText, hf, hc] at h
      | some j =>
        cases j with
        | str t =>
          simp only [modelText, hf, hc, Option.some.injEq] at h
          rw [h]
        | null => simp [modelText, hf, hc] at h
        | bool b => simp [modelText, hf, hc] at h
        | num n => simp [modelText, hf, hc] at h
        | arr items => simp [modelText, hf, hc] at h
        | obj props => simp [modelText, hf, hc] at h

/-- A text in which the parse step finds nothing contains no response block. -/
theorem not_hasResponseBlock_of_search (text : Text)
    (h : (responseRegex.search text).isSome = false) : ¬ HasResponseBlock text := by
  intro hb
  rw [(responseRegex_search_isSome_iff text).mpr hb] at h
  cases h

/-- A text without the substring `<response>` contains no response block. -/
theorem not_hasResponseBlock_of_no_openTag (text : Text) (h : ¬ openTag <:+: text) :
    ¬ HasResponseBlock text := by
  rintro ⟨a, b, c, rfl⟩
  exact h ⟨a, b ++ closeTag ++ c, by simp⟩

/-- A non-empty reply text without a response block stops the turn at the parse step. -/
theorem turnContent_of_no_block (w : World) (text : Text)
    (hreply : modelText w = some text) (hne : text ≠ []) (hno : ¬ HasResponseBlock text) :
    ∃ data, (fetchWithRetry w.outcomes 3 1000).1 = .ok data ∧
      guardedText data = .ok (some (.str text)) ∧ responseRegex.search text = none := by
  obtain ⟨data, hf, hc⟩ := modelText_eq_some w text hreply
  have hg := guardedText_of_contentText data text hc
  rw [if_neg hne] at hg
  refine ⟨data, hf, hg, ?_⟩
  cases hs : responseRegex.search text with
  | none => rfl
  | some m =>
    exact absurd ((responseRegex_search_isSome_iff text).mp (by simp [hs])) hno

/-- Every failing turn stops before the merge. -/
theorem turnContent_of_failingTurn (w : World) (h : FailingTurn w) : turnContent w = none := by
  rcases h with ⟨e, he⟩ | ⟨data, hf, hg⟩ | ⟨text, hreply, hne, hno⟩
  · simp [turnContent, he]
  · simp [turnContent, hf, hg]
  · obtain ⟨data, hf, hg, hs⟩ := turnContent_of_no_block w text hreply hne hno
    simp [turnContent, hf, hg, hs]

/-- C6 (as stated, it fails): the empty reply text contains no response block, yet
the turn never reaches the parse step: the guard of line 150 takes the empty
string for a missing text and `processMessage` answers with the reply of line
182, not with the one of line 178. -/
theorem empty_reply_text_gets_shapeApology :
    modelText (replyWorld [] (.ok ()) (.ok ())) = some [] ∧
    ¬ HasResponseBlock [] ∧
    (processMessage sampleConfig (replyWorld [] (.ok ()) (.ok ())) []
      "1".toList "Bob".toList "hi".toList).reply = shapeApology ∧
    shapeApology ≠ parseApology :=
  ⟨by decide, not_hasResponseBlock_of_search [] (by decide), by decide, by decide⟩

/-- C6 (amended): for every non-empty model reply text that contains no
`<response>` ... `</response>` block, the parse step finds no match,
`processMessage` returns the fixed apology of line 178 and makes no
order-delivery call in that turn. -/
theorem processMessage_no_block (cfg : Config) (w : World) (userStates : Dict Session)
    (userId userName userMessage text : Text)
    (hreply : modelText w = some text) (hne : text ≠ []) (hno : ¬ HasResponseBlock text) :
    responseRegex.search text = none ∧
    (processMessage cfg w userStates userId userName userMessage).reply = parseApology ∧
    orderSends (processMessage cfg w userStates userId userName userMessage).events = 0 := by
  obtain ⟨data, hf, hg, hs⟩ := turnContent_of_no_block w text hreply hne hno
  refine ⟨hs, ?_, ?_⟩
  · simp [processMessage, tryBlock, hf, hg, hs]
  · simp [processMessage, tryBlock, hf, hg, hs, orderSends_map_requestEvent]

/-- C6 (amended) at a reply without the substring `<response>`. -/
theorem processMessage_no_block_witness :
    modelText (replyWorld "We have espresso.".toList (.ok ()) (.ok ()))
      = some "We have espresso.".toList ∧
    "We have espresso.".toList ≠ [] ∧
    ¬ openTag <:+: "We have espresso.".toList ∧
    (responseRegex.search "We have espresso.".toList = none ∧
     (processMessage sampleConfig (replyWorld "We have espresso.".toList (.ok ()) (.ok ())) []
        "1".toList "Bob".toList "I'd like a cappuccino".toList).reply = parseApology ∧
     orderSends (processMessage sampleConfig
        (replyWorld "We have espresso.".toList (.ok ()) (.ok ())) []
        "1".toList "Bob".toList "I'd like a cappuccino".toList).events = 0) :=
  ⟨by decide, by decide, by decide,
    processMessage_no_block sampleConfig (replyWorld "We have espresso.".toList (.ok ()) (.ok ()))
      [] "1".toList "Bob".toList "I'd like a cappuccino".toList "We have espresso.".toList
      (by decide) (by decide) (not_hasResponseBlock_of_no_openTag _ (by decide))⟩

/-- C7: for every store and every failing turn of `processMessage` (the model call
exhausts its retries, the payload has no truthy `content[0].text`, or the text has
no response block), the slots of the user after the turn are the slots before
it, no order is submitted, and the reply is one of the three fixed apologies. -/
theorem processMessage_failing_turn (cfg : Config) (w : World) (userStates : Dict Session)
    (userId userName userMessage : Text) (hfail : FailingTurn w) :
    orderDataOf (processMessage cfg w userStates userId userName userMessage).userStates userId
      = orderDataOf userStates userId ∧
    orderSends (processMessage cfg w userStates userId userName userMessage).events = 0 ∧
    ((processMessage cfg w userStates userId userName userMessage).reply = parseApology ∨
     (processMessage cfg w userStates userId userName userMessage).reply = shapeApology ∨
     (processMessage cfg w userStates userId userName userMessage).reply = overloadApology) := by
  obtain ⟨h1, h2, h3⟩ := processMessage_of_turnContent_none cfg w userStates userId userName
    userMessage (turnContent_of_failingTurn w hfail)
  refine ⟨?_, ?_, h3⟩
  · rw [h1, orderDataOf_set, openSession_orderData]
  · rw [h2]
    exact orderSends_map_requestEvent _ _ _

/-- C7 at a turn whose three attempts are all rejected, for a user with one
stored slot. -/
theorem processMessage_failing_turn_witness :
    FailingTurn downWorld ∧
    (orderDataOf (processMessage sampleConfig downWorld oneSlotStates
        "1".toList "Bob".toList "hi".toList).userStates "1".toList
      = orderDataOf oneSlotStates "1".toList ∧
    orderSends (processMessage sampleConfig downWorld oneSlotStates
        "1".toList "Bob".toList "hi".toList).events = 0 ∧
    ((processMessage sampleConfig downWorld oneSlotStates
        "1".toList "Bob".toList "hi".toList).reply = parseApology ∨
     (processMessage sampleConfig downWorld oneSlotStates
        "1".toList "Bob".toList "hi".toList).reply = shapeApology ∨
     (processMessage sampleConfig downWorld oneSlotStates
        "1".toList "Bob".toList "hi".toList).reply = overloadApology)) :=
  ⟨Or.inl ⟨some (JsError.external "down".toList), rfl⟩,
    processMessage_failing_turn sampleConfig downWorld oneSlotStates
      "1".toList "Bob".toList "hi".toList
      (Or.inl ⟨some (JsError.external "down".toList), rfl⟩)⟩

/-- C8 (the code departs from the claim): when the reply parses and the audit-log
send rejects, the rejection reaches the `catch` of line 184 and the user gets the
reply of line 186 instead of the cleaned reply `Hi`; a rejected order send, which
`saveToJson` catches itself, leaves the cleaned reply in place. -/
theorem log_failure_reaches_user :
    turnContent (replyWorld "<response>Hi</response>".toList (.ok ())
      (.error (JsError.external "log chat unreachable".toList))) = some "Hi".toList ∧
    cleanRegex.removeAll "Hi".toList = "Hi".toList ∧
    (processMessage sampleConfig
      (replyWorld "<response>Hi</response>".toList (.ok ())
        (.error (JsError.external "log chat unreachable".toList)))
      [] "1".toList "Bob".toList "hi".toList).reply = overloadApology ∧
    overloadApology ≠ "Hi".toList ∧
    (processMessage sampleConfig
      (replyWorld "<response>Hi</response>".toList
        (.error (JsError.external "order chat unreachable".toList)) (.ok ()))
      fullStates "1".toList "Bob".toList "hi".toList).reply = "Hi".toList := by
  refine ⟨by decide, by decide, by decide, by decide, by decide⟩

/-- Lookup in merged slots. -/
theorem get_mergeSlots (orderData tags : Dict Text) (k : Text) :
    Dict.get (mergeSlots orderData tags) k =
      match Dict.get tags k with
      | some v => some v
      | none => Dict.get orderData k := by
  unfold mergeSlots
  rw [get_copyDataProperties, get_copyDataProperties]
  cases Dict.get tags k with
  | some v => rfl
  | none => cases Dict.get orderData k <;> rfl

/-- The slots of the user after a turn that gets through the parse step. -/
theorem orderDataOf_processMessage_some (cfg : Config) (w : World)
    (userStates : Dict Session) (userId userName userMessage content : Text)
    (h : turnContent w = some content) :
    orderDataOf (processMessage cfg w userStates userId userName userMessage).userStates userId
      = mergeSlots (orderDataOf userStates userId) (extractTags content) := by
  rw [(processMessage_of_turnContent_some cfg w userStates userId userName userMessage
    content h).1, orderDataOf_set]
  simp [closeSession, openSession_orderData]

/-- A reply text with a response block gets the turn through the parse step. -/
theorem turnContent_of_block (w : World) (text : Text)
    (hreply : modelText w = some text) (hblock : HasResponseBlock text) :
    ∃ content, turnContent w = some content := by
  obtain ⟨data, hf, hc⟩ := modelText_eq_some w text hreply
  have hg := guardedText_of_contentText data text hc
  have hne : text ≠ [] := by
    rintro rfl
    obtain ⟨a, b, c, habc⟩ := hblock
    have := congrArg List.length habc
    simp [openTag] at this
    omega
  rw [if_neg hne] at hg
  have hs := (responseRegex_search_isSome_iff text).mpr hblock
  obtain ⟨⟨skipped, caps, rest⟩, hx⟩ := Option.isSome_iff_exists.mp hs
  exact ⟨(Caps.get caps 1).getD [], by simp [turnContent, hf, hg, hx]⟩

/-- Completeness only depends on what the five keys hold. -/
theorem validateTags_eq_true_iff (tags : Dict Text) :
    validateTags tags = true ↔ ∀ k ∈ requiredTags, truthyText (Dict.get tags k) = true := by
  rw [validateTags_eq_all, List.all_eq_true]

/-- A key that an extracted map does not yield is absent from it. -/
theorem Yields.get_none {tags : Dict Text} {keys : List Text} (h : Yields tags keys)
    (k : Text) (hk : k ∉ keys) : Dict.get tags k = none :=
  Dict.get_eq_none_of_not_mem_keys tags k (fun hmem => hk (h.1 k hmem))

/-- C9: in every turn whose model reply contains a `<response>` block the
order-delivery call is made exactly once if the merged slots are complete and
not at all otherwise; hence for a user without a session whose first turn yields
`{name, email}` and whose second turn yields `{phone, address, order}`, the slots
are complete after the second turn and exactly one order-delivery call is made
over the two turns. -/
theorem delivery_iff_complete (cfg : Config) (userId : Text) :
    (∀ (w : World) (userStates : Dict Session) (userName userMessage text : Text),
      modelText w = some text → HasResponseBlock text →
      ∃ content, turnContent w = some content ∧
        orderDataOf (processMessage cfg w userStates userId userName userMessage).userStates
            userId = mergeSlots (orderDataOf userStates userId) (extractTags content) ∧
        orderSends (processMessage cfg w userStates userId userName userMessage).events =
          if validateTags (orderDataOf
              (processMessage cfg w userStates userId userName userMessage).userStates userId)
              = true
          then 1 else 0) ∧
    (∀ (userStates : Dict Session) (c₁ c₂ : Call) (content₁ content₂ : Text),
      Dict.get userStates userId = none →
      turnContent c₁.world = some content₁ →
      turnContent c₂.world = some content₂ →
      Yields (extractTags content₁) ["name".toList, "email".toList] →
      Yields (extractTags content₂) ["phone".toList, "address".toList, "order".toList] →
      ∃ o₁ o₂, runCalls cfg userId userStates [c₁, c₂] = [o₁, o₂] ∧
        validateTags (orderDataOf o₂.userStates userId) = true ∧
        orderSends o₁.events + orderSends o₂.events = 1) := by
  constructor
  · intro w userStates userName userMessage text hreply hblock
    obtain ⟨content, hcontent⟩ := turnContent_of_block w text hreply hblock
    refine ⟨content, hcontent, ?_, ?_⟩
    · exact orderDataOf_processMessage_some cfg w userStates userId userName userMessage
        content hcontent
    · rw [orderSends_processMessage, hcontent]
      simp
  · intro userStates c₁ c₂ content₁ content₂ hfresh h₁ h₂ hy₁ hy₂
    refine ⟨_, _, rfl, ?_, ?_⟩
    all_goals
      have hd₁ := orderDataOf_processMessage_some cfg c₁.world userStates userId c₁.userName
        c₁.userMessage content₁ h₁
      have hd₂ := orderDataOf_processMessage_some cfg c₂.world
        (processMessage cfg c₁.world userStates userId c₁.userName c₁.userMessage).userStates
        userId c₂.userName c₂.userMessage content₂ h₂
      have hempty : orderDataOf userStates userId = [] := by simp [orderDataOf, hfresh]
      rw [hempty] at hd₁
      rw [hd₁] at hd₂
      have hfull : validateTags
          (mergeSlots (mergeSlots [] (extractTags content₁)) (extractTags content₂)) = true := by
        rw [validateTags_eq_true_iff]
        intro k hk
        rw [get_mergeSlots, get_mergeSlots]
        by_cases hk₂ : k ∈ ["phone".toList, "address".toList, "order".toList]
        · have ht := hy₂.2 k hk₂
          cases hg : Dict.get (extractTags content₂) k with
          | none => rw [hg] at ht; cases ht
          | some v => rw [hg] at ht; exact ht
        · have hk₁ : k ∈ ["name".toList, "email".toList] := by
            simp only [requiredTags, List.mem_cons, List.mem_singleton, List.not_mem_nil,
              or_false] at hk hk₂ ⊢
            tauto
          rw [hy₂.get_none k hk₂]
          have ht := hy₁.2 k hk₁
          cases hg : Dict.get (extractTags content₁) k with
          | none => rw [hg] at ht; cases ht
          | some v => rw [hg] at ht; exact ht
      have hpart : validateTags (mergeSlots [] (extractTags content₁)) = false := by
        cases hv : validateTags (mergeSlots [] (extractTags content₁)) with
        | false => rfl
        | true =>
          have := (validateTags_eq_true_iff _).mp hv "phone".toList (by decide)
          rw [get_mergeSlots, hy₁.get_none "phone".toList (by decide)] at this
          cases this
    · rw [hd₂]; exact hfull
    · rw [orderSends_processMessage, orderSends_processMessage, hd₁, hd₂, h₁, h₂, hfull, hpart]
      simp

/-- C9 at a concrete conversation: the first reply fills `name` and `email`, the
second one `phone`, `address` and `order`. -/
theorem delivery_iff_complete_witness :
    Dict.get ([] : Dict Session) "1".toList = none ∧
    turnContent (replyCall replyNameEmail "hi".toList).world
      = some "Thanks <name>Ann</name><email>a@b.c</email>".toList ∧
    turnContent (replyCall replyRest "more".toList).world
      = some "<phone>555</phone><address>1 Main St</address><order>latte</order>Done".toList ∧
    Yields (extractTags "Thanks <name>Ann</name><email>a@b.c</email>".toList)
      ["name".toList, "email".toList] ∧
    Yields (extractTags
        "<phone>555</phone><address>1 Main St</address><order>latte</order>Done".toList)
      ["phone".toList, "address".toList, "order".toList] ∧
    ∃ o₁ o₂, runCalls sampleConfig "1".toList []
        [replyCall replyNameEmail "hi".toList, replyCall replyRest "more".toList] = [o₁, o₂] ∧
      validateTags (orderDataOf o₂.userStates "1".toList) = true ∧
      orderSends o₁.events + orderSends o₂.events = 1 :=
  ⟨rfl, by decide, by decide, by decide, by decide,
    (delivery_iff_complete sampleConfig "1".toList).2 []
      (replyCall replyNameEmail "hi".toList) (replyCall replyRest "more".toList)
      "Thanks <name>Ann</name><email>a@b.c</email>".toList
      "<phone>555</phone><address>1 Main St</address><order>latte</order>Done".toList
      rfl (by decide) (by decide) (by decide) (by decide)⟩

/-! ### Sequences of calls -/

/-- The outcome with index `j` of a sequence of calls is the outcome of
`processMessage` on some store, and the next call runs on the store it leaves. -/
theorem runCalls_getElem (cfg : Config) (userId : Text) (calls : List Call) :
    ∀ (userStates : Dict Session) (j : Nat) (c : Call) (o : Outcome),
      calls[j]? = some c → (runCalls cfg userId userStates calls)[j]? = some o →
      ∃ before, o = processMessage cfg c.world before userId c.userName c.userMessage ∧
        ∀ (c' : Call) (o' : Outcome), calls[j + 1]? = some c' →
          (runCalls cfg userId userStates calls)[j + 1]? = some o' →
          o' = processMessage cfg c'.world o.userStates userId c'.userName c'.userMessage := by
  induction calls with
  | nil => intro userStates j c o hc; simp at hc
  | cons d ds ih =>
    intro userStates j c o hc ho
    cases j with
    | zero =>
      simp only [List.getElem?_cons_zero, Option.some.injEq] at hc
      subst hc
      simp only [runCalls, List.getElem?_cons_zero, Option.some.injEq] at ho
      subst ho
      refine ⟨userStates, rfl, ?_⟩
      intro c' o' hc' ho'
      simp only [runCalls, Nat.zero_add, List.getElem?_cons_succ] at hc' ho'
      cases ds with
      | nil => simp at hc'
      | cons e es =>
        simp only [List.getElem?_cons_zero, Option.some.injEq] at hc'
        subst hc'
        simp only [runCalls, List.getElem?_cons_zero, Option.some.injEq] at ho'
        exact ho'.symm
    | succ j =>
      simp only [List.getElem?_cons_succ] at hc
      simp only [runCalls, List.getElem?_cons_succ] at ho
      obtain ⟨before, hb, hnext⟩ := ih _ j c o hc ho
      refine ⟨before, hb, ?_⟩
      intro c' o' hc' ho'
      simp only [List.getElem?_cons_succ] at hc'
      simp only [runCalls, List.getElem?_cons_succ] at ho'
      exact hnext c' o' hc' ho'

/-- Merging an empty extracted map leaves every slot as it is. -/
theorem validateTags_mergeSlots_nil (orderData : Dict Text) :
    validateTags (mergeSlots orderData []) = validateTags orderData := by
  rw [validateTags_eq_all, validateTags_eq_all]
  congr 1
  funext k
  rw [get_mergeSlots]
  rfl

set_option maxRecDepth 100000 in
/-- C10 (as stated, it fails): a first turn whose reply fills all five slots
submits the order, and the next turn, whose reply carries no slot tag, submits
it again. -/
theorem order_submitted_twice :
    (runCalls sampleConfig "1".toList []
      [replyCall replyAll "hi".toList, replyCall replyPlain "thanks".toList]).map
        (fun o => orderSends o.events) = [1, 1] := by
  decide

/-- C10 (amended): in every sequence of `processMessage` calls for one user, a
turn makes one order-delivery call exactly when its reply gets through the parse
step and the merged slots are complete, and none otherwise, whatever earlier
turns did; in particular, after a turn that submitted the order, a next turn
whose reply has a response block without slot tags submits it again. -/
theorem runCalls_delivery (cfg : Config) (userId : Text) (userStates : Dict Session)
    (calls : List Call) (j : Nat) (c : Call) (o : Outcome)
    (hc : calls[j]? = some c) (ho : (runCalls cfg userId userStates calls)[j]? = some o) :
    orderSends o.events =
      (if (turnContent c.world).isSome = true ∧
          validateTags (orderDataOf o.userStates userId) = true then 1 else 0) ∧
    ∀ (c' : Call) (o' : Outcome) (content : Text),
      calls[j + 1]? = some c' →
      (runCalls cfg userId userStates calls)[j + 1]? = some o' →
      orderSends o.events = 1 →
      turnContent c'.world = some content → extractTags content = [] →
      orderSends o'.events = 1 := by
  obtain ⟨before, hb, hnext⟩ := runCalls_getElem cfg userId calls userStates j c o hc ho
  have hcount : orderSends o.events =
      (if (turnContent c.world).isSome = true ∧
          validateTags (orderDataOf o.userStates userId) = true then 1 else 0) := by
    rw [hb]
    exact orderSends_processMessage cfg c.world before userId c.userName c.userMessage
  refine ⟨hcount, ?_⟩
  intro c' o' content hc' ho' hsent hcontent hnone
  have hfull : validateTags (orderDataOf o.userStates userId) = true := by
    by_contra hv
    rw [hcount] at hsent
    simp [hv] at hsent
  rw [hnext c' o' hc' ho', orderSends_processMessage,
    orderDataOf_processMessage_some cfg c'.world o.userStates userId c'.userName
      c'.userMessage content hcontent,
    hcontent, hnone, validateTags_mergeSlots_nil, hfull]
  simp

set_option maxRecDepth 100000 in
/-- C10 (amended) at the conversation of two turns in which the first reply fills
all five slots and the second carries no slot tag: both turns submit the order. -/
theorem runCalls_delivery_witness :
    [replyCall replyAll "hi".toList, replyCall replyPlain "thanks".toList][0]?
      = some (replyCall replyAll "hi".toList) ∧
    (runCalls sampleConfig "1".toList []
      [replyCall replyAll "hi".toList, replyCall replyPlain "thanks".toList])[0]?
      = some (processMessage sampleConfig (replyCall replyAll "hi".toList).world []
          "1".toList "Bob".toList "hi".toList) ∧
    (orderSends (processMessage sampleConfig (replyCall replyAll "hi".toList).world []
          "1".toList "Bob".toList "hi".toList).events =
      (if (turnContent (replyCall replyAll "hi".toList).world).isSome = true ∧
          validateTags (orderDataOf (processMessage sampleConfig
            (replyCall replyAll "hi".toList).world []
            "1".toList "Bob".toList "hi".toList).userStates "1".toList) = true
        then 1 else 0) ∧
      ∀ (c' : Call) (o' : Outcome) (content : Text),
        [replyCall replyAll "hi".toList, replyCall replyPlain "thanks".toList][0 + 1]?
          = some c' →
        (runCalls sampleConfig "1".toList []
          [replyCall replyAll "hi".toList, replyCall replyPlain "thanks".toList])[0 + 1]?
          = some o' →
        orderSends (processMessage sampleConfig (replyCall replyAll "hi".toList).world []
          "1".toList "Bob".toList "hi".toList).events = 1 →
        turnContent c'.world = some content → extractTags content = [] →
        orderSends o'.events = 1) :=
  ⟨rfl, rfl,
    runCalls_delivery sampleConfig "1".toList []
      [replyCall replyAll "hi".toList, replyCall replyPlain "thanks".toList] 0
      (replyCall replyAll "hi".toList)
      (processMessage sampleConfig (replyCall replyAll "hi".toList).world []
          "1".toList "Bob".toList "hi".toList) rfl rfl⟩

/-! ### What `ensureAlternatingRoles` keeps, drops and inserts -/

/-- The loop appends to the array built so far. -/
theorem ensureAlternatingRolesLoop_eq (ctx : List Turn) :
    ∀ (lastRole : Option Text) (acc : List Turn),
      ensureAlternatingRolesLoop ctx lastRole acc = acc ++ appendedFrom lastRole ctx := by
  induction ctx with
  | nil => intro lastRole acc; simp [ensureAlternatingRolesLoop, appendedFrom]
  | cons m rest ih =>
    intro lastRole acc
    unfold ensureAlternatingRolesLoop appendedFrom
    split_ifs <;> simp [ih]

/-- The output of `ensureAlternatingRoles` is what the loop appends from the start. -/
theorem ensureAlternatingRoles_eq (ctx : List Turn) :
    ensureAlternatingRoles ctx = appendedFrom none ctx := by
  simp [ensureAlternatingRoles, ensureAlternatingRolesLoop_eq]

/-- The filler turn is not a `user` turn. -/
theorem fillerTurn_role_ne : fillerTurn.role ≠ roleUser := by decide

/-- The output arises from the kept input turns by inserting fillers before
`user` turns. -/
theorem insertedFillers_appendedFrom (ctx : List Turn) :
    ∀ lastRole : Option Text,
      InsertedFillers (keptFrom lastRole ctx) (appendedFrom lastRole ctx) := by
  induction ctx with
  | nil => intro lastRole; exact InsertedFillers.nil
  | cons m rest ih =>
    intro lastRole
    by_cases h1 : some m.role = lastRole
    · subst h1
      by_cases h2 : m.role = roleUser
      · have hk : keptFrom (some m.role) (m :: rest) = m :: keptFrom (some m.role) rest := by
          simp [keptFrom, h2]
        have ha : appendedFrom (some m.role) (m :: rest)
            = fillerTurn :: m :: appendedFrom (some roleUser) rest := by
          simp [appendedFrom, h2]
        rw [hk, ha, h2]
        exact InsertedFillers.fill m h2 (ih _)
      · have hk : keptFrom (some m.role) (m :: rest) = keptFrom (some m.role) rest := by
          simp [keptFrom, h2]
        have ha : appendedFrom (some m.role) (m :: rest) = appendedFrom (some m.role) rest := by
          simp [appendedFrom, h2]
        rw [hk, ha]
        exact ih _
    · have hk : keptFrom lastRole (m :: rest) = m :: keptFrom (some m.role) rest := by
        simp [keptFrom, h1]
      have ha : appendedFrom lastRole (m :: rest) = m :: appendedFrom (some m.role) rest := by
        simp [appendedFrom, h1]
      rw [hk, ha]
      exact InsertedFillers.keep m (ih _)

/-- Inserting fillers keeps every turn of the first list, in order. -/
theorem InsertedFillers.sublist {xs ys : List Turn} (h : InsertedFillers xs ys) :
    List.Sublist xs ys := by
  induction h with
  | nil => exact List.Sublist.slnil
  | keep t _ ih => exact ih.cons₂ t
  | fill t _ _ ih => exact (ih.cons₂ t).cons fillerTurn

/-- Inserting fillers does not change the `user` turns. -/
theorem InsertedFillers.userTurns_eq {xs ys : List Turn} (h : InsertedFillers xs ys) :
    userTurns ys = userTurns xs := by
  induction h with
  | nil => rfl
  | keep t _ ih =>
    unfold userTurns at ih ⊢
    by_cases ht : t.role = roleUser <;> simp [List.filter, ht, ih]
  | fill t ht _ ih =>
    unfold userTurns at ih ⊢
    simp [List.filter, ht, ih, fillerTurn_role_ne]

/-- The dropped turns are no `user` turns. -/
theorem userTurns_keptFrom (ctx : List Turn) :
    ∀ previous : Option Text, userTurns (keptFrom previous ctx) = userTurns ctx := by
  induction ctx with
  | nil => intro previous; rfl
  | cons m rest ih =>
    intro previous
    by_cases h : some m.role = previous ∧ m.role ≠ roleUser
    · obtain ⟨h1, h2⟩ := h
      subst h1
      have hk : keptFrom (some m.role) (m :: rest) = keptFrom (some m.role) rest := by
        simp [keptFrom, h2]
      rw [hk, ih]
      simp [userTurns, List.filter, h2]
    · have hk : keptFrom previous (m :: rest) = m :: keptFrom (some m.role) rest := by
        simp only [keptFrom, h, if_false]
      rw [hk]
      have := ih (some m.role)
      unfold userTurns at this ⊢
      by_cases ht : m.role = roleUser
      · simp only [List.filter, ht, decide_True]
        rw [ht] at this
        rw [this]
      · simp [List.filter, ht, this]

/-- The kept turns are input turns, in order. -/
theorem keptFrom_sublist (ctx : List Turn) :
    ∀ previous : Option Text, List.Sublist (keptFrom previous ctx) ctx := by
  induction ctx with
  | nil => intro previous; exact List.Sublist.slnil
  | cons m rest ih =>
    intro previous
    unfold keptFrom
    split_ifs
    · exact (ih _).cons m
    · exact (ih _).cons₂ m

/-- Nothing is dropped from an input in which no turn repeats the role of the
turn before it with a role other than `user`. -/
theorem keptFrom_eq_self (ctx : List Turn) :
    ∀ previous : Option Text,
      (∀ t, ctx.head? = some t → ¬ (some t.role = previous ∧ t.role ≠ roleUser)) →
      NoRepeatedReply ctx → keptFrom previous ctx = ctx := by
  induction ctx with
  | nil => intro previous _ _; rfl
  | cons m rest ih =>
    intro previous hhead hchain
    unfold keptFrom
    have h1 := hhead m rfl
    simp only [h1, if_false]
    congr 1
    apply ih
    · intro t ht
      cases rest with
      | nil => simp at ht
      | cons r rest' =>
        simp only [List.head?_cons, Option.some.injEq] at ht
        subst ht
        have := (List.chain'_cons.mp hchain).1
        intro hh
        apply this
        refine ⟨?_, hh.2⟩
        have := hh.1
        simp only [Option.some.injEq] at this
        exact this.symm
    · exact (List.chain'_cons'.mp hchain).2

/-- C12 (as stated, it fails): of two assistant turns in a row the second is
dropped, so the input is not a subsequence of the output and the output is
shorter than the input. -/
theorem repeated_assistant_turn_is_dropped :
    ensureAlternatingRoles twoReplies
      = [{ role := roleAssistant, content := "a".toList }] ∧
    ¬ List.Sublist twoReplies (ensureAlternatingRoles twoReplies) ∧
    (ensureAlternatingRoles twoReplies).length < twoReplies.length := by
  refine ⟨by decide, ?_, by decide⟩
  intro h
  have := h.length_le
  revert this
  decide

/-- C12 (amended): `ensureAlternatingRoles` passes every input turn through
unmodified except a turn that repeats the role of the input turn directly before
it with a role other than `user` (an assistant turn directly after an assistant
turn), which it drops: the input without these turns is an order-preserving
subsequence of the output, and for an input without such turns the input itself
is one, so that the output is at least as long as the input. -/
theorem ensureAlternatingRoles_keeps (context : List Turn) :
    List.Sublist (keptTurns context) (ensureAlternatingRoles context) ∧
    (NoRepeatedReply context →
      List.Sublist context (ensureAlternatingRoles context) ∧
      context.length ≤ (ensureAlternatingRoles context).length) := by
  have h : List.Sublist (keptTurns context) (ensureAlternatingRoles context) := by
    rw [ensureAlternatingRoles_eq]
    exact (insertedFillers_appendedFrom context none).sublist
  refine ⟨h, ?_⟩
  intro hno
  have hk : keptTurns context = context :=
    keptFrom_eq_self context none (fun t _ hh => by simp at hh) hno
  rw [hk] at h
  exact ⟨h, h.length_le⟩

/-- C12 (amended) at a conversation in which the user writes twice in a row. -/
theorem ensureAlternatingRoles_keeps_witness :
    NoRepeatedReply twoQuestions ∧
    List.Sublist twoQuestions (ensureAlternatingRoles twoQuestions) ∧
    twoQuestions.length ≤ (ensureAlternatingRoles twoQuestions).length :=
  ⟨by simp [NoRepeatedReply, twoQuestions, roleUser, roleAssistant],
    (ensureAlternatingRoles_keeps twoQuestions).2
      (by simp [NoRepeatedReply, twoQuestions, roleUser, roleAssistant])⟩

/-- C20: `ensureAlternatingRoles` never loses or alters a `user` turn: the `user`
turns of the output are the `user` turns of the input, in the same order, and
the output arises from a subsequence of the input by putting the fixed assistant
filler immediately before some of its `user` turns, so that every turn of the
output that is not an input turn is such a filler. -/
theorem ensureAlternatingRoles_userTurns (context : List Turn) :
    userTurns (ensureAlternatingRoles context) = userTurns context ∧
    List.Sublist (keptTurns context) context ∧
    InsertedFillers (keptTurns context) (ensureAlternatingRoles context) := by
  have h : InsertedFillers (keptTurns context) (ensureAlternatingRoles context) := by
    rw [ensureAlternatingRoles_eq]
    exact insertedFillers_appendedFrom context none
  refine ⟨?_, keptFrom_sublist context none, h⟩
  rw [h.userTurns_eq]
  exact userTurns_keptFrom context none

/-! ### The merge, as an object -/

/-- Assigning to a key that is no own key adds the property at the end. -/
theorem Dict.set_of_not_mem {α : Type} (o : Dict α) (k : Text) (v : α)
    (h : k ∉ Dict.keys o) : Dict.set o k v = o ++ [(k, v)] := by
  induction o with
  | nil => rfl
  | cons e o ih =>
    obtain ⟨j, w⟩ := e
    simp only [Dict.keys, List.map_cons, List.mem_cons, not_or] at h
    have hj : j ≠ k := fun hjk => h.1 hjk.symm
    simp only [Dict.set, hj, if_false, List.cons_append]
    rw [ih h.2]

/-- Assigning to a key the value it holds changes nothing. -/
theorem Dict.set_of_get {α : Type} (o : Dict α) (k : Text) (v : α)
    (h : Dict.get o k = some v) : Dict.set o k v = o := by
  induction o with
  | nil => simp [Dict.get] at h
  | cons e o ih =>
    obtain ⟨j, w⟩ := e
    by_cases hj : j = k
    · simp only [Dict.get, hj, if_true, Option.some.injEq] at h
      simp [Dict.set, hj, h]
    · simp only [Dict.get, hj, if_false] at h
      simp [Dict.set, hj, ih h]

/-- The own keys after an assignment. -/
theorem Dict.keys_set {α : Type} (o : Dict α) (k : Text) (v : α) :
    Dict.keys (Dict.set o k v) = if k ∈ Dict.keys o then Dict.keys o else Dict.keys o ++ [k] := by
  induction o with
  | nil => rfl
  | cons e o ih =>
    obtain ⟨j, w⟩ := e
    by_cases hj : j = k
    · subst hj
      have hmem : j ∈ Dict.keys ((j, w) :: o) := List.mem_cons_self _ _
      rw [if_pos hmem]
      simp only [Dict.set, if_true]
      rfl
    · have hkj : k ≠ j := fun h => hj h.symm
      have hset : Dict.set ((j, w) :: o) k v = (j, w) :: Dict.set o k v := by
        simp only [Dict.set, hj, if_false]
      have hkeys : ∀ o' : Dict α, Dict.keys ((j, w) :: o') = j :: Dict.keys o' := fun _ => rfl
      rw [hset, hkeys, hkeys, ih]
      by_cases hk : k ∈ Dict.keys o
      · rw [if_pos hk, if_pos (List.mem_cons_of_mem j hk)]
      · have hk' : k ∉ j :: Dict.keys o := by
          intro hmem
          rcases List.mem_cons.mp hmem with h | h
          · exact hkj h
          · exact hk h
        rw [if_neg hk, if_neg hk']
        rfl

/-- An assignment keeps the own keys distinct. -/
theorem Dict.nodup_keys_set {α : Type} (o : Dict α) (k : Text) (v : α)
    (h : (Dict.keys o).Nodup) : (Dict.keys (Dict.set o k v)).Nodup := by
  rw [Dict.keys_set]
  split_ifs with hk
  · exact h
  · exact List.Nodup.append h (List.nodup_singleton k) (by
      intro x hx hx'
      simp only [List.mem_singleton] at hx'
      subst hx'
      exact hk hx)

/-- Copying properties keeps the own keys distinct. -/
theorem nodup_keys_copy_foldl {α : Type} (source : Dict α) (ks : List Text) :
    ∀ target : Dict α, (Dict.keys target).Nodup →
      (Dict.keys (ks.foldl
        (fun t k =>
          match Dict.get source k with
          | some v => Dict.set t k v
          | none => t) target)).Nodup := by
  induction ks with
  | nil => intro target h; exact h
  | cons a ks ih =>
    intro target h
    rw [List.foldl_cons]
    apply ih
    cases Dict.get source a with
    | none => exact h
    | some v => exact Dict.nodup_keys_set target a v h

/-- The own keys of merged slots are distinct. -/
theorem nodup_keys_mergeSlots (orderData tags : Dict Text) :
    (Dict.keys (mergeSlots orderData tags)).Nodup := by
  unfold mergeSlots copyDataProperties
  apply nodup_keys_copy_foldl
  apply nodup_keys_copy_foldl
  exact List.nodup_nil

/-- Lookup in an object with distinct keys finds the entry behind a prefix. -/
theorem Dict.get_append_cons {α : Type} (m₁ m₂ : Dict α) (k : Text) (v : α)
    (h : k ∉ Dict.keys m₁) : Dict.get (m₁ ++ (k, v) :: m₂) k = some v := by
  induction m₁ with
  | nil => simp [Dict.get]
  | cons e m₁ ih =>
    obtain ⟨j, w⟩ := e
    simp only [Dict.keys, List.map_cons, List.mem_cons, not_or] at h
    have hj : j ≠ k := fun hjk => h.1 hjk.symm
    simp only [List.cons_append, Dict.get, hj, if_false]
    exact ih h.2

/-- Copying the properties of an object with distinct keys, one after the other,
rebuilds the object. -/
theorem copy_foldl_rebuild {α : Type} (source : Dict α) (m₂ : Dict α) :
    ∀ m₁ : Dict α, source = m₁ ++ m₂ → (Dict.keys source).Nodup →
      (Dict.keys m₂).foldl
        (fun t k =>
          match Dict.get source k with
          | some v => Dict.set t k v
          | none => t) m₁ = source := by
  induction m₂ with
  | nil =>
    intro m₁ hs _
    show m₁ = source
    rw [hs, List.append_nil]
  | cons e m₂ ih =>
    intro m₁ hs hnodup
    obtain ⟨k, v⟩ := e
    have hk : k ∉ Dict.keys m₁ := by
      rw [hs] at hnodup
      simp only [Dict.keys, List.map_append, List.map_cons] at hnodup ⊢
      have := List.nodup_append.mp hnodup
      intro hmem
      exact this.2.2 hmem (List.mem_cons_self _ _)
    have hget : Dict.get source k = some v := by
      rw [hs]
      exact Dict.get_append_cons m₁ m₂ k v hk
    simp only [Dict.keys, List.map_cons, List.foldl_cons, hget]
    rw [Dict.set_of_not_mem m₁ k v hk]
    exact ih (m₁ ++ [(k, v)]) (by rw [hs, List.append_assoc]; rfl) hnodup

/-- Copying properties that the target already holds changes nothing. -/
theorem copy_foldl_absorb {α : Type} (source target : Dict α) (ks : List Text)
    (h : ∀ k ∈ ks, ∀ v, Dict.get source k = some v → Dict.get target k = some v) :
    ks.foldl
      (fun t k =>
        match Dict.get source k with
        | some v => Dict.set t k v
        | none => t) target = target := by
  induction ks with
  | nil => rfl
  | cons a ks ih =>
    rw [List.foldl_cons]
    have hstep : (match Dict.get source a with
        | some v => Dict.set target a v
        | none => target) = target := by
      cases hs : Dict.get source a with
      | none => rfl
      | some v => exact Dict.set_of_get target a v (h a (by simp) v hs)
    rw [hstep]
    exact ih (fun k hk => h k (by simp [hk]))

/-- C13: the slot merge is idempotent: merging the extracted map `t` into the
stored map `s` twice in succession yields the same slot map (the same keys, in
the same order, with the same values) as merging it once. -/
theorem mergeSlots_idempotent (s t : Dict Text) :
    mergeSlots (mergeSlots s t) t = mergeSlots s t ∧
    ∀ k : Text, Dict.get (mergeSlots (mergeSlots s t) t) k = Dict.get (mergeSlots s t) k := by
  have hrebuild : copyDataProperties [] (mergeSlots s t) = mergeSlots s t := by
    unfold copyDataProperties
    exact copy_foldl_rebuild (mergeSlots s t) (mergeSlots s t) [] rfl
      (nodup_keys_mergeSlots s t)
  have habsorb : copyDataProperties (mergeSlots s t) t = mergeSlots s t := by
    unfold copyDataProperties
    apply copy_foldl_absorb
    intro k _ v hv
    rw [get_mergeSlots, hv]
  have h : mergeSlots (mergeSlots s t) t = mergeSlots s t := by
    show copyDataProperties (copyDataProperties [] (mergeSlots s t)) t = mergeSlots s t
    rw [hrebuild, habsorb]
  exact ⟨h, fun k => by rw [h]⟩

/-! ### `fetchWithRetry`: the first attempt that does not fail -/

/-- An attempt that does not fail returns the parsed body, which is no overloaded
error. -/
theorem tryAttempt_ok (outcome : Except JsError Json) (data : Json)
    (h : tryAttempt outcome = .ok data) : outcome = .ok data ∧ isOverloaded data = .ok false := by
  cases outcome with
  | error e => cases h
  | ok body =>
    cases ho : isOverloaded body with
    | error e =>
      simp only [tryAttempt, bind, Except.bind, ho] at h
      cases h
    | ok b =>
      cases b with
      | true =>
        simp only [tryAttempt, bind, Except.bind, ho] at h
        cases h
      | false =>
        simp only [tryAttempt, bind, Except.bind, ho, pure, Except.pure] at h
        have hb : body = data := by
          simpa using h
        subst hb
        exact ⟨rfl, ho⟩

/-- The loop up to the first attempt that does not fail. -/
theorem fetchWithRetryLoop_first_success (outcomes : Nat → Except JsError Json)
    (n d j : Nat) (data : Json) (hj : j < n) (hok : tryAttempt (outcomes j) = .ok data) :
    ∀ (m i left : Nat) (lastError : Option JsError),
      i + m = j → m < left →
      (∀ t, i ≤ t → t < j → ∃ e, tryAttempt (outcomes t) = .error e) →
      fetchWithRetryLoop outcomes n d left i lastError
        = (.ok data, failedSteps n d m i ++ [RetryEvent.attempt]) := by
  intro m
  induction m with
  | zero =>
    intro i left lastError hi hleft _
    obtain ⟨l, rfl⟩ : ∃ l, left = l + 1 := ⟨left - 1, by omega⟩
    have hij : i = j := by omega
    subst hij
    simp [fetchWithRetryLoop, hj, hok, failedSteps]
  | succ m ih =>
    intro i left lastError hi hleft hfail
    obtain ⟨l, rfl⟩ : ∃ l, left = l + 1 := ⟨left - 1, by omega⟩
    have hin : i < n := by omega
    have hin' : i + 1 < n := by omega
    obtain ⟨e, he⟩ := hfail i (Nat.le_refl i) (by omega)
    have hrec := ih (i + 1) l (some e) (by omega) (by omega)
      (fun t ht htj => hfail t (by omega) htj)
    have hpause : i < n - 1 := by omega
    simp only [fetchWithRetryLoop, hin, if_true, he, hrec, hpause, failedSteps, failedStep,
      hin', List.cons_append, List.nil_append, List.append_assoc]

/-- A payload the loop returns is the payload of an attempt that did not fail. -/
theorem fetchWithRetryLoop_ok (outcomes : Nat → Except JsError Json) (n d : Nat) (out : Json) :
    ∀ (left i : Nat) (lastError : Option JsError),
      (fetchWithRetryLoop outcomes n d left i lastError).1 = .ok out →
      ∃ t, tryAttempt (outcomes t) = .ok out := by
  intro left
  induction left with
  | zero => intro i lastError h; simp [fetchWithRetryLoop] at h
  | succ left ih =>
    intro i lastError h
    simp only [fetchWithRetryLoop] at h
    by_cases hin : i < n
    · simp only [hin, if_true] at h
      cases ht : tryAttempt (outcomes i) with
      | ok data =>
        rw [ht] at h
        simp only [Except.ok.injEq] at h
        exact ⟨i, by rw [ht, h]⟩
      | error e =>
        rw [ht] at h
        exact ih (i + 1) (some e) h
    · simp [hin] at h

/-- The loop only throws when every attempt that was left failed. -/
theorem fetchWithRetryLoop_error (outcomes : Nat → Except JsError Json) (n d : Nat) :
    ∀ (left i : Nat) (lastError e : Option JsError),
      i + left = n →
      (fetchWithRetryLoop outcomes n d left i lastError).1 = .error e →
      ∀ t, i ≤ t → t < n → ∃ e', tryAttempt (outcomes t) = .error e' := by
  intro left
  induction left with
  | zero => intro i lastError e hi _ t ht htn; omega
  | succ left ih =>
    intro i lastError e hi h t ht htn
    have hin : i < n := by omega
    simp only [fetchWithRetryLoop, hin, if_true] at h
    cases hti : tryAttempt (outcomes i) with
    | ok data => rw [hti] at h; cases h
    | error e₀ =>
      rw [hti] at h
      by_cases hte : t = i
      · subst hte; exact ⟨e₀, hti⟩
      · exact ih (i + 1) (some e₀) e (by omega) h t (by omega) htn

/-- A run of failed attempts none of which is the last is followed by its sleeps. -/
theorem sleepsOf_failedSteps_append (n d : Nat) (rest : List RetryEvent) :
    ∀ count i : Nat, i + count < n →
      sleepsOf (failedSteps n d count i ++ rest) =
        (List.range' i count).map (backoffDelay d) ++ sleepsOf rest := by
  intro count
  induction count with
  | zero => intro i _; rfl
  | succ count ih =>
    intro i hi
    have h : i + 1 < n := by omega
    have e : failedSteps n d (count + 1) i ++ rest =
        RetryEvent.attempt :: RetryEvent.sleep (backoffDelay d i)
          :: (failedSteps n d count (i + 1) ++ rest) := by
      rw [failedSteps, failedStep, if_pos h]
      rfl
    rw [e]
    show backoffDelay d i :: sleepsOf (failedSteps n d count (i + 1) ++ rest) = _
    rw [ih (i + 1) (by omega)]
    simp [List.range'_succ]

/-- The attempts of a concatenation. -/
theorem attemptsOf_append (es fs : List RetryEvent) :
    attemptsOf (es ++ fs) = attemptsOf es + attemptsOf fs := by
  simp [attemptsOf, List.count_append]

set_option exponentiation.threshold 2000 in
set_option maxRecDepth 100000 in
/-- C15 (counterexample): with `maxRetries = 3` and `initialDelay = 2 ^ 1023`, a
double, on a network whose third attempt is the first that does not fail, the
payload of the third attempt is returned after two sleeps, and the second sleep
does not have the delay `2 ^ 1023 * 2 ^ 1`: the product is beyond the finite
doubles and the delay is `Infinity`. -/
theorem recovery_after_infinite_delay :
    isDouble (2 ^ 1023) = true ∧
    tryAttempt (recoveringOutcomes 0) = .error JsError.apiOverloaded ∧
    tryAttempt (recoveringOutcomes 1) = .error JsError.apiOverloaded ∧
    (fetchWithRetry recoveringOutcomes 3 (2 ^ 1023)).1
      = .ok (textPayload "<response>Hi</response>".toList) ∧
    sleepsOf (fetchWithRetry recoveringOutcomes 3 (2 ^ 1023)).2
      = [Delay.ms (2 ^ 1023), Delay.infinity] ∧
    sleepsOf (fetchWithRetry recoveringOutcomes 3 (2 ^ 1023)).2
      ≠ (List.range 2).map (fun i => Delay.ms (2 ^ 1023 * 2 ^ i)) :=
  ⟨by decide, rfl, rfl, rfl, by decide, by decide⟩

/-- C15 (amended): for every `maxRetries = n` with `1 ≤ n ≤ 2 ^ 53` (the range
in which the counter `i` of the loop is exact) and every `initialDelay = d` that
is a natural number and a double, when the first attempt that does not fail is
the `k`-th with `k = j + 1 ≤ n`, `fetchWithRetry` returns
exactly the payload of that attempt after exactly `k` attempts and `k - 1`
sleeps with the delays `d * Math.pow(2, i)` (`i = 0 .. k - 2`).  The delay is the
number `d * 2 ^ i` as long as `i < 1024` and `d * 2 ^ i < 2 ^ 1024`, so that all
delays are these numbers when `j ≤ 1024` and `d * 2 ^ (j - 1) < 2 ^ 1024`;
beyond that range it is `Infinity` for `0 < d` and `NaN` for `d = 0`.  Whatever
the outcomes are, a payload with type `error` and error type
`overloaded_error` is never returned, and the function only throws when all `n`
attempts fail. -/
theorem fetchWithRetry_first_success (outcomes : Nat → Except JsError Json) (n d j : Nat)
    (data : Json) (hj : j < n) (_hmax : n ≤ 2 ^ 53) (_hd : isDouble d = true)
    (hfail : ∀ i, i < j → ∃ e, tryAttempt (outcomes i) = .error e)
    (hok : tryAttempt (outcomes j) = .ok data) :
    (fetchWithRetry outcomes n d).1 = .ok data ∧
    outcomes j = .ok data ∧
    (fetchWithRetry outcomes n d).2 = failedSteps n d j 0 ++ [RetryEvent.attempt] ∧
    attemptsOf (fetchWithRetry outcomes n d).2 = j + 1 ∧
    sleepsOf (fetchWithRetry outcomes n d).2 = (List.range j).map (backoffDelay d) ∧
    (j ≤ 1024 → d * 2 ^ (j - 1) < 2 ^ 1024 →
      sleepsOf (fetchWithRetry outcomes n d).2
        = (List.range j).map (fun i => Delay.ms (d * 2 ^ i))) ∧
    (∀ i, i < 1024 → d * 2 ^ i < 2 ^ 1024 → backoffDelay d i = Delay.ms (d * 2 ^ i)) ∧
    (∀ i, 0 < d → 2 ^ 1024 ≤ d * 2 ^ i → backoffDelay d i = Delay.infinity) ∧
    (∀ i, d = 0 → 1024 ≤ i → backoffDelay d i = Delay.nan) ∧
    (∀ (outcomes' : Nat → Except JsError Json) (n' d' : Nat) (out : Json),
      n' ≤ 2 ^ 53 → isDouble d' = true →
      (fetchWithRetry outcomes' n' d').1 = .ok out → isOverloaded out = .ok false) ∧
    (∀ (outcomes' : Nat → Except JsError Json) (n' d' : Nat) (e : Option JsError),
      n' ≤ 2 ^ 53 → isDouble d' = true →
      (fetchWithRetry outcomes' n' d').1 = .error e →
      ∀ i, i < n' → ∃ e', tryAttempt (outcomes' i) = .error e') := by
  have hrun := fetchWithRetryLoop_first_success outcomes n d j data hj hok j 0 n none
    (by omega) hj (fun t _ ht => hfail t ht)
  have hsleeps : sleepsOf (fetchWithRetryLoop outcomes n d n 0 none).2
      = (List.range j).map (backoffDelay d) := by
    rw [hrun, sleepsOf_failedSteps_append n d _ j 0 (by omega), List.range_eq_range']
    simp [sleepsOf]
  unfold fetchWithRetry
  refine ⟨by rw [hrun], (tryAttempt_ok _ _ hok).1, by rw [hrun], ?_, hsleeps, ?_,
    backoffDelay_exact d, backoffDelay_overflow d, ?_, ?_, ?_⟩
  · rw [hrun, attemptsOf_append, attemptsOf_failedSteps]
    rfl
  · intro hsmall hlast
    rw [hsleeps]
    exact map_backoffDelay_exact d j hsmall hlast
  · intro i h0 hi
    subst h0
    exact backoffDelay_zero i hi
  · intro outcomes' n' d' out _ _ h
    obtain ⟨t, ht⟩ := fetchWithRetryLoop_ok outcomes' n' d' out n' 0 none h
    exact (tryAttempt_ok _ _ ht).2
  · intro outcomes' n' d' e _ _ h i hi
    exact fetchWithRetryLoop_error outcomes' n' d' n' 0 none e (by omega) h i (by omega) hi

set_option exponentiation.threshold 2000 in
set_option maxRecDepth 100000 in
/-- C15 at the defaults, on a network whose first two attempts are answered with
an overloaded error and whose third attempt is answered with a reply: the reply
is returned after three attempts and sleeps of 1000 ms and 2000 ms. -/
theorem fetchWithRetry_first_success_witness :
    (2 < 3 ∧ 3 ≤ 2 ^ 53 ∧ isDouble 1000 = true ∧
      tryAttempt (recoveringOutcomes 0) = .error JsError.apiOverloaded ∧
      tryAttempt (recoveringOutcomes 1) = .error JsError.apiOverloaded) ∧
    (fetchWithRetry recoveringOutcomes 3 1000).1
      = .ok (textPayload "<response>Hi</response>".toList) ∧
    (fetchWithRetry recoveringOutcomes 3 1000).2
      = [RetryEvent.attempt, RetryEvent.sleep (Delay.ms 1000), RetryEvent.attempt,
          RetryEvent.sleep (Delay.ms 2000), RetryEvent.attempt] ∧
    attemptsOf (fetchWithRetry recoveringOutcomes 3 1000).2 = 2 + 1 ∧
    sleepsOf (fetchWithRetry recoveringOutcomes 3 1000).2
      = (List.range 2).map (fun i => Delay.ms (1000 * 2 ^ i)) :=
  have h := fetchWithRetry_first_success recoveringOutcomes 3 1000 2
    (textPayload "<response>Hi</response>".toList) (by decide) (by decide) (by decide)
    (fun i hi => by
      match i, hi with
      | 0, _ => exact ⟨_, rfl⟩
      | 1, _ => exact ⟨_, rfl⟩) rfl
  ⟨⟨by decide, by decide, by decide, rfl, rfl⟩, h.1, h.2.2.1, h.2.2.2.1,
    h.2.2.2.2.2.1 (by decide) (by decide)⟩

/-! ### What the slots can hold -/

/-- The first character left by `dropWhile` does not satisfy the test. -/
theorem head?_dropWhile_false (p : Char → Bool) (l : Text) (c : Char)
    (h : (l.dropWhile p).head? = some c) : p c = false := by
  induction l with
  | nil => simp at h
  | cons a l ih =>
    by_cases ha : p a = true
    · rw [List.dropWhile_cons_of_pos ha] at h
      exact ih h
    · rw [List.dropWhile_cons_of_neg ha] at h
      simp only [List.head?_cons, Option.some.injEq] at h
      subst h
      simpa using ha

/-- A non-empty suffix ends like the whole list. -/
theorem getLast?_of_suffix (r x : Text) (h : r <:+ x) (hr : r ≠ []) :
    r.getLast? = x.getLast? := by
  obtain ⟨t, rfl⟩ := h
  rw [List.getLast?_append_of_ne_nil t hr]

/-- The result of `trim` has no leading and no trailing white space. -/
theorem trimmed_trim (s : Text) : Trimmed (trim s) := by
  unfold trim
  constructor
  · intro c hc
    rw [List.head?_reverse] at hc
    have hne : ((s.dropWhile isTrimmed).reverse.dropWhile isTrimmed) ≠ [] := by
      intro h; rw [h] at hc; cases hc
    rw [getLast?_of_suffix _ _ (List.dropWhile_suffix isTrimmed) hne,
      List.getLast?_reverse] at hc
    exact head?_dropWhile_false _ _ _ hc
  · intro c hc
    rw [List.getLast?_reverse] at hc
    exact head?_dropWhile_false _ _ _ hc

/-- Nothing is dropped from a text whose first character does not satisfy the test. -/
theorem dropWhile_eq_self_of_head (p : Char → Bool) (l : Text)
    (h : ∀ c, l.head? = some c → p c = false) : l.dropWhile p = l := by
  cases l with
  | nil => rfl
  | cons a l =>
    have ha : ¬ p a = true := by simp [h a rfl]
    rw [List.dropWhile_cons_of_neg ha]

/-- The method `trim` leaves a text without leading and trailing white space as it is. -/
theorem trim_eq_self (v : Text) (h : Trimmed v) : trim v = v := by
  unfold trim
  rw [dropWhile_eq_self_of_head _ v h.1,
    dropWhile_eq_self_of_head _ v.reverse (by rw [List.head?_reverse]; exact h.2),
    List.reverse_reverse]

/-- An entry of an object after an assignment is an old entry or the new one. -/
theorem Dict.mem_set {α : Type} (o : Dict α) (k : Text) (v : α) (e : Text × α)
    (h : e ∈ Dict.set o k v) : e ∈ o ∨ e = (k, v) := by
  induction o with
  | nil =>
    right
    exact List.mem_singleton.mp h
  | cons x o ih =>
    obtain ⟨j, w⟩ := x
    by_cases hj : j = k
    · have hset : Dict.set ((j, w) :: o) k v = (j, v) :: o := by
        simp only [Dict.set, hj, if_true]
      rw [hset] at h
      rcases List.mem_cons.mp h with h | h
      · right; rw [h, hj]
      · left; exact List.mem_cons_of_mem _ h
    · have hset : Dict.set ((j, w) :: o) k v = (j, w) :: Dict.set o k v := by
        simp only [Dict.set, hj, if_false]
      rw [hset] at h
      rcases List.mem_cons.mp h with h | h
      · left; rw [h]; exact List.mem_cons_self _ _
      · rcases ih h with h' | h'
        · left; exact List.mem_cons_of_mem _ h'
        · right; exact h'

/-- A value found by lookup belongs to an entry. -/
theorem Dict.mem_of_get {α : Type} (o : Dict α) (k : Text) (v : α)
    (h : Dict.get o k = some v) : (k, v) ∈ o := by
  induction o with
  | nil => cases h
  | cons x o ih =>
    obtain ⟨j, w⟩ := x
    by_cases hj : j = k
    · simp only [Dict.get, hj, if_true, Option.some.injEq] at h
      rw [hj, h]
      exact List.mem_cons_self _ _
    · simp only [Dict.get, hj, if_false] at h
      exact List.mem_cons_of_mem _ (ih h)

/-- An entry after copying properties is an entry of the target or of the source. -/
theorem mem_copy_foldl {α : Type} (source : Dict α) (ks : List Text) (e : Text × α) :
    ∀ target : Dict α,
      e ∈ ks.foldl
        (fun t k =>
          match Dict.get source k with
          | some v => Dict.set t k v
          | none => t) target →
      e ∈ target ∨ e ∈ source := by
  induction ks with
  | nil => intro target h; exact Or.inl h
  | cons a ks ih =>
    intro target h
    rw [List.foldl_cons] at h
    rcases ih _ h with h' | h'
    · cases hs : Dict.get source a with
      | none =>
        rw [hs] at h'
        exact Or.inl h'
      | some v =>
        rw [hs] at h'
        rcases Dict.mem_set target a v e h' with h'' | h''
        · exact Or.inl h''
        · right
          rw [h'']
          exact Dict.mem_of_get source a v hs
    · exact Or.inr h'

/-- An entry of merged slots is a stored entry or an extracted one. -/
theorem mem_mergeSlots (orderData tags : Dict Text) (e : Text × Text)
    (h : e ∈ mergeSlots orderData tags) : e ∈ orderData ∨ e ∈ tags := by
  unfold mergeSlots copyDataProperties at h
  rcases mem_copy_foldl _ _ _ _ h with h' | h'
  · rcases mem_copy_foldl _ _ _ _ h' with h'' | h''
    · cases h''
    · exact Or.inl h''
  · exact Or.inr h'

/-- An entry built by the loop of `extractTags` was there before or holds an
allow-listed key and a trimmed value. -/
theorem mem_extractTagsLoop (e : Text × Text) :
    ∀ (fuel : Nat) (message : Text) (tags : Dict Text),
      e ∈ extractTagsLoop fuel message tags →
      e ∈ tags ∨ (e.1 ∈ relevantTags ∧ ∃ c, e.2 = trim c) := by
  intro fuel
  induction fuel with
  | zero => intro message tags h; exact Or.inl h
  | succ fuel ih =>
    intro message tags h
    simp only [extractTagsLoop] at h
    cases hs : tagRegex.search message with
    | none =>
      rw [hs] at h
      exact Or.inl h
    | some m =>
      obtain ⟨skipped, caps, rest⟩ := m
      rw [hs] at h
      simp only [] at h
      by_cases hrel : (Caps.get caps 1).getD [] ∈ relevantTags
      · rw [if_pos hrel] at h
        rcases ih _ _ h with h' | h'
        · rcases Dict.mem_set _ _ _ _ h' with h'' | h''
          · exact Or.inl h''
          · right
            rw [h'']
            exact ⟨hrel, _, rfl⟩
        · exact Or.inr h'
      · rw [if_neg hrel] at h
        exact ih _ _ h

/-- Every entry of an extracted map holds an allow-listed key and a trimmed value. -/
theorem mem_extractTags (text : Text) (e : Text × Text) (h : e ∈ extractTags text) :
    e.1 ∈ relevantTags ∧ Trimmed e.2 := by
  rcases mem_extractTagsLoop e _ _ _ h with h' | ⟨h1, c, hc⟩
  · cases h'
  · exact ⟨h1, by rw [hc]; exact trimmed_trim c⟩

/-- The slots of the user after any call are the slots before it, or these merged
with an extracted map. -/
theorem orderData_after_call (cfg : Config) (w : World) (userStates : Dict Session)
    (userId userName userMessage : Text) :
    ∃ session,
      (processMessage cfg w userStates userId userName userMessage).userStates
        = Dict.set userStates userId session ∧
      (session.orderData = orderDataOf userStates userId ∨
       ∃ content, session.orderData
        = mergeSlots (orderDataOf userStates userId) (extractTags content)) := by
  cases h : turnContent w with
  | none =>
    refine ⟨_, (processMessage_of_turnContent_none cfg w userStates userId userName
      userMessage h).1, Or.inl ?_⟩
    exact openSession_orderData _ _ _ _
  | some content =>
    refine ⟨_, (processMessage_of_turnContent_some cfg w userStates userId userName
      userMessage content h).1, Or.inr ⟨content, ?_⟩⟩
    simp [closeSession, openSession_orderData]

/-- A call of `processMessage` keeps the store clean. -/
theorem cleanStore_processMessage (cfg : Config) (w : World) (userStates : Dict Session)
    (userId userName userMessage : Text) (h : CleanStore userStates) :
    CleanStore (processMessage cfg w userStates userId userName userMessage).userStates := by
  obtain ⟨session, hset, hdata⟩ := orderData_after_call cfg w userStates userId userName
    userMessage
  have hold : ∀ slot ∈ orderDataOf userStates userId,
      slot.1 ∈ relevantTags ∧ Trimmed slot.2 := by
    intro slot hslot
    unfold orderDataOf at hslot
    cases hg : Dict.get userStates userId with
    | none => rw [hg] at hslot; cases hslot
    | some s =>
      rw [hg] at hslot
      exact h (userId, s) (Dict.mem_of_get _ _ _ hg) slot hslot
  rw [hset]
  intro entry hentry slot hslot
  rcases Dict.mem_set _ _ _ _ hentry with h' | h'
  · exact h entry h' slot hslot
  · rw [h'] at hslot
    rcases hdata with hd | ⟨content, hd⟩
    · rw [hd] at hslot
      exact hold slot hslot
    · rw [hd] at hslot
      rcases mem_mergeSlots _ _ _ hslot with h'' | h''
      · exact hold slot h''
      · exact mem_extractTags content slot h''

/-- Every store that calls of `processMessage` leave behind a clean store is clean. -/
theorem cleanStore_runStore (cfg : Config) (arrivals : List (Text × Call)) :
    ∀ userStates : Dict Session, CleanStore userStates →
      CleanStore (runStore cfg userStates arrivals) := by
  induction arrivals with
  | nil => intro userStates h; exact h
  | cons a arrivals ih =>
    intro userStates h
    obtain ⟨userId, c⟩ := a
    exact ih _ (cleanStore_processMessage cfg c.world userStates userId c.userName
      c.userMessage h)

/-- The empty store is clean. -/
theorem cleanStore_nil : CleanStore [] := by
  intro entry hentry
  cases hentry

/-- The own keys of an object are the keys of its entries. -/
theorem Dict.exists_mem_of_mem_keys {α : Type} (o : Dict α) (k : Text)
    (h : k ∈ Dict.keys o) : ∃ v, (k, v) ∈ o := by
  induction o with
  | nil => cases h
  | cons x o ih =>
    obtain ⟨j, w⟩ := x
    rcases List.mem_cons.mp h with h' | h'
    · exact ⟨w, by rw [h']; exact List.mem_cons_self _ _⟩
    · obtain ⟨v, hv⟩ := ih h'
      exact ⟨v, List.mem_cons_of_mem _ hv⟩

/-- C11: slots only ever hold allow-listed keys: every key of `extractTags(text)`
is one of email, phone, address, name, order, and after any sequence of
`processMessage` calls from the empty store, whatever the model replies, every
key of the `orderData` of every session is one of these five. -/
theorem orderData_keys_allowed :
    (∀ (text k : Text), k ∈ Dict.keys (extractTags text) → k ∈ relevantTags) ∧
    (∀ (cfg : Config) (arrivals : List (Text × Call)) (userId : Text) (session : Session),
      (userId, session) ∈ runStore cfg [] arrivals →
      ∀ k ∈ Dict.keys session.orderData,
        k ∈ ["email".toList, "phone".toList, "address".toList, "name".toList,
          "order".toList]) := by
  constructor
  · intro text k hk
    obtain ⟨v, hv⟩ := Dict.exists_mem_of_mem_keys _ k hk
    exact (mem_extractTags text (k, v) hv).1
  · intro cfg arrivals userId session hmem k hk
    obtain ⟨v, hv⟩ := Dict.exists_mem_of_mem_keys _ k hk
    exact (cleanStore_runStore cfg arrivals [] cleanStore_nil (userId, session) hmem
      (k, v) hv).1

set_option maxRecDepth 100000 in
/-- C11 at the store two users leave behind: the session of the first user is in
it, and all its slot keys are allow-listed. -/
theorem orderData_keys_allowed_witness :
    "name".toList ∈ Dict.keys (extractTags "<name>Ann</name><foo>x</foo>".toList) ∧
    "name".toList ∈ relevantTags ∧
    ("1".toList, blankNameSession) ∈ runStore sampleConfig [] twoUserArrivals ∧
    ∀ k ∈ Dict.keys blankNameSession.orderData,
      k ∈ ["email".toList, "phone".toList, "address".toList, "name".toList, "order".toList] :=
  ⟨by decide,
    orderData_keys_allowed.1 "<name>Ann</name><foo>x</foo>".toList "name".toList (by decide),
    by decide,
    orderData_keys_allowed.2 sampleConfig twoUserArrivals "1".toList blankNameSession
      (by decide)⟩

/-- C18: in every session of a store reached from the empty store by
`processMessage` calls, whatever the model replies, every value stored in
`orderData` has no leading and no trailing white space, and therefore
`validateTags` holds of that `orderData` if and only if all five keys are present
with a value whose trimmed text is not empty. -/
theorem orderData_values_trimmed (cfg : Config) (arrivals : List (Text × Call))
    (userId : Text) (session : Session)
    (hmem : (userId, session) ∈ runStore cfg [] arrivals) :
    (∀ slot ∈ session.orderData, Trimmed slot.2) ∧
    (validateTags session.orderData = true ↔
      ∀ k ∈ ["name".toList, "email".toList, "phone".toList, "address".toList, "order".toList],
        ∃ v, Dict.get session.orderData k = some v ∧ trim v ≠ []) := by
  have hclean := cleanStore_runStore cfg arrivals [] cleanStore_nil (userId, session) hmem
  have htrim : ∀ k v, Dict.get session.orderData k = some v → trim v = v := fun k v hv =>
    trim_eq_self v (hclean (k, v) (Dict.mem_of_get _ _ _ hv)).2
  refine ⟨fun slot hslot => (hclean slot hslot).2, ?_⟩
  rw [validateTags_eq_true_iff]
  constructor
  · intro h k hk
    have hk' : k ∈ requiredTags := by
      simp only [requiredTags, List.mem_cons, List.mem_singleton, List.not_mem_nil,
        or_false] at hk ⊢
      tauto
    obtain ⟨v, hv, hne⟩ := (truthyText_iff _).mp (h k hk')
    exact ⟨v, hv, by rw [htrim k v hv]; exact hne⟩
  · intro h k hk
    have hk' : k ∈ ["name".toList, "email".toList, "phone".toList, "address".toList,
        "order".toList] := by
      simp only [requiredTags, List.mem_cons, List.mem_singleton, List.not_mem_nil,
        or_false] at hk ⊢
      tauto
    obtain ⟨v, hv, hne⟩ := h k hk'
    exact (truthyText_iff _).mpr ⟨v, hv, by rw [← htrim k v hv]; exact hne⟩

set_option maxRecDepth 100000 in
/-- C18 at a reply that fills four slots and sends white space only for `name`:
the stored name is the empty text, and the order is not complete. -/
theorem orderData_values_trimmed_witness :
    ("1".toList, blankNameSession) ∈ runStore sampleConfig [] twoUserArrivals ∧
    Dict.get blankNameSession.orderData "name".toList = some [] ∧
    validateTags blankNameSession.orderData = false ∧
    ((∀ slot ∈ blankNameSession.orderData, Trimmed slot.2) ∧
     (validateTags blankNameSession.orderData = true ↔
      ∀ k ∈ ["name".toList, "email".toList, "phone".toList, "address".toList, "order".toList],
        ∃ v, Dict.get blankNameSession.orderData k = some v ∧ trim v ≠ [])) :=
  ⟨by decide, by decide, by decide,
    orderData_values_trimmed sampleConfig twoUserArrivals "1".toList blankNameSession
      (by decide)⟩

/-! ### The stored context and the messages sent to the model -/

/-- A dialogue stays one when a `user` turn is appended. -/
theorem Dialogue.append_user {ts : List Turn} (h : Dialogue ts) (message : Text) :
    Dialogue (ts ++ [{ role := roleUser, content := message }]) := by
  obtain ⟨h1, h2, h3⟩ := h
  refine ⟨?_, ?_, ?_⟩
  · intro t ht
    rcases List.mem_append.mp ht with ht | ht
    · exact h1 t ht
    · left
      rw [List.mem_singleton.mp ht]
  · intro t ht
    cases ts with
    | nil =>
      simp only [List.nil_append, List.head?_cons, Option.some.injEq] at ht
      rw [← ht]
    | cons a ts => exact h2 t (by simpa using ht)
  · unfold NoRepeatedReply at h3 ⊢
    refine List.Chain'.append h3 (List.chain'_singleton _) ?_
    intro x _ y hy
    simp only [List.head?_cons, Option.mem_def, Option.some.injEq] at hy
    rw [← hy]
    intro hh
    exact hh.2 rfl

/-- A dialogue that ends with a `user` turn stays one when an `assistant` turn is
appended. -/
theorem Dialogue.append_reply {ts : List Turn} {message : Text}
    (h : Dialogue (ts ++ [{ role := roleUser, content := message }])) (reply : Text) :
    Dialogue (ts ++ [{ role := roleUser, content := message }]
      ++ [{ role := roleAssistant, content := reply }]) := by
  obtain ⟨h1, h2, h3⟩ := h
  refine ⟨?_, ?_, ?_⟩
  · intro t ht
    rcases List.mem_append.mp ht with ht | ht
    · exact h1 t ht
    · right
      rw [List.mem_singleton.mp ht]
  · intro t ht
    apply h2 t
    cases ts with
    | nil => simpa using ht
    | cons a ts => simpa using ht
  · unfold NoRepeatedReply at h3 ⊢
    refine List.Chain'.append h3 (List.chain'_singleton _) ?_
    intro x hx y hy
    simp only [List.getLast?_append, List.getLast?_singleton, Option.or, Option.mem_def,
      Option.some.injEq] at hx
    simp only [List.head?_cons, Option.mem_def, Option.some.injEq] at hy
    rw [← hx, ← hy]
    intro hh
    have hne : roleUser ≠ roleAssistant := by decide
    exact hne hh.1

/-- In a dialogue no two adjacent turns are both `assistant` turns. -/
theorem Dialogue.noAdjacentReplies {ts : List Turn} (h : Dialogue ts) :
    NoAdjacentReplies ts := by
  unfold NoAdjacentReplies
  refine List.Chain'.imp ?_ h.2.2
  intro a b hab hh
  apply hab
  refine ⟨hh.1.trans hh.2.symm, ?_⟩
  rw [hh.2]
  decide

/-- The output of `ensureAlternatingRoles` starts with the first input turn. -/
theorem head?_ensureAlternatingRoles (ctx : List Turn) :
    (ensureAlternatingRoles ctx).head? = ctx.head? := by
  rw [ensureAlternatingRoles_eq]
  cases ctx with
  | nil => rfl
  | cons m rest => simp [appendedFrom]

/-- The output of the loop on an input that ends with a `user` turn ends with
this turn. -/
theorem getLast?_appendedFrom (u : Turn) (hu : u.role = roleUser) (ctx : List Turn) :
    ∀ lastRole : Option Text,
      (appendedFrom lastRole (ctx ++ [u])).getLast? = some u := by
  have hcons : ∀ (a : Turn) (X : List Turn), X ≠ [] → (a :: X).getLast? = X.getLast? := by
    intro a X hX
    have e : a :: X = [a] ++ X := rfl
    rw [e, List.getLast?_append_of_ne_nil _ hX]
  induction ctx with
  | nil =>
    intro lastRole
    simp only [List.nil_append, appendedFrom]
    split_ifs <;> simp
  | cons m rest ih =>
    intro lastRole
    have hne : ∀ l, appendedFrom l (rest ++ [u]) ≠ [] := by
      intro l h
      have := ih l
      rw [h] at this
      cases this
    by_cases h1 : some m.role = lastRole
    · subst h1
      by_cases h2 : m.role = roleUser
      · have ha : appendedFrom (some m.role) (m :: rest ++ [u])
            = fillerTurn :: m :: appendedFrom (some roleUser) (rest ++ [u]) := by
          simp [appendedFrom, h2]
        rw [ha, hcons _ _ (by simp), hcons _ _ (hne _)]
        exact ih _
      · have ha : appendedFrom (some m.role) (m :: rest ++ [u])
            = appendedFrom (some m.role) (rest ++ [u]) := by
          simp [appendedFrom, h2]
        rw [ha]
        exact ih _
    · have ha : appendedFrom lastRole (m :: rest ++ [u])
          = m :: appendedFrom (some m.role) (rest ++ [u]) := by
        simp [appendedFrom, h1]
      rw [ha, hcons _ _ (hne _)]
      exact ih _

/-- Every turn of the output is an input turn or the filler. -/
theorem mem_appendedFrom (ctx : List Turn) :
    ∀ (lastRole : Option Text) (t : Turn),
      t ∈ appendedFrom lastRole ctx → t ∈ ctx ∨ t = fillerTurn := by
  induction ctx with
  | nil => intro lastRole t h; cases h
  | cons m rest ih =>
    intro lastRole t h
    simp only [appendedFrom] at h
    split_ifs at h
    · rcases List.mem_cons.mp h with h | h
      · left; rw [h]; exact List.mem_cons_self _ _
      · rcases ih _ t h with h' | h'
        · left; exact List.mem_cons_of_mem _ h'
        · right; exact h'
    · rcases List.mem_cons.mp h with h | h
      · right; exact h
      · rcases List.mem_cons.mp h with h | h
        · left; rw [h]; exact List.mem_cons_self _ _
        · rcases ih _ t h with h' | h'
          · left; exact List.mem_cons_of_mem _ h'
          · right; exact h'
    · rcases ih _ t h with h' | h'
      · left; exact List.mem_cons_of_mem _ h'
      · right; exact h'

/-- The context of the opened session: the stored context, if there is one, with
the `user` turn of the call appended. -/
theorem openSession_context (userStates : Dict Session) (userId userName userMessage : Text) :
    (openSession userStates userId userName userMessage).context =
      (match Dict.get userStates userId with
        | some session => session.context
        | none => []) ++ [{ role := roleUser, content := userMessage }] := by
  unfold openSession
  cases Dict.get userStates userId <;> rfl

/-- The context of the opened session of a user whose stored context is a
dialogue is a dialogue. -/
theorem dialogue_openSession (userStates : Dict Session) (userId userName userMessage : Text)
    (h : ContextOk userStates userId) :
    Dialogue (openSession userStates userId userName userMessage).context := by
  rw [openSession_context]
  cases hg : Dict.get userStates userId with
  | none =>
    have hnil : Dialogue [] :=
      ⟨fun t ht => (by cases ht), fun t ht => (by cases ht), List.chain'_nil⟩
    exact hnil.append_user userMessage
  | some session => exact (h session hg).append_user userMessage

/-- With three attempts allowed, `fetchWithRetry` makes at least one attempt. -/
theorem attempt_mem_fetchWithRetry (outcomes : Nat → Except JsError Json) (d : Nat) :
    RetryEvent.attempt ∈ (fetchWithRetry outcomes 3 d).2 := by
  unfold fetchWithRetry
  simp only [fetchWithRetryLoop]
  cases tryAttempt (outcomes 0) <;> simp

/-- Every request among the events of the model call carries the same messages. -/
theorem mem_map_requestEvent (system : Text) (messages : List Turn) (es : List RetryEvent)
    (system' : Text) (messages' : List Turn)
    (h : Event.fetch system' messages' ∈ es.map (requestEvent system messages)) :
    messages' = messages := by
  induction es with
  | nil => cases h
  | cons e es ih =>
    rcases List.mem_cons.mp h with h' | h'
    · cases e with
      | attempt =>
        simp only [requestEvent, Event.fetch.injEq] at h'
        exact h'.2
      | sleep ms => cases h'
    · exact ih h'

/-- The events of a call: the events of the model call, followed by Telegram sends. -/
theorem events_processMessage (cfg : Config) (w : World) (userStates : Dict Session)
    (userId userName userMessage : Text) :
    ∃ sends : List Event,
      (processMessage cfg w userStates userId userName userMessage).events
        = fetchEventsOf cfg w userStates userId userName userMessage ++ sends ∧
      ∀ e ∈ sends, (∃ text, e = Event.orderSend text) ∨ (∃ text, e = Event.logSend text) := by
  cases h : turnContent w with
  | none =>
    refine ⟨[], ?_, fun e he => by cases he⟩
    rw [(processMessage_of_turnContent_none cfg w userStates userId userName userMessage h).2.1,
      List.append_nil]
  | some content =>
    refine ⟨(if validateTags (mergeSlots (orderDataOf userStates userId) (extractTags content))
        then [Event.orderSend
          (orderMessage (mergeSlots (orderDataOf userStates userId) (extractTags content)))]
        else []) ++
        [Event.logSend (logMessage userName userMessage (cleanRegex.removeAll content))],
      ?_, ?_⟩
    · rw [(processMessage_of_turnContent_some cfg w userStates userId userName userMessage
        content h).2.1, List.append_assoc]
    · intro e he
      rcases List.mem_append.mp he with he | he
      · split_ifs at he
        · left; exact ⟨_, List.mem_singleton.mp he⟩
        · cases he
      · right; exact ⟨_, List.mem_singleton.mp he⟩

/-- The requests of a call carry the normalized context of the opened session,
and there is at least one request. -/
theorem requests_processMessage (cfg : Config) (w : World) (userStates : Dict Session)
    (userId userName userMessage : Text) :
    (∃ system, Event.fetch system
        (ensureAlternatingRoles (openSession userStates userId userName userMessage).context)
        ∈ (processMessage cfg w userStates userId userName userMessage).events) ∧
    (∀ system messages,
      Event.fetch system messages
        ∈ (processMessage cfg w userStates userId userName userMessage).events →
      messages
        = ensureAlternatingRoles (openSession userStates userId userName userMessage).context) := by
  obtain ⟨sends, hev, hsends⟩ := events_processMessage cfg w userStates userId userName
    userMessage
  rw [hev]
  constructor
  · refine ⟨fillPrompt cfg userMessage userName, List.mem_append_left _ ?_⟩
    unfold fetchEventsOf
    exact List.mem_map.mpr ⟨RetryEvent.attempt, attempt_mem_fetchWithRetry _ _, rfl⟩
  · intro system messages hmem
    rcases List.mem_append.mp hmem with h | h
    · exact mem_map_requestEvent _ _ _ _ _ h
    · rcases hsends _ h with ⟨t, ht⟩ | ⟨t, ht⟩ <;> cases ht

/-- The session a call leaves: its context is the context of the opened session,
with the `assistant` turn appended when the turn got through the parse step. -/
theorem session_after_call (cfg : Config) (w : World) (userStates : Dict Session)
    (userId userName userMessage : Text) :
    ∃ session,
      Dict.get (processMessage cfg w userStates userId userName userMessage).userStates userId
        = some session ∧
      (session.context = (openSession userStates userId userName userMessage).context ∨
       ∃ reply, session.context
        = (openSession userStates userId userName userMessage).context
          ++ [{ role := roleAssistant, content := reply }]) := by
  cases h : turnContent w with
  | none =>
    refine ⟨openSession userStates userId userName userMessage, ?_, Or.inl rfl⟩
    rw [(processMessage_of_turnContent_none cfg w userStates userId userName userMessage h).1,
      Dict.get_set, if_pos rfl]
  | some content =>
    refine ⟨closeSession (openSession userStates userId userName userMessage) content, ?_,
      Or.inr ⟨content, rfl⟩⟩
    rw [(processMessage_of_turnContent_some cfg w userStates userId userName userMessage
      content h).1, Dict.get_set, if_pos rfl]

/-- A call keeps the stored context of the user a dialogue. -/
theorem contextOk_processMessage (cfg : Config) (w : World) (userStates : Dict Session)
    (userId userName userMessage : Text) (h : ContextOk userStates userId) :
    ContextOk (processMessage cfg w userStates userId userName userMessage).userStates
      userId := by
  obtain ⟨session, hget, hctx⟩ := session_after_call cfg w userStates userId userName
    userMessage
  have hd := dialogue_openSession userStates userId userName userMessage h
  intro s hs
  rw [hget] at hs
  cases hs
  rcases hctx with hc | ⟨reply, hc⟩
  · rw [hc]; exact hd
  · rw [hc]
    rw [openSession_context] at hd ⊢
    exact hd.append_reply reply

/-- The outcome with index `j` of a sequence of calls for a user whose stored
context is a dialogue is the outcome of `processMessage` on a store in which the
stored context of the user is a dialogue. -/
theorem runCalls_contextOk (cfg : Config) (userId : Text) (calls : List Call) :
    ∀ (userStates : Dict Session) (j : Nat) (c : Call) (o : Outcome),
      ContextOk userStates userId →
      calls[j]? = some c → (runCalls cfg userId userStates calls)[j]? = some o →
      ∃ before, ContextOk before userId ∧
        o = processMessage cfg c.world before userId c.userName c.userMessage := by
  induction calls with
  | nil => intro userStates j c o _ hc; simp at hc
  | cons d ds ih =>
    intro userStates j c o hok hc ho
    cases j with
    | zero =>
      simp only [List.getElem?_cons_zero, Option.some.injEq] at hc
      subst hc
      simp only [runCalls, List.getElem?_cons_zero, Option.some.injEq] at ho
      exact ⟨userStates, hok, ho.symm⟩
    | succ j =>
      simp only [List.getElem?_cons_succ] at hc
      simp only [runCalls, List.getElem?_cons_succ] at ho
      exact ih _ j c o (contextOk_processMessage cfg d.world userStates userId d.userName
        d.userMessage hok) hc ho

/-- The messages sent for a stored dialogue that ends with the `user` turn of the
current message. -/
theorem ensureAlternatingRoles_dialogue (stored : List Turn) (u : Turn)
    (hu : u.role = roleUser) (hd : Dialogue stored) (hlast : stored.getLast? = some u) :
    StartsWithUser (ensureAlternatingRoles stored) ∧
    (ensureAlternatingRoles stored).getLast? = some u ∧
    Alternating (ensureAlternatingRoles stored) ∧
    TwoRoles (ensureAlternatingRoles stored) ∧
    List.Sublist stored (ensureAlternatingRoles stored) := by
  refine ⟨?_, ?_, ?_, ?_, ?_⟩
  · intro t ht
    rw [head?_ensureAlternatingRoles] at ht
    exact hd.2.1 t ht
  · obtain ⟨init, hinit⟩ : ∃ init, stored = init ++ [u] := by
      have hne : stored ≠ [] := by
        intro h; rw [h] at hlast; cases hlast
      refine ⟨stored.dropLast, ?_⟩
      have h1 := List.dropLast_append_getLast? u (by simpa using hlast)
      exact h1.symm
    rw [hinit, ensureAlternatingRoles_eq]
    exact getLast?_appendedFrom u hu init none
  · exact ensureAlternatingRolesLoop_alternating stored none [] List.chain'_nil rfl
  · intro t ht
    rw [ensureAlternatingRoles_eq] at ht
    rcases mem_appendedFrom stored none t ht with h | h
    · exact hd.1 t h
    · right; rw [h]; rfl
  · have hk : keptFrom none stored = stored :=
      keptFrom_eq_self stored none (fun t _ hh => by simp at hh) hd.2.2
    have := (insertedFillers_appendedFrom stored none).sublist
    rw [hk, ← ensureAlternatingRoles_eq] at this
    exact this

/-- A non-empty list that starts with `user` turns only has a first turn, and it
is a `user` turn. -/
theorem head_of_startsWithUser (ts : List Turn) (h : StartsWithUser ts) (hne : ts ≠ []) :
    ∃ t, ts.head? = some t ∧ t.role = roleUser := by
  cases ts with
  | nil => exact absurd rfl hne
  | cons a ts => exact ⟨a, rfl, h a rfl⟩

/-- C19: for every sequence of `processMessage` calls for one user without a
session at the start, whatever the model does, the context stored after each
call starts with a `user` turn and never has two adjacent `assistant` turns;
the message list sent to the model in that call is the normalized stored
context: it starts with a `user` turn, ends with the `user` turn that carries
the current message, alternates between `user` and `assistant`, and contains
every stored turn in order. -/
theorem stored_context_and_messages (cfg : Config) (userId : Text)
    (userStates : Dict Session) (calls : List Call) (j : Nat) (c : Call) (o : Outcome)
    (hfresh : Dict.get userStates userId = none)
    (hc : calls[j]? = some c) (ho : (runCalls cfg userId userStates calls)[j]? = some o) :
    ∃ (session : Session) (stored : List Turn),
      Dict.get o.userStates userId = some session ∧
      (session.context = stored ∨
        ∃ reply, session.context = stored ++ [{ role := roleAssistant, content := reply }]) ∧
      (∃ t, session.context.head? = some t ∧ t.role = roleUser) ∧
      NoAdjacentReplies session.context ∧
      (∃ system, Event.fetch system (ensureAlternatingRoles stored) ∈ o.events) ∧
      (∀ system messages, Event.fetch system messages ∈ o.events →
        messages = ensureAlternatingRoles stored) ∧
      (∃ t, (ensureAlternatingRoles stored).head? = some t ∧ t.role = roleUser) ∧
      (ensureAlternatingRoles stored).getLast?
        = some { role := roleUser, content := c.userMessage } ∧
      Alternating (ensureAlternatingRoles stored) ∧
      TwoRoles (ensureAlternatingRoles stored) ∧
      List.Sublist stored (ensureAlternatingRoles stored) := by
  have hstart : ContextOk userStates userId := by
    intro session hs
    rw [hfresh] at hs
    cases hs
  obtain ⟨before, hbefore, rfl⟩ := runCalls_contextOk cfg userId calls userStates j c o hstart
    hc ho
  obtain ⟨session, hget, hctx⟩ := session_after_call cfg c.world before userId c.userName
    c.userMessage
  have hd := dialogue_openSession before userId c.userName c.userMessage hbefore
  have hafter := contextOk_processMessage cfg c.world before userId c.userName c.userMessage
    hbefore session hget
  have hlast : (openSession before userId c.userName c.userMessage).context.getLast?
      = some { role := roleUser, content := c.userMessage } := by
    rw [openSession_context]
    simp
  obtain ⟨m1, m2, m3, m4, m5⟩ := ensureAlternatingRoles_dialogue _ _ rfl hd hlast
  obtain ⟨r1, r2⟩ := requests_processMessage cfg c.world before userId c.userName
    c.userMessage
  have hne : session.context ≠ [] := by
    rcases hctx with h | ⟨reply, h⟩
    · rw [h, openSession_context]; simp
    · rw [h]; simp
  have hne' : ensureAlternatingRoles
      (openSession before userId c.userName c.userMessage).context ≠ [] := by
    intro h
    rw [h] at m2
    cases m2
  exact ⟨session, _, hget, hctx, head_of_startsWithUser _ hafter.2.1 hne,
    hafter.noAdjacentReplies, r1, r2, head_of_startsWithUser _ m1 hne', m2, m3, m4, m5⟩

set_option maxRecDepth 100000 in
/-- C19 at the third call of a conversation whose first call got a reply without
a response block and whose second call met an outage. -/
theorem stored_context_and_messages_witness :
    Dict.get ([] : Dict Session) "1".toList = none ∧
    threeCalls[2]? = some (replyCall replyPlain "one latte".toList) ∧
    ∃ (session : Session) (stored : List Turn),
      Dict.get (processMessage sampleConfig (replyCall replyPlain "one latte".toList).world
          (processMessage sampleConfig downWorld
            (processMessage sampleConfig
              (replyCall "We have espresso.".toList "hi".toList).world []
              "1".toList "Bob".toList "hi".toList).userStates
            "1".toList "Bob".toList "hello?".toList).userStates
          "1".toList "Bob".toList "one latte".toList).userStates "1".toList = some session ∧
      (session.context = stored ∨
        ∃ reply, session.context = stored ++ [{ role := roleAssistant, content := reply }]) ∧
      (∃ t, session.context.head? = some t ∧ t.role = roleUser) ∧
      NoAdjacentReplies session.context ∧
      (∃ system, Event.fetch system (ensureAlternatingRoles stored) ∈
        (processMessage sampleConfig (replyCall replyPlain "one latte".toList).world
          (processMessage sampleConfig downWorld
            (processMessage sampleConfig
              (replyCall "We have espresso.".toList "hi".toList).world []
              "1".toList "Bob".toList "hi".toList).userStates
            "1".toList "Bob".toList "hello?".toList).userStates
          "1".toList "Bob".toList "one latte".toList).events) ∧
      (∀ system messages, Event.fetch system messages ∈
        (processMessage sampleConfig (replyCall replyPlain "one latte".toList).world
          (processMessage sampleConfig downWorld
            (processMessage sampleConfig
              (replyCall "We have espresso.".toList "hi".toList).world []
              "1".toList "Bob".toList "hi".toList).userStates
            "1".toList "Bob".toList "hello?".toList).userStates
          "1".toList "Bob".toList "one latte".toList).events →
        messages = ensureAlternatingRoles stored) ∧
      (∃ t, (ensureAlternatingRoles stored).head? = some t ∧ t.role = roleUser) ∧
      (ensureAlternatingRoles stored).getLast?
        = some { role := roleUser,
                 content := (replyCall replyPlain "one latte".toList).userMessage } ∧
      Alternating (ensureAlternatingRoles stored) ∧
      TwoRoles (ensureAlternatingRoles stored) ∧
      List.Sublist stored (ensureAlternatingRoles stored) :=
  ⟨rfl, rfl,
    stored_context_and_messages sampleConfig "1".toList [] threeCalls 2
      (replyCall replyPlain "one latte".toList) _ rfl rfl rfl⟩

/-! ### The compiled prompt -/

/-- C14 (the code departs from the claim): the inserted values are interpreted
and rewritten.  In the user message `pay $& now` the replacement pattern `$&`
is expanded to the placeholder it replaces, and in the user message
`I am {{USER_NAME}}` the text of the third placeholder is replaced by the
display name while the placeholder of the template stays; a message without a
dollar sign and without placeholder text is inserted verbatim. -/
theorem prompt_values_are_interpreted :
    fillPrompt menuConfig "pay $& now".toList "Bob".toList
      = "Menu: \x7b\x7d\nMessage: pay \x7b\x7bUSER_INPUT\x7d\x7d now\nFrom: Bob".toList ∧
    fillPrompt menuConfig "pay $& now".toList "Bob".toList
      ≠ "Menu: \x7b\x7d\nMessage: pay $& now\nFrom: Bob".toList ∧
    fillPrompt menuConfig "I am \x7b\x7bUSER_NAME\x7d\x7d".toList "Bob".toList
      = "Menu: \x7b\x7d\nMessage: I am Bob\nFrom: \x7b\x7bUSER_NAME\x7d\x7d".toList ∧
    fillPrompt menuConfig "I am \x7b\x7bUSER_NAME\x7d\x7d".toList "Bob".toList
      ≠ "Menu: \x7b\x7d\nMessage: I am \x7b\x7bUSER_NAME\x7d\x7d\nFrom: Bob".toList ∧
    fillPrompt menuConfig "one latte".toList "Bob".toList
      = "Menu: \x7b\x7d\nMessage: one latte\nFrom: Bob".toList := by
  refine ⟨by decide, by decide, by decide, by decide, by decide⟩

/-! ### The cleaned reply -/

/-- C17 (the code departs from the claim): a slot tag whose content spans two
lines is extracted by `extractTags` but is not removed from the reply, because
the `.` of the expression of line 170 does not match a line terminator; and a
`<` in the text before a tag is taken for the start of a tag, so that text
outside the tags is removed with it.  A tag on one line in text without `<` is
removed and the text around it is kept. -/
theorem multiline_tag_is_not_stripped :
    extractTags "Hello <name>Ann\nLee</name>!".toList
      = [("name".toList, "Ann\nLee".toList)] ∧
    cleanRegex.removeAll "Hello <name>Ann\nLee</name>!".toList
      = "Hello <name>Ann\nLee</name>!".toList ∧
    (processMessage sampleConfig
      (replyWorld "<response>Hello <name>Ann\nLee</name>!</response>".toList (.ok ()) (.ok ()))
      [] "1".toList "Bob".toList "hi".toList).reply
      = "Hello <name>Ann\nLee</name>!".toList ∧
    cleanRegex.removeAll "2 < 3 <name>Ann</name> ok".toList = "2  ok".toList ∧
    cleanRegex.removeAll "Hi <name>Ann</name>, your <order>latte</order> is noted.".toList
      = "Hi , your  is noted.".toList := by
  refine ⟨by decide, by decide, by decide, by decide, by decide⟩

/-! ### What a match of the tag expression looks like -/

/-- A greedy loop that succeeds has consumed characters of the class only. -/
theorem greedyStar_some_split {α : Type} (p : Char → Bool) (s : Text) (k : Text → Option α)
    (x : α) (h : greedyStar p s k = some x) :
    ∃ w t, s = w ++ t ∧ (∀ ch ∈ w, p ch = true) ∧ k t = some x := by
  induction s with
  | nil => exact ⟨[], [], rfl, fun _ hch => (by cases hch), by simpa [greedyStar] using h⟩
  | cons c s ih =>
    simp only [greedyStar] at h
    by_cases hp : p c = true
    · simp only [hp, if_true] at h
      cases hg : greedyStar p s k with
      | some y =>
        rw [hg] at h
        simp only [Option.some.injEq] at h
        subst h
        obtain ⟨w, t, hs, hw, hk⟩ := ih hg
        refine ⟨c :: w, t, by rw [hs]; rfl, ?_, hk⟩
        intro ch hch
        rcases List.mem_cons.mp hch with h' | h'
        · rw [h']; exact hp
        · exact hw ch h'
      | none =>
        rw [hg] at h
        exact ⟨[], c :: s, rfl, fun _ hch => (by cases hch), h⟩
    · simp only [hp] at h
      exact ⟨[], c :: s, rfl, fun _ hch => (by cases hch), by simpa using h⟩

/-- A lazy loop that succeeds stops at the first position where its continuation
succeeds. -/
theorem lazyStar_some_first {α : Type} (p : Char → Bool) (s : Text) (k : Text → Option α)
    (x : α) (h : lazyStar p s k = some x) :
    ∃ b t, s = b ++ t ∧ k t = some x ∧
      ∀ b₁ t₁, s = b₁ ++ t₁ → b₁.length < b.length → k t₁ = none := by
  induction s with
  | nil =>
    refine ⟨[], [], rfl, by simpa [lazyStar] using h, ?_⟩
    intro b₁ t₁ _ hlen
    simp at hlen
  | cons c s ih =>
    simp only [lazyStar] at h
    cases hk : k (c :: s) with
    | some y =>
      rw [hk] at h
      refine ⟨[], c :: s, rfl, by rw [hk]; simpa using h, ?_⟩
      intro b₁ t₁ _ hlen
      simp at hlen
    | none =>
      rw [hk] at h
      by_cases hp : p c = true
      · simp only [hp, if_true] at h
        obtain ⟨b, t, hs, ht, hmin⟩ := ih h
        refine ⟨c :: b, t, by rw [hs]; rfl, ht, ?_⟩
        intro b₁ t₁ hsplit hlen
        cases b₁ with
        | nil =>
          simp only [List.nil_append] at hsplit
          rw [← hsplit]
          exact hk
        | cons d b₁' =>
          simp only [List.cons_append, List.cons.injEq] at hsplit
          exact hmin b₁' t₁ hsplit.2 (by simpa using hlen)
      · simp [hp] at h

/-- How a group around a greedy repetition runs. -/
theorem run_group_plus {α : Type} (i : Nat) (p : Char → Bool) (c : Char) (s : Text)
    (caps : Caps) (k : Text → Caps → Option α) :
    (Re.group i (Re.plus p)).run (c :: s) caps k =
      if p c then
        greedyStar p s
          (fun t => k t ((i, (c :: s).take ((c :: s).length - t.length)) :: caps))
      else none := rfl

/-- A group around a greedy repetition does not match the empty text. -/
theorem run_group_plus_nil {α : Type} (i : Nat) (p : Char → Bool)
    (caps : Caps) (k : Text → Caps → Option α) :
    (Re.group i (Re.plus p)).run [] caps k = none := rfl

/-- How a back-reference to a group that took part runs. -/
theorem run_backref {α : Type} (i : Nat) (w s : Text) (caps : Caps)
    (k : Text → Caps → Option α) (hw : Caps.get caps i = some w) :
    (Re.backref i).run s caps k =
      if w.isPrefixOf s then k (s.drop w.length) caps else none := by
  simp only [Re.run, hw]

/-- The end of the tag expression, `<\/\1>`, consumes the closing tag of the name
captured by the first group. -/
theorem run_closing_append {α : Type} (w r : Text) (caps : Caps)
    (k : Text → Caps → Option α) (hw : Caps.get caps 1 = some w) :
    (Re.seq (Re.lit '<') (Re.seq (Re.lit '/') (Re.seq (Re.backref 1) (Re.lit '>')))).run
      (closingTag w ++ r) caps k = k r caps := by
  have hpre : w.isPrefixOf (w ++ '>' :: r) = true := by
    rw [List.isPrefixOf_iff_prefix]
    exact List.prefix_append _ _
  rw [run_seq]
  simp only [closingTag, List.cons_append, List.append_assoc, List.nil_append, Re.run, Re.lit,
    beq_self_eq_true, if_true, hw, hpre, List.drop_left]

/-- The end of the tag expression only matches a text that starts with the
closing tag of the name captured by the first group. -/
theorem run_closing_some {α : Type} (w u : Text) (caps : Caps)
    (k : Text → Caps → Option α) (x : α) (hw : Caps.get caps 1 = some w)
    (h : (Re.seq (Re.lit '<') (Re.seq (Re.lit '/') (Re.seq (Re.backref 1) (Re.lit '>')))).run
      u caps k = some x) :
    ∃ r, u = closingTag w ++ r ∧ k r caps = some x := by
  rw [run_seq] at h
  obtain ⟨u₁, hu₁, h⟩ := run_lit_some _ _ _ _ _ h
  rw [run_seq] at h
  obtain ⟨u₂, hu₂, h⟩ := run_lit_some _ _ _ _ _ h
  rw [run_seq, run_backref 1 w u₂ caps _ hw] at h
  by_cases hpre : w.isPrefixOf u₂ = true
  · simp only [hpre, if_true] at h
    obtain ⟨u₃, hu₃, h⟩ := run_lit_some _ _ _ _ _ h
    obtain ⟨t, ht⟩ := List.isPrefixOf_iff_prefix.mp hpre
    refine ⟨u₃, ?_, h⟩
    have hdrop : u₂.drop w.length = t := by rw [← ht, List.drop_left]
    rw [hdrop] at hu₃
    rw [hu₁, hu₂, ← ht, hu₃]
    simp [closingTag]
  · simp [hpre] at h

/-- A match of the tag expression is an opening tag `<w>` with a word `w`, a
content, and the first closing tag `</w>` behind the opening tag; the groups
capture `w` and the content. -/
theorem tagRegex_matchAt_some (s : Text) (caps : Caps) (rest : Text)
    (h : tagRegex.matchAt s = some (caps, rest)) :
    ∃ w c, w ≠ [] ∧ (∀ ch ∈ w, isWordChar ch = true) ∧
      s = openingTag w ++ c ++ closingTag w ++ rest ∧ caps = [(2, c), (1, w)] ∧
      ∀ c₁ c₂, c = c₁ ++ c₂ → c₂ ≠ [] → ¬ closingTag w <+: c₂ ++ closingTag w ++ rest := by
  unfold tagRegex Re.matchAt at h
  rw [run_seq] at h
  obtain ⟨s₁, hs₁, h⟩ := run_lit_some _ _ _ _ _ h
  rw [run_seq] at h
  cases s₁ with
  | nil => rw [run_group_plus_nil] at h; cases h
  | cons c₀ s₁' =>
    rw [run_group_plus] at h
    by_cases hp : isWordChar c₀ = true
    · simp only [hp, if_true] at h
      obtain ⟨w', t, hs, hw', h⟩ := greedyStar_some_split _ _ _ _ h
      have hcap₁ : (c₀ :: s₁').take ((c₀ :: s₁').length - t.length) = c₀ :: w' := by
        rw [hs]
        exact take_length_sub (c₀ :: w') t
      rw [hcap₁, run_seq] at h
      obtain ⟨u, hu, h⟩ := run_lit_some _ _ _ _ _ h
      rw [run_seq, run_group_starLazy] at h
      obtain ⟨b, v, hbv, h, hmin⟩ := lazyStar_some_first _ _ _ _ h
      have hcap₂ : u.take (u.length - v.length) = b := by
        rw [hbv]
        exact take_length_sub b v
      rw [hcap₂] at h
      obtain ⟨r, hr, h⟩ := run_closing_some (c₀ :: w') v [(2, b), (1, c₀ :: w')] _ _ rfl h
      simp only [Option.some.injEq, Prod.mk.injEq] at h
      obtain ⟨hcaps, hrest⟩ := h
      subst hrest
      refine ⟨c₀ :: w', b, List.cons_ne_nil _ _, ?_, ?_, hcaps.symm, ?_⟩
      · intro ch hch
        rcases List.mem_cons.mp hch with h' | h'
        · rw [h']; exact hp
        · exact hw' ch h'
      · rw [hs₁, hs, hu, hbv, hr]
        simp [openingTag]
      · intro c₁ c₂ hc hc₂ hpre
        obtain ⟨z, hz⟩ := hpre
        have hnone := hmin c₁ (c₂ ++ v) (by rw [hbv, hc, List.append_assoc]) (by
          rw [hc, List.length_append]
          have : 0 < c₂.length := List.length_pos.mpr hc₂
          omega)
        have hv : c₂ ++ v = closingTag (c₀ :: w') ++ z := by
          rw [hr, hz, List.append_assoc]
        have key : ∀ X : Text,
            (Re.seq (Re.lit '<')
              (Re.seq (Re.lit '/') (Re.seq (Re.backref 1) (Re.lit '>')))).run
              (closingTag (c₀ :: w') ++ z) [(2, X), (1, c₀ :: w')]
              (fun t caps => some (caps, t)) = some ([(2, X), (1, c₀ :: w')], z) :=
          fun X => run_closing_append (c₀ :: w') z [(2, X), (1, c₀ :: w')] _ rfl
        rw [hv, key] at hnone
        cases hnone
    · simp [hp] at h

/-- The character `<` does not occur behind the first character of an opening tag. -/
theorem lt_not_mem_opening (w : Text) (hw : ∀ ch ∈ w, isWordChar ch = true) :
    '<' ∉ w ++ ['>'] := by
  intro h
  rcases List.mem_append.mp h with h | h
  · have := hw '<' h
    revert this
    decide
  · simp at h

/-- The character `<` does not occur behind the first character of a closing tag. -/
theorem lt_not_mem_closing (w : Text) (hw : ∀ ch ∈ w, isWordChar ch = true) :
    '<' ∉ '/' :: w ++ ['>'] := by
  intro h
  rcases List.mem_cons.mp h with h | h
  · revert h; decide
  · exact lt_not_mem_opening w hw h

/-- A text that starts with a tag behind a non-empty prefix: the prefix does not
end inside the first part of the tag. -/
theorem not_split_behind_head (c : Char) (body b y : Text) (hb : b ≠ [])
    (hnot : '<' ∉ body) (h : c :: body = b ++ '<' :: y) : False := by
  cases b with
  | nil => exact hb rfl
  | cons b₀ b₁ =>
    simp only [List.cons_append, List.cons.injEq] at h
    apply hnot
    rw [h.2]
    simp

/-- A match of the tag expression that starts in front of a text `<...` which is
not enclosed by a balanced tag ends in front of that text. -/
theorem tagRegex_matchAt_ends_before (b rest' : Text) (caps : Caps) (r : Text)
    (hb : b ≠ []) (hfree : ¬ Enclosed b ('<' :: rest'))
    (h : tagRegex.matchAt (b ++ '<' :: rest') = some (caps, r)) :
    ∃ b', r = b' ++ '<' :: rest' ∧ b'.length < b.length ∧ b' <:+ b ∧
      ∃ w c, caps = [(2, c), (1, w)] ∧ openingTag w <:+: b := by
  have hlen : r.length < (b ++ '<' :: rest').length := by
    unfold tagRegex at h
    exact matchAt_lit_seq_length _ _ _ _ _ h
  obtain ⟨w, c, hw, hword, hs, hcaps, hmin⟩ := tagRegex_matchAt_some _ _ _ h
  have hs' : b ++ '<' :: rest' = openingTag w ++ (c ++ closingTag w ++ r) := by
    rw [hs]; simp only [List.append_assoc]
  have hshort : ¬ closingTag w <:+: ([] : Text) := by
    intro hin
    have := hin.length_le
    simp [closingTag] at this
  rcases List.append_eq_append_iff.mp hs' with ⟨a', ha', hrest⟩ | ⟨x, hx, hY⟩
  · -- the prefix `b` ends inside the opening tag or right behind it
    exfalso
    cases a' with
    | nil =>
      simp only [List.nil_append] at hrest
      simp only [List.append_nil] at ha'
      apply hfree
      refine ⟨[], w, [], by rw [ha']; simp, hw, hword, hshort, ?_⟩
      rw [hrest]
      exact ⟨c, r, rfl⟩
    | cons a₀ a'' =>
      have ha₀ : a₀ = '<' := by
        simp only [List.cons_append, List.cons.injEq] at hrest
        exact hrest.1.symm
      subst ha₀
      exact not_split_behind_head '<' (w ++ ['>']) b a'' hb (lt_not_mem_opening w hword)
        (by simpa [openingTag] using ha')
  · -- the opening tag lies in `b`, followed by `x`
    have hY' : (c ++ closingTag w) ++ r = x ++ '<' :: rest' := hY
    have hname : ∃ w c, caps = [(2, c), (1, w)] ∧ openingTag w <:+: b :=
      ⟨w, c, hcaps, [], x, by rw [hx]; rfl⟩
    rcases List.append_eq_append_iff.mp hY' with ⟨a', ha', hr⟩ | ⟨e, he, hr⟩
    · refine ⟨a', hr, ?_, ?_, hname⟩
      · rw [hx, ha']
        simp [openingTag]
        omega
      · exact ⟨openingTag w ++ (c ++ closingTag w), by rw [hx, ha']; simp only [List.append_assoc]⟩
    · -- the closing tag ends behind `x`: the text is enclosed
      cases e with
      | nil =>
        simp only [List.nil_append] at hr
        exact ⟨[], by rw [← hr]; rfl, by simpa using List.length_pos.mpr hb, List.nil_suffix,
          hname⟩
      | cons e₀ e' =>
        exfalso
        have he₀ : e₀ = '<' := by
          simp only [List.cons_append, List.cons.injEq] at hr
          exact hr.1.symm
        subst he₀
        apply hfree
        refine ⟨[], w, x, by rw [hx]; simp, hw, hword, ?_, ?_⟩
        · -- the content is the shortest one: no closing tag inside `x`
          rintro ⟨x₁, x₂, hx₁⟩
          have hsplit : c ++ closingTag w = x₁ ++ (closingTag w ++ (x₂ ++ '<' :: e')) := by
            rw [he, ← hx₁]; simp only [List.append_assoc]
          have hl := congrArg List.length hsplit
          simp only [List.length_append, List.length_cons] at hl
          rcases List.append_eq_append_iff.mp hsplit with ⟨a', ha', _⟩ | ⟨c', hc', hcl⟩
          · have := congrArg List.length ha'
            simp only [List.length_append] at this
            omega
          · have hc'ne : c' ≠ [] := by
              intro h0
              subst h0
              have := congrArg List.length hc'
              simp only [List.length_append, List.length_nil] at this
              omega
            apply hmin x₁ c' hc' hc'ne
            refine ⟨x₂ ++ '<' :: e' ++ r, ?_⟩
            rw [← hcl]
            simp only [List.append_assoc]
        · rcases List.append_eq_append_iff.mp he with ⟨a', ha', hcl⟩ | ⟨c', hc', hcl⟩
          · cases a' with
            | nil =>
              simp only [List.nil_append] at hcl
              rw [hr, ← hcl]
              exact ⟨[], r, by simp⟩
            | cons a₀ a'' =>
              exfalso
              have hcl' : '<' :: ('/' :: w ++ ['>']) = (a₀ :: a'') ++ '<' :: e' := by
                simpa [closingTag] using hcl
              exact not_split_behind_head '<' ('/' :: w ++ ['>']) (a₀ :: a'') e'
                (List.cons_ne_nil _ _) (lt_not_mem_closing w hword) hcl'
          · rw [hr, hcl]
            exact ⟨c', r, by simp only [List.append_assoc]⟩

/-- The names of the allow-list are non-empty words. -/
theorem relevantTags_word (t : Text) (ht : t ∈ relevantTags) :
    t ≠ [] ∧ ∀ ch ∈ t, isWordChar ch = true := by
  have h : ∀ t ∈ relevantTags, t ≠ [] ∧ ∀ ch ∈ t, isWordChar ch = true := by decide
  exact h t ht

/-- A text enclosed behind a suffix of a prefix is enclosed behind the prefix. -/
theorem Enclosed.append_left (a b rest : Text) (h : Enclosed b rest) :
    Enclosed (a ++ b) rest := by
  obtain ⟨a₀, w, x, hb, hw, hword, hx, hr⟩ := h
  exact ⟨a ++ a₀, w, x, by rw [hb]; simp only [List.append_assoc], hw, hword, hx, hr⟩

/-- The first match in a text `b ++ <...` whose tail starts with a match and is
not enclosed: either it is the match at the start of the tail, or it ends inside
`b`. -/
theorem tagRegex_search_before (rest' : Text) (caps₀ : Caps) (suf : Text)
    (hm : tagRegex.matchAt ('<' :: rest') = some (caps₀, suf)) :
    ∀ b : Text, ¬ Enclosed b ('<' :: rest') →
      ∃ skipped caps r, tagRegex.search (b ++ '<' :: rest') = some (skipped, caps, r) ∧
        ((caps = caps₀ ∧ r = suf) ∨
          ∃ b', r = b' ++ '<' :: rest' ∧ b'.length < b.length ∧ b' <:+ b ∧
            ∃ w c, caps = [(2, c), (1, w)] ∧ openingTag w <:+: b) := by
  intro b
  induction b with
  | nil =>
    intro _
    refine ⟨[], caps₀, suf, ?_, Or.inl ⟨rfl, rfl⟩⟩
    simp only [List.nil_append, Re.search, hm]
  | cons c b ih =>
    intro hfree
    cases hc : tagRegex.matchAt (c :: b ++ '<' :: rest') with
    | some m =>
      obtain ⟨caps, r⟩ := m
      obtain ⟨b', hr, hl, hsuf, hname⟩ :=
        tagRegex_matchAt_ends_before (c :: b) rest' caps r (List.cons_ne_nil _ _) hfree hc
      refine ⟨[], caps, r, ?_, Or.inr ⟨b', hr, hl, hsuf, hname⟩⟩
      rw [List.cons_append] at hc ⊢
      simp only [Re.search, hc]
    | none =>
      have hfree' : ¬ Enclosed b ('<' :: rest') := fun h =>
        hfree (Enclosed.append_left [c] b _ h)
      obtain ⟨skipped, caps, r, hs, hcase⟩ := ih hfree'
      refine ⟨c :: skipped, caps, r, ?_, ?_⟩
      · rw [List.cons_append] at hc ⊢
        simp only [Re.search, hc, hs, Option.map_some']
      · rcases hcase with h | ⟨b', hr, hl, hsuf, w, c', hcaps, hin⟩
        · exact Or.inl h
        · refine Or.inr ⟨b', hr, ?_, ?_, w, c', hcaps, ?_⟩
          · simp only [List.length_cons]; omega
          · exact hsuf.trans (List.suffix_cons c b)
          · exact hin.trans (List.suffix_cons c b).isInfix

/-- The opening tag whose closing tag encloses a text is a slice of the prefix. -/
theorem Enclosed.slice (pre rest : Text) (h : Enclosed pre rest) :
    ∃ n, n < pre.length + 1 ∧ ∃ m, m < pre.length + 1 ∧
      closingTag ((pre.drop n).take m) <:+: rest := by
  obtain ⟨a, w, x, hpre, _, _, _, hr⟩ := h
  have hl : pre.length = a.length + (w.length + 2) + x.length := by
    rw [hpre]
    simp [openingTag]
    omega
  have hd : (pre.drop (a.length + 1)).take w.length = w := by
    have e : pre = (a ++ ['<']) ++ (w ++ ('>' :: x)) := by
      rw [hpre]
      simp [openingTag]
    have e' : (a ++ ['<']).length = a.length + 1 := by simp
    rw [e, ← e', List.drop_left, List.take_left]
  exact ⟨a.length + 1, by omega, w.length, by omega, by rw [hd]; exact hr⟩

/-- How a literal character runs on a text that starts with it. -/
theorem run_lit_cons {α : Type} (c : Char) (t : Text) (caps : Caps)
    (k : Text → Caps → Option α) : (Re.lit c).run (c :: t) caps k = k t caps := by
  simp [Re.run, Re.lit]

/-- A lazy loop runs over a text `x` of class characters to the first position
where its continuation succeeds. -/
theorem lazyStar_append_first {α : Type} (p : Char → Bool) (x t : Text)
    (k : Text → Option α) (r : α) (hx : ∀ ch ∈ x, p ch = true)
    (hmiss : ∀ x₁ x₂, x = x₁ ++ x₂ → x₂ ≠ [] → k (x₂ ++ t) = none)
    (hk : k t = some r) : lazyStar p (x ++ t) k = some r := by
  induction x with
  | nil => exact lazyStar_hit p t k r hk
  | cons a x ih =>
    have h1 : p a = true := hx a (List.mem_cons_self _ _)
    have h2 : k (a :: (x ++ t)) = none := hmiss [] (a :: x) rfl (List.cons_ne_nil _ _)
    have h3 := ih (fun ch hch => hx ch (List.mem_cons_of_mem _ hch))
      (fun x₁ x₂ hsplit hne => hmiss (a :: x₁) x₂ (by rw [hsplit]; rfl) hne)
    have e : lazyStar p (a :: (x ++ t)) k = lazyStar p (x ++ t) k := by
      simp only [lazyStar, h2, h1, if_true]
    rw [List.cons_append, e]
    exact h3

/-- In front of the first closing tag `</w>` of a text no closing tag `</w>`
starts. -/
theorem closingTag_starts_late (w x x₁ x₂ rest : Text)
    (hword : ∀ ch ∈ w, isWordChar ch = true) (hx : ¬ closingTag w <:+: x)
    (hsplit : x = x₁ ++ x₂) (hne : x₂ ≠ []) :
    ¬ closingTag w <+: x₂ ++ (closingTag w ++ rest) := by
  rintro ⟨z, hz⟩
  rcases List.append_eq_append_iff.mp hz with ⟨a', ha', _⟩ | ⟨c', hc', hcl⟩
  · -- the closing tag lies inside `x₂`
    apply hx
    rw [hsplit, ha']
    exact ⟨x₁, a', by simp only [List.append_assoc]⟩
  · cases c' with
    | nil =>
      apply hx
      rw [hsplit, ← List.append_nil x₂, ← hc']
      exact ⟨x₁, [], by simp⟩
    | cons c₀ c'' =>
      -- the closing tag would start inside `x₂` and end behind it
      have hc₀ : c₀ = '<' := by
        simp only [closingTag, List.cons_append, List.cons.injEq] at hcl
        exact hcl.1.symm
      subst hc₀
      exact not_split_behind_head '<' ('/' :: w ++ ['>']) x₂ c'' hne
        (lt_not_mem_closing w hword) (by simpa [closingTag] using hc')

/-- At the start of a balanced tag `<w>x</w>` (`w` a word, no `</w>` in `x`) the
tag expression matches exactly this tag, capturing `w` and `x`. -/
theorem tagRegex_matchAt_balanced (w x rest : Text)
    (hw : w ≠ []) (hword : ∀ ch ∈ w, isWordChar ch = true) (hx : ¬ closingTag w <:+: x) :
    tagRegex.matchAt (openingTag w ++ x ++ closingTag w ++ rest)
      = some ([(2, x), (1, w)], rest) := by
  obtain ⟨a, w', rfl⟩ := List.exists_cons_of_ne_nil hw
  have ha : isWordChar a = true := hword a (List.mem_cons_self _ _)
  have hw' : ∀ ch ∈ w', isWordChar ch = true := fun ch hch =>
    hword ch (List.mem_cons_of_mem _ hch)
  have htext : openingTag (a :: w') ++ x ++ closingTag (a :: w') ++ rest
      = '<' :: a :: (w' ++ '>' :: (x ++ (closingTag (a :: w') ++ rest))) := by
    simp [openingTag]
  have hcap₁ : (a :: (w' ++ '>' :: (x ++ (closingTag (a :: w') ++ rest)))).take
      ((a :: (w' ++ '>' :: (x ++ (closingTag (a :: w') ++ rest)))).length
        - ('>' :: (x ++ (closingTag (a :: w') ++ rest))).length) = a :: w' :=
    take_length_sub (a :: w') ('>' :: (x ++ (closingTag (a :: w') ++ rest)))
  have hcap₂ : (x ++ (closingTag (a :: w') ++ rest)).take
      ((x ++ (closingTag (a :: w') ++ rest)).length
        - (closingTag (a :: w') ++ rest).length) = x :=
    take_length_sub x (closingTag (a :: w') ++ rest)
  unfold tagRegex Re.matchAt
  rw [htext, run_seq, run_lit_cons, run_seq, run_group_plus, if_pos ha]
  apply greedyStar_append _ _ _ _ _ hw'
  rw [greedyStar_stop _ _ _ _ (by decide)]
  rw [hcap₁, run_seq, run_lit_cons, run_seq, run_group_starLazy]
  apply lazyStar_append_first _ _ _ _ _ (fun ch _ => rfl)
  · intro x₁ x₂ hsplit hne
    generalize (x ++ (closingTag (a :: w') ++ rest)).take
      ((x ++ (closingTag (a :: w') ++ rest)).length
        - (x₂ ++ (closingTag (a :: w') ++ rest)).length) = cap
    cases hrun : (Re.seq (Re.lit '<')
        (Re.seq (Re.lit '/') (Re.seq (Re.backref 1) (Re.lit '>')))).run
        (x₂ ++ (closingTag (a :: w') ++ rest)) [(2, cap), (1, a :: w')]
        (fun t caps => some (caps, t)) with
    | none => rfl
    | some y =>
      exfalso
      obtain ⟨r, hr, _⟩ :=
        run_closing_some (a :: w') _ [(2, cap), (1, a :: w')] _ _ rfl hrun
      exact closingTag_starts_late (a :: w') x x₁ x₂ rest hword hx hsplit hne ⟨r, hr.symm⟩
  · rw [hcap₂, run_closing_append (a :: w') rest [(2, x), (1, a :: w')] _ rfl]

/-- The loop of `extractTags` reaches every balanced tag `<w>x</w>` that is not
enclosed by a balanced tag: it records the tag when its name is on the
allow-list and goes on behind it.  The matches in front of the tag leave the
entry of a name `t` alone when no opening tag `<t>` stands in front of it. -/
theorem extractTagsLoop_reaches (w x suf t : Text) (hw : w ≠ [])
    (hword : ∀ ch ∈ w, isWordChar ch = true) (hx : ¬ closingTag w <:+: x) :
    ∀ (n : Nat) (b : Text) (tags : Dict Text), b.length < n →
      ¬ Enclosed b (openingTag w ++ x ++ closingTag w ++ suf) →
      ∃ tags',
        extractTagsLoop ((b ++ (openingTag w ++ x ++ closingTag w ++ suf)).length + 1)
            (b ++ (openingTag w ++ x ++ closingTag w ++ suf)) tags
          = extractTagsLoop (suf.length + 1) suf
              (if w ∈ relevantTags then Dict.set tags' w (trim x) else tags') ∧
        (¬ openingTag t <:+: b → Dict.get tags' t = Dict.get tags t) := by
  obtain ⟨rest', hcons⟩ : ∃ rest', openingTag w ++ x ++ closingTag w ++ suf = '<' :: rest' :=
    ⟨w ++ ['>'] ++ x ++ closingTag w ++ suf, by simp [openingTag]⟩
  have hm : tagRegex.matchAt ('<' :: rest') = some ([(2, x), (1, w)], suf) := by
    rw [← hcons]
    exact tagRegex_matchAt_balanced w x suf hw hword hx
  have hsuf : suf.length < ('<' :: rest').length := by
    have h := hm
    unfold tagRegex at h
    exact matchAt_lit_seq_length _ _ _ _ _ h
  rw [hcons]
  intro n
  induction n with
  | zero => intro b tags h; omega
  | succ n ih =>
    intro b tags hlen hfree
    obtain ⟨skipped, caps, r, hs, hcase⟩ := tagRegex_search_before rest' _ suf hm b hfree
    have hround : extractTagsLoop ((b ++ '<' :: rest').length + 1) (b ++ '<' :: rest') tags
        = if (Caps.get caps 1).getD [] ∈ relevantTags then
            extractTagsLoop (b ++ '<' :: rest').length r
              (Dict.set tags ((Caps.get caps 1).getD []) (trim ((Caps.get caps 2).getD [])))
          else extractTagsLoop (b ++ '<' :: rest').length r tags := by
      simp only [extractTagsLoop, hs]
    rw [hround]
    rcases hcase with ⟨hcaps, hr⟩ | ⟨b', hr, hl, hb', w', c', hcaps, hin⟩
    · subst hcaps
      subst hr
      have h1 : (Caps.get [(2, x), (1, w)] 1).getD [] = w := by simp [Caps.get]
      have h2 : (Caps.get [(2, x), (1, w)] 2).getD [] = x := by simp [Caps.get]
      rw [h1, h2]
      obtain ⟨more, hmore⟩ : ∃ more, (b ++ '<' :: rest').length = r.length + 1 + more :=
        Nat.exists_eq_add_of_le (by simp only [List.length_append]; omega)
      rw [hmore]
      refine ⟨tags, ?_, fun _ => rfl⟩
      by_cases hrel : w ∈ relevantTags
      · rw [if_pos hrel, if_pos hrel, extractTagsLoop_fuel _ _ _ _ (by omega)]
      · rw [if_neg hrel, if_neg hrel, extractTagsLoop_fuel _ _ _ _ (by omega)]
    · have hfree' : ¬ Enclosed b' ('<' :: rest') := by
        obtain ⟨a, ha⟩ := hb'
        intro h
        apply hfree
        rw [← ha]
        exact Enclosed.append_left a b' _ h
      have hle : (b' ++ '<' :: rest').length + 1 ≤ (b ++ '<' :: rest').length := by
        simp only [List.length_append]; omega
      obtain ⟨more, hmore⟩ := Nat.exists_eq_add_of_le hle
      subst hr
      subst hcaps
      have h1 : (Caps.get [(2, c'), (1, w')] 1).getD [] = w' := by simp [Caps.get]
      have h2 : (Caps.get [(2, c'), (1, w')] 2).getD [] = c' := by simp [Caps.get]
      have hno' : ¬ openingTag t <:+: b → ¬ openingTag t <:+: b' := fun hno h =>
        hno (h.trans hb'.isInfix)
      have hwt : ¬ openingTag t <:+: b → w' ≠ t := by
        intro hno h
        subst h
        exact hno hin
      rw [h1, h2, hmore]
      by_cases hrel : w' ∈ relevantTags
      · rw [if_pos hrel, extractTagsLoop_fuel _ _ _ _ (by omega)]
        obtain ⟨tags', hrun, hget⟩ := ih b' (Dict.set tags w' (trim c')) (by omega) hfree'
        refine ⟨tags', hrun, ?_⟩
        intro hno
        rw [hget (hno' hno), Dict.get_set, if_neg (hwt hno)]
      · rw [if_neg hrel, extractTagsLoop_fuel _ _ _ _ (by omega)]
        obtain ⟨tags', hrun, hget⟩ := ih b' tags (by omega) hfree'
        exact ⟨tags', hrun, fun hno => hget (hno' hno)⟩

/-- The loop of `extractTags` leaves the entry of a tag name alone when no opening
tag of that name occurs in the text. -/
theorem extractTagsLoop_get_of_no_opening (t : Text) :
    ∀ (fuel : Nat) (s : Text) (tags : Dict Text), ¬ openingTag t <:+: s →
      Dict.get (extractTagsLoop fuel s tags) t = Dict.get tags t := by
  intro fuel
  induction fuel with
  | zero => intro s tags _; rfl
  | succ fuel ih =>
    intro s tags hno
    simp only [extractTagsLoop]
    cases hs : tagRegex.search s with
    | none => rfl
    | some m =>
      obtain ⟨skipped, caps, r⟩ := m
      obtain ⟨s', hss, hm⟩ := search_some _ _ _ _ _ hs
      obtain ⟨w, c, _, _, hs', hcaps, _⟩ := tagRegex_matchAt_some _ _ _ hm
      subst hcaps
      have h1 : (Caps.get [(2, c), (1, w)] 1).getD [] = w := by simp [Caps.get]
      have hwt : w ≠ t := by
        intro h
        subst h
        apply hno
        exact ⟨skipped, c ++ closingTag w ++ r, by rw [hss, hs']; simp only [List.append_assoc]⟩
      have hr : ¬ openingTag t <:+: r := by
        intro h
        apply hno
        have hsufx : r <:+ s :=
          ⟨skipped ++ (openingTag w ++ c ++ closingTag w), by
            rw [hss, hs']; simp only [List.append_assoc]⟩
        exact h.trans hsufx.isInfix
      simp only [h1]
      split_ifs
      · rw [ih r _ hr, Dict.get_set, if_neg hwt]
      · exact ih r _ hr

/-- A name that is not on the allow-list has no entry in the result of
`extractTags`. -/
theorem extractTags_get_not_relevant (text k : Text) (hk : k ∉ relevantTags) :
    Dict.get (extractTags text) k = none := by
  cases h : Dict.get (extractTags text) k with
  | none => rfl
  | some v => exact absurd (mem_extractTags text (k, v) (Dict.mem_of_get _ _ _ h)).1 hk

/-- A tag `<t>c</t>` is the opening tag, the content and the closing tag. -/
theorem renderTag_eq (t c : Text) : renderTag t c = openingTag t ++ c ++ closingTag t := by
  simp [renderTag, openingTag, closingTag]

/-- A content without `<` holds no closing tag. -/
theorem closingTag_not_within (t c : Text) (hc : '<' ∉ c) : ¬ closingTag t <:+: c := by
  rintro ⟨a, b, h⟩
  apply hc
  rw [← h]
  simp [closingTag]

/-- A name whose opening tags all stand inside a balanced tag of another name
that is not itself enclosed has no entry in the result of `extractTags`. -/
theorem extractTags_get_of_enclosing (before w x behind t : Text) (hw : w ≠ [])
    (hword : ∀ ch ∈ w, isWordChar ch = true) (hwt : w ≠ t) (hx : ¬ closingTag w <:+: x)
    (hfree : ¬ Enclosed before (openingTag w ++ x ++ closingTag w ++ behind))
    (hbefore : ¬ openingTag t <:+: before) (hbehind : ¬ openingTag t <:+: behind) :
    Dict.get (extractTags (before ++ openingTag w ++ x ++ closingTag w ++ behind)) t = none := by
  obtain ⟨tags', hrun, hget⟩ := extractTagsLoop_reaches w x behind t hw hword hx
    (before.length + 1) before [] (by omega) hfree
  have htext : before ++ openingTag w ++ x ++ closingTag w ++ behind
      = before ++ (openingTag w ++ x ++ closingTag w ++ behind) := by
    simp only [List.append_assoc]
  unfold extractTags
  rw [htext, hrun, extractTagsLoop_get_of_no_opening t _ _ _ hbehind]
  by_cases hrel : w ∈ relevantTags
  · rw [if_pos hrel, Dict.get_set, if_neg hwt, hget hbefore]
    rfl
  · rw [if_neg hrel, hget hbefore]
    rfl

set_option maxRecDepth 100000 in
/-- C16 (counterexample): an allow-listed tag enclosed by a balanced tag that is
not on the allow-list contributes nothing; the match of the enclosing tag
swallows it and the result of `extractTags` is empty. -/
theorem enclosed_tag_is_swallowed :
    "email".toList ∈ relevantTags ∧ '<' ∉ "a@b.c".toList ∧
    extractTags ("<note>".toList ++ renderTag "email".toList "a@b.c".toList
      ++ "</note>".toList) = [] ∧
    extractTags ("<note>".toList ++ renderTag "email".toList "a@b.c".toList
      ++ " bye".toList) = [("email".toList, "a@b.c".toList)] := by
  decide

/-- C16 (amended): names that are not on the allow-list never get an entry, and
every allow-listed tag `<t>c</t>` (`c` without `<`) of the text that is not
enclosed by a balanced tag (no opening tag `<w>` in front of it is closed for
the first time at or behind the start of the tag) is reached by the loop of
`extractTags`, which records the trimmed content under `t` and goes on behind
the tag, whatever stands in front of and behind it; the result holds that
content under `t` when no opening tag `<t>` follows.  A tag enclosed by a
balanced tag can be consumed with it: when every opening tag `<t>` of a text
stands inside a balanced tag `<w>x</w>` of another name that is not itself
enclosed, the result has no entry for `t`. -/
theorem extractTags_records_tag (pre t c suf : Text) (ht : t ∈ relevantTags)
    (hc : '<' ∉ c) (hfree : ¬ Enclosed pre (renderTag t c ++ suf)) :
    (∀ (text k : Text), k ∉ relevantTags → Dict.get (extractTags text) k = none) ∧
    (∃ tags, extractTags (pre ++ renderTag t c ++ suf)
        = extractTagsLoop (suf.length + 1) suf (Dict.set tags t (trim c))) ∧
    (¬ openingTag t <:+: suf →
      Dict.get (extractTags (pre ++ renderTag t c ++ suf)) t = some (trim c)) ∧
    (∀ (before w x behind : Text), w ≠ [] → (∀ ch ∈ w, isWordChar ch = true) → w ≠ t →
      ¬ closingTag w <:+: x →
      ¬ Enclosed before (openingTag w ++ x ++ closingTag w ++ behind) →
      ¬ openingTag t <:+: before → ¬ openingTag t <:+: behind →
      Dict.get (extractTags (before ++ openingTag w ++ x ++ closingTag w ++ behind)) t
        = none) := by
  obtain ⟨htne, hword⟩ := relevantTags_word t ht
  have hfree' : ¬ Enclosed pre (openingTag t ++ c ++ closingTag t ++ suf) := by
    rw [← renderTag_eq]
    exact hfree
  obtain ⟨tags, hrun, _⟩ := extractTagsLoop_reaches t c suf t htne hword
    (closingTag_not_within t c hc) (pre.length + 1) pre [] (by omega) hfree'
  rw [if_pos ht, ← renderTag_eq, ← List.append_assoc] at hrun
  have hreach : ∃ tags, extractTags (pre ++ renderTag t c ++ suf)
      = extractTagsLoop (suf.length + 1) suf (Dict.set tags t (trim c)) := ⟨tags, hrun⟩
  refine ⟨extractTags_get_not_relevant, hreach, ?_, ?_⟩
  · intro hlast
    unfold extractTags
    rw [hrun, extractTagsLoop_get_of_no_opening t _ _ _ hlast, Dict.get_set, if_pos rfl]
  · intro before w x behind hw hwword hwt hx hfree₂ hbefore hbehind
    exact extractTags_get_of_enclosing before w x behind t hw hwword hwt hx hfree₂
      hbefore hbehind

set_option maxRecDepth 100000 in
/-- C16 (witness): behind a balanced tag and an unclosed tag that are not on the
allow-list, the tag `<email>` is recorded with its trimmed content. -/
theorem extractTags_records_tag_witness :
    Dict.get (extractTags ("<i>hi</i> <note>".toList
      ++ renderTag "email".toList " a@b.c ".toList ++ " bye".toList)) "email".toList
      = some "a@b.c".toList :=
  (extractTags_records_tag "<i>hi</i> <note>".toList "email".toList " a@b.c ".toList
    " bye".toList (by decide) (by decide)
    (fun h => by
      obtain ⟨n, hn, m, hm, hin⟩ := Enclosed.slice _ _ h
      exact (by decide : ∀ n < 17, ∀ m < 17,
        ¬ closingTag (("<i>hi</i> <note>".toList.drop n).take m)
          <:+: renderTag "email".toList " a@b.c ".toList ++ " bye".toList) n hn m hm hin)).2.2.1
    (by decide)

end Bot
